import Mathlib

/-!
Shallow embedding of the fixed-point graph-rewriting engine
(`src/compiler/graph-reducer.cc`): the `Reducer` dispatch loop
(`GraphReducer::Reduce`), the node/graph data model it mutates, the
replacement protocols (`GraphReducer::Replace`,
`GraphReducer::ReplaceWithValue`) and the traversal driver
(`GraphReducer::ReduceTop` / `ReduceNode` / `ReduceGraph`).

Nodes are addressed by their stable integer identifiers (list index in an
arena), edges are input slots `(user, position)`, and machine state is the
explicit visitation bookkeeping of the engine.  Functions that the C++
realises as unbounded loops (the reducer dispatch restart loop, the driver
for-loop) take an explicit fuel argument and return `none` / an error when
it runs out; every other loop of the source is structurally bounded.
-/

set_option autoImplicit false

namespace V8

/-- The result of applying one reducer to one node (`Reduction` in the
source): either no change, or a change carrying the replacement node.
An in-place change is represented, exactly as in the source, by a
`changed` result whose replacement is the node itself. -/
inductive Reduction where
  | noChange
  | changed (replacement : Nat)
deriving DecidableEq, Repr

/-- `Reduction::Changed()` of the source. -/
def Reduction.Changed : Reduction → Bool
  | .noChange => false
  | .changed _ => true

/-- An entry of the reducer-invocation trace: which reducer (by index in
registration order) was invoked, and what it reported. -/
abbrev TraceEntry := Nat × Reduction

/-- An invocation entry reporting a replacement by a node different from
`node`. -/
def isRepl (node : Nat) : TraceEntry → Bool
  | (_, .changed r) => r ≠ node
  | (_, .noChange) => false

/-- An invocation entry reporting an in-place change of `node`. -/
def isInPlace (node : Nat) : TraceEntry → Bool
  | (_, .changed r) => r = node
  | (_, .noChange) => false

namespace GraphReducer

/-- The loop of `GraphReducer::Reduce`, generic in the hidden state `σ` of
the reducer list (for the traversal driver, `σ` is the graph; reducers may
mutate it).  `call s i` invokes the `i`-th registered reducer.  Mirrors the
source: a reducer equal to `skip` is passed over; a `noChange` result moves
to the next reducer; an in-place result (`changed` with the node itself)
records the reducer in `skip` and restarts from the first reducer; any
other `changed` result is returned at once.  When the reducer list is
exhausted, the result is `noChange` if `skip` was never set and an in-place
`changed node` otherwise.  The source realises this as an unbounded loop;
here each iteration consumes one unit of fuel and exhaustion yields
`none`.  Besides the result and final state, the returned trace lists every
reducer invocation in order. -/
def reduceLoop {σ : Type} (node n : Nat) (call : σ → Nat → Reduction × σ) :
    Nat → Nat → Option Nat → σ → Option (Reduction × σ × List TraceEntry)
  | 0, _, _, _ => none
  | fuel + 1, i, skip, s =>
    if i < n then
      if skip = some i then
        reduceLoop node n call fuel (i + 1) skip s
      else
        match call s i with
        | (Reduction.noChange, s₂) =>
            (reduceLoop node n call fuel (i + 1) skip s₂).map
              (fun p => (p.1, p.2.1, (i, Reduction.noChange) :: p.2.2))
        | (Reduction.changed repl, s₂) =>
            if repl = node then
              (reduceLoop node n call fuel 0 (some i) s₂).map
                (fun p => (p.1, p.2.1, (i, Reduction.changed repl) :: p.2.2))
            else
              some (Reduction.changed repl, s₂, [(i, Reduction.changed repl)])
    else
      match skip with
      | none => some (Reduction.noChange, s, [])
      | some _ => some (Reduction.changed node, s, [])

/-- `GraphReducer::Reduce(node)`: run the dispatch loop from the first
reducer with no reducer skipped. -/
def Reduce {σ : Type} (node n : Nat) (call : σ → Nat → Reduction × σ)
    (fuel : Nat) (s : σ) : Option (Reduction × σ × List TraceEntry) :=
  reduceLoop node n call fuel 0 none s

end GraphReducer

/-- A two-reducer example for exercising the dispatch: reducer 0 reports no
change, reducer 1 replaces the node by node 7.  The reducer-list state is
trivial. -/
def replCall : Unit → Nat → Reduction × Unit :=
  fun u i => (if i = 1 then Reduction.changed 7 else Reduction.noChange, u)

/-- Stateful example reducers for the dispatch: each reducer fires in place
on node 0 on its first invocation and reports no change afterwards; the
reducer-list state counts invocations per reducer. -/
def inPlaceOnceCall : (Nat → Nat) → Nat → Reduction × (Nat → Nat) :=
  fun counts i =>
    (if counts i = 0 then Reduction.changed 0 else Reduction.noChange,
     fun j => if j = i then counts j + 1 else counts j)

/-- Opcodes the engine inspects (`IrOpcode::kReplacementPlaceholder`,
`kIfSuccess`, `kIfException`); every other operator of the IR is `other`. -/
inductive Opcode where
  | replacementPlaceholder
  | ifSuccess
  | ifException
  | other (tag : Nat)
deriving DecidableEq, Repr

/-- Operator metadata consumed from the IR collaborator (spec section 6):
the opcode and the input and output counts per edge kind. -/
structure Operator where
  opcode : Opcode
  valueIn : Nat
  effectIn : Nat
  controlIn : Nat
  valueOut : Nat
  effectOut : Nat
  controlOut : Nat
deriving DecidableEq, Repr

/-- A graph node: operator, ordered input list (each entry the identifier
of the producing node), and the dead mark set by `Node::Kill`. -/
structure Node where
  op : Operator
  inputs : List Nat
  dead : Bool
deriving DecidableEq, Repr

/-- The node returned for an out-of-range identifier lookup. -/
def defaultNode : Node :=
  { op := { opcode := Opcode.other 0, valueIn := 0, effectIn := 0, controlIn := 0,
            valueOut := 0, effectOut := 0, controlOut := 0 },
    inputs := [], dead := false }

/-- The IR graph: an arena of nodes addressed by identifier (list index;
identifiers are stable and ordered by creation time) plus the designated
start and end markers. -/
structure Graph where
  nodes : List Node
  startId : Nat
  endId : Nat
deriving DecidableEq, Repr

/-- Node lookup by identifier. -/
def Graph.node (g : Graph) (i : Nat) : Node :=
  g.nodes.getD i defaultNode

/-- Overwrite the node stored at identifier `i`. -/
def Graph.setNode (g : Graph) (i : Nat) (nd : Node) : Graph :=
  { g with nodes := g.nodes.set i nd }

/-- `Edge::UpdateTo`: redirect input slot `k` of node `u` to target `t`. -/
def Graph.updateEdge (g : Graph) (u k t : Nat) : Graph :=
  g.setNode u { g.node u with inputs := (g.node u).inputs.set k t }

/-- `Node::Kill`: clear all inputs (detaching the node from its producers'
use lists) and mark the node dead. -/
def Graph.kill (g : Graph) (i : Nat) : Graph :=
  g.setNode i { g.node i with inputs := [], dead := true }

/-- The use edges of node `i` (`Node::use_edges()`): every input slot
`(u, k)` in the graph whose current target is `i`, in increasing order of
user identifier and slot. -/
def Graph.useEdges (g : Graph) (i : Nat) : List (Nat × Nat) :=
  (List.range g.nodes.length).flatMap fun u =>
    (List.range (g.node u).inputs.length).filterMap fun k =>
      if (g.node u).inputs.getD k 0 = i then some (u, k) else none

/-- The current target of input slot `k` of node `u` (0 when the slot does
not exist). -/
def Graph.input (g : Graph) (u k : Nat) : Nat :=
  (g.node u).inputs.getD k 0

/-- The kind of an input slot. -/
inductive EdgeKind where
  | value
  | effect
  | control
  | misc
deriving DecidableEq, Repr

/-- Modelled from the spec: the edge-kind classification of
`NodeProperties` (node-properties.h is not part of the sources).  Spec
section 6: inputs are ordered by kind, value inputs first, then effect
inputs, then control inputs; a slot's kind is determined by its
position. -/
def Operator.edgeKind (op : Operator) (k : Nat) : EdgeKind :=
  if k < op.valueIn then EdgeKind.value
  else if k < op.valueIn + op.effectIn then EdgeKind.effect
  else if k < op.valueIn + op.effectIn + op.controlIn then EdgeKind.control
  else EdgeKind.misc

namespace NodeProperties

/-- `NodeProperties::IsControlEdge` on input slot `k` of node `u`. -/
def IsControlEdge (g : Graph) (u k : Nat) : Bool :=
  match (g.node u).op.edgeKind k with
  | EdgeKind.control => true
  | _ => false

/-- `NodeProperties::IsEffectEdge` on input slot `k` of node `u`. -/
def IsEffectEdge (g : Graph) (u k : Nat) : Bool :=
  match (g.node u).op.edgeKind k with
  | EdgeKind.effect => true
  | _ => false

/-- Modelled from the spec: `NodeProperties::GetEffectInput` — the first
effect input of a node (the slot right after the value inputs). -/
def GetEffectInput (g : Graph) (i : Nat) : Nat :=
  (g.node i).inputs.getD (g.node i).op.valueIn 0

/-- Modelled from the spec: `NodeProperties::GetControlInput` — the first
control input of a node (the slot right after value and effect inputs). -/
def GetControlInput (g : Graph) (i : Nat) : Nat :=
  (g.node i).inputs.getD ((g.node i).op.valueIn + (g.node i).op.effectIn) 0

end NodeProperties

/-- Modelled from the spec:
`CommonOperatorBuilder::ReplacementPlaceholder` (common-operator is not
part of the sources).  Spec section 3: a placeholder operator has one
output per kind flag, matching the node it aliases, and its inputs are the
appended alias targets. -/
def ReplacementPlaceholder (hv he hc : Nat) : Operator :=
  { opcode := Opcode.replacementPlaceholder,
    valueIn := hv, effectIn := he, controlIn := hc,
    valueOut := hv, effectOut := he, controlOut := hc }

/-- Modelled from the spec: `Verifier::VerifyEdgeInputReplacement`
(verifier.cc is not part of the sources).  Spec sections 6 and 7: the
verifier fails fatally when the kind of the redirected edge is one the
replacement operator cannot produce.  `true` means the check passes. -/
def VerifyEdgeInputReplacement (g : Graph) (u k repl : Nat) : Bool :=
  match (g.node u).op.edgeKind k with
  | EdgeKind.value => (g.node repl).op.valueOut != 0
  | EdgeKind.effect => (g.node repl).op.effectOut != 0
  | EdgeKind.control => (g.node repl).op.controlOut != 0
  | EdgeKind.misc => true

/-- The while-loop chasing a placeholder chain to its ultimate target
(`while (input->opcode() == kReplacementPlaceholder) input = input->InputAt(0)`).
The source loop is unbounded and diverges on a cyclic chain; here it takes
explicit fuel (callers pass the node count, enough for any acyclic
chain). -/
def chase (g : Graph) : Nat → Nat → Nat
  | 0, x => x
  | fuel + 1, x =>
    if (g.node x).op.opcode = Opcode.replacementPlaceholder then
      chase g fuel ((g.node x).inputs.getD 0 0)
    else x

/-- A placeholder chain of length `m` in `g` from `x` to its ultimate
non-placeholder target `t`, following first inputs exactly as the chasing
loop does. -/
inductive ChasesN (g : Graph) : Nat → Nat → Nat → Prop where
  | done (x : Nat) :
      (g.node x).op.opcode ≠ Opcode.replacementPlaceholder → ChasesN g 0 x x
  | step (m x t : Nat) :
      (g.node x).op.opcode = Opcode.replacementPlaceholder →
      ChasesN g m ((g.node x).inputs.getD 0 0) t → ChasesN g (m + 1) x t

namespace GraphReducer

/-- `GraphReducer::State`: per-node visitation state, default
`kUnvisited`. -/
inductive State where
  | kUnvisited
  | kRevisit
  | kOnStack
  | kVisited
deriving DecidableEq, Repr

/-- The enumeration order of `GraphReducer::State` (the source compares
states with `>`). -/
def State.toNat : State → Nat
  | State.kUnvisited => 0
  | State.kRevisit => 1
  | State.kOnStack => 2
  | State.kVisited => 3

/-- `GraphReducer::NodeState`: a stack frame holding a node and the
resumable input cursor. -/
structure NodeState where
  node : Nat
  input_index : Nat
deriving DecidableEq, Repr

end GraphReducer

/-- A registered reducer.  `reduce` is `Reducer::Reduce`: it may mutate the
graph (an in-place change) and reports a `Reduction`.  `finalize` models
`Reducer::Finalize` together with the revisit requests an advanced
reducer's finalizer may issue through its editor: invoked once per
finalization round, it returns the nodes whose revisit it requests; the
base-class finalizer does nothing and requests none. -/
structure Reducer where
  reduce : Graph → Nat → Reduction × Graph
  finalize : Nat → List Nat := fun _ => []

/-- The reducer used for out-of-range lookups in the registration list. -/
def defaultReducer : Reducer :=
  { reduce := fun g _ => (Reduction.noChange, g) }

/-- The mutable state of a `GraphReducer`: the graph, the dead sentinel
node (`dead_`), the per-node visitation marker (`state_`), the revisit
queue (`revisit_`, front first), the traversal stack (`stack_`, top
first), and the counters driving the resweep heuristic.
`finalize_rounds` counts completed finalization rounds; it models the
internal state the reducers' finalizers evolve across rounds. -/
structure GraphReducer where
  graph : Graph
  dead : Nat
  state : Nat → GraphReducer.State
  revisit : List Nat
  stack : List GraphReducer.NodeState
  nb_traversed_uses : Nat
  nb_visited_nodes : Nat
  revisit_all_nodes : Bool
  finalize_rounds : Nat

/-- The fixed parameters of a run: the registered reducers, the resweep
threshold test (`heur uses visited`, modelling the missing
`turbo_revisit_whole_graph_threshold` comparison of the header), the
`FLAG_turbo_reduction_placeholder` flag, and the fuel bound for each
dispatch call. -/
structure Params where
  reducers : List Reducer
  heur : Nat → Nat → Bool
  flagPlaceholder : Bool
  dispatchFuel : Nat

/-- Errors of the embedded engine: fuel exhaustion of an unbounded source
loop, or the fatal verifier failure of the eager replacement path. -/
inductive Err where
  | outOfFuel
  | verifyFail
deriving DecidableEq, Repr

/-- Events observable in a run: a reducer invoked on a node by the
dispatch, or a reducer's finalizer invoked. -/
inductive Event where
  | reduceCall (reducer node : Nat)
  | finalizeCall (reducer : Nat)
deriving DecidableEq, Repr

namespace GraphReducer

/-- Point update of the visitation marker. -/
def setVState (f : Nat → State) (n : Nat) (v : State) : Nat → State :=
  fun m => if m = n then v else f m

/-- `GraphReducer::Pop`: mark the top node `kVisited`, count it, drop the
frame. -/
def Pop (gr : GraphReducer) : GraphReducer :=
  match gr.stack with
  | [] => gr
  | f :: rest =>
      { gr with state := setVState gr.state f.node State.kVisited,
                nb_visited_nodes := gr.nb_visited_nodes + 1,
                stack := rest }

/-- `GraphReducer::Push`: mark the node `kOnStack` and push a fresh frame
with cursor 0. -/
def Push (gr : GraphReducer) (n : Nat) : GraphReducer :=
  { gr with state := setVState gr.state n State.kOnStack,
            stack := { node := n, input_index := 0 } :: gr.stack }

/-- `GraphReducer::Recurse`: push the node unless its state is above
`kRevisit` (already on stack or visited); reports whether it pushed. -/
def Recurse (gr : GraphReducer) (n : Nat) : Bool × GraphReducer :=
  if State.kRevisit.toNat < (gr.state n).toNat then (false, gr)
  else (true, Push gr n)

/-- `GraphReducer::Revisit`: only a `kVisited` node is queued; it moves to
`kRevisit`, is appended to the revisit queue, and the traversed-use
counter is bumped. -/
def Revisit (gr : GraphReducer) (n : Nat) : GraphReducer :=
  if gr.state n = State.kVisited then
    { gr with nb_traversed_uses := gr.nb_traversed_uses + 1,
              state := setVState gr.state n State.kRevisit,
              revisit := gr.revisit ++ [n] }
  else gr

/-- Modelled from the spec: `update_and_get_revisit_all_nodes` lives in
the header graph-reducer.h, which is not part of the sources.  Per spec
section 4.1 it latches the revisit-all flag once the ratio of traversed
uses to visited nodes exceeds a configured threshold and returns the
latched flag; the threshold comparison itself is the parameter `heur`. -/
def update_and_get_revisit_all_nodes (P : Params) (gr : GraphReducer) :
    Bool × GraphReducer :=
  let b := gr.revisit_all_nodes || P.heur gr.nb_traversed_uses gr.nb_visited_nodes
  (b, { gr with revisit_all_nodes := b })

/-- Modelled from the spec: the ratio heuristic of section 4.1 with a
percent threshold, firing when traversed uses exceed threshold percent of
visited nodes. -/
def specHeur (threshold : Nat) : Nat → Nat → Bool :=
  fun uses visited => threshold * visited < uses * 100

/-- `std::numeric_limits<NodeId>::max()` (NodeId is a 32-bit id). -/
def kMaxNodeId : Nat := 4294967295

/-- The edge loop of the eager replacement branch of
`GraphReducer::Replace`: for each use edge of `node`, verify the edge
against the replacement (fatal on failure), redirect it, and enqueue the
user for revisit unless it is `node` itself. -/
def replaceEdgesEager (node repl : Nat) :
    List (Nat × Nat) → GraphReducer → Except Err GraphReducer
  | [], gr => Except.ok gr
  | (u, k) :: rest, gr =>
    if VerifyEdgeInputReplacement gr.graph u k repl then
      let gr₂ := { gr with graph := gr.graph.updateEdge u k repl }
      replaceEdgesEager node repl rest (if u ≠ node then Revisit gr₂ u else gr₂)
    else Except.error Err.verifyFail

/-- The edge loop of the watermark branch of `GraphReducer::Replace`:
redirect only edges whose owner's identifier is at most `max_id` and
enqueue those users for revisit (unless the user is `node`); younger edges
are left untouched. -/
def replaceEdgesBounded (node repl max_id : Nat) :
    List (Nat × Nat) → GraphReducer → GraphReducer
  | [], gr => gr
  | (u, k) :: rest, gr =>
    if u ≤ max_id then
      let gr₂ := { gr with graph := gr.graph.updateEdge u k repl }
      replaceEdgesBounded node repl max_id rest (if u ≠ node then Revisit gr₂ u else gr₂)
    else replaceEdgesBounded node repl max_id rest gr

/-- The graph mutation performed by the lazy placeholder branch of
`GraphReducer::Replace`: if the replacement has no outputs or `node` has
no users, kill `node`; otherwise truncate `node`'s inputs, chase the
replacement through any placeholder chain, append the ultimate target
once per output kind, and mutate `node`'s operator into the matching
placeholder variant. -/
def replaceLazyG (g : Graph) (node replacement : Nat) : Graph :=
  let rop := (g.node replacement).op
  let has_value_output := if rop.valueOut != 0 then 1 else 0
  let has_effect_output := if rop.effectOut != 0 then 1 else 0
  let has_control_output := if rop.controlOut != 0 then 1 else 0
  let nb_total_output := has_value_output + has_effect_output + has_control_output
  if nb_total_output = 0 || (g.useEdges node).isEmpty then
    g.kill node
  else
    let g₁ := g.setNode node { g.node node with inputs := [] }
    let new_input := chase g₁ g₁.nodes.length replacement
    let g₂ := g₁.setNode node
      { g₁.node node with inputs := List.replicate nb_total_output new_input }
    g₂.setNode node
      { g₂.node node with
        op := (ReplacementPlaceholder has_value_output has_effect_output has_control_output) }

/-- The lazy placeholder branch of `GraphReducer::Replace`; it only
mutates the graph. -/
def replaceLazy (gr : GraphReducer) (node replacement : Nat) : GraphReducer :=
  { gr with graph := replaceLazyG gr.graph node replacement }

/-- The eager replacement branch of `GraphReducer::Replace`: rewire every
use edge (with verification) and then kill `node`. -/
def replaceEager (gr : GraphReducer) (node replacement : Nat) :
    Except Err GraphReducer :=
  (replaceEdgesEager node replacement (gr.graph.useEdges node) gr).map
    (fun gr₂ => { gr₂ with graph := gr₂.graph.kill node })

/-- The opening of `GraphReducer::Replace`: if `node` is the designated
start (resp. end) marker, the designation moves to the replacement. -/
def fixDesignations (gr : GraphReducer) (node replacement : Nat) :
    GraphReducer :=
  { gr with graph :=
    { gr.graph with
      startId := if node = gr.graph.startId then replacement else gr.graph.startId,
      endId := if node = gr.graph.endId then replacement else gr.graph.endId } }

/-- `GraphReducer::Replace(node, replacement, max_id)`.  Start and end
designations move to the replacement first.  If the replacement's
identifier is within the watermark, either the lazy placeholder protocol
(when the placeholder flag is set and the resweep heuristic fires) or the
eager protocol runs; otherwise only edges owned by nodes at most `max_id`
are rewired, `node` is killed if no users remain, and the replacement is
offered to the traversal via `Recurse`. -/
def Replace (P : Params) (gr : GraphReducer) (node replacement max_id : Nat) :
    Except Err GraphReducer :=
  let gr₂ := fixDesignations gr node replacement
  if replacement ≤ max_id then
    if P.flagPlaceholder then
      let p := update_and_get_revisit_all_nodes P gr₂
      if p.1 then Except.ok (replaceLazy p.2 node replacement)
      else replaceEager p.2 node replacement
    else replaceEager gr₂ node replacement
  else
    let gr₃ := replaceEdgesBounded node replacement max_id
      (gr₂.graph.useEdges node) gr₂
    let gr₄ :=
      if (gr₃.graph.useEdges node).isEmpty then
        { gr₃ with graph := gr₃.graph.kill node }
      else gr₃
    Except.ok (Recurse gr₄ replacement).2

/-- The two-argument `GraphReducer::Replace(node, replacement)`:
no watermark, i.e. the maximal node id. -/
def ReplaceDefault (P : Params) (gr : GraphReducer) (node replacement : Nat) :
    Except Err GraphReducer :=
  Replace P gr node replacement kMaxNodeId

/-- The edge loop of `GraphReducer::ReplaceWithValue`: control edges into
an `IfSuccess` user replace the user wholesale by the control replacement;
control edges into an `IfException` user are redirected to the dead
sentinel; other control edges go to the control replacement, effect edges
to the effect replacement, everything else to the value replacement; each
rewired user is enqueued for revisit. -/
def rwvEdges (P : Params) (node : Nat) (value effect control : Option Nat) :
    List (Nat × Nat) → GraphReducer → Except Err GraphReducer
  | [], gr => Except.ok gr
  | (u, k) :: rest, gr =>
    if NodeProperties.IsControlEdge gr.graph u k then
      if (gr.graph.node u).op.opcode = Opcode.ifSuccess then
        match Replace P gr u (control.getD 0) kMaxNodeId with
        | Except.error e => Except.error e
        | Except.ok gr₂ => rwvEdges P node value effect control rest gr₂
      else if (gr.graph.node u).op.opcode = Opcode.ifException then
        rwvEdges P node value effect control rest
          (Revisit { gr with graph := gr.graph.updateEdge u k gr.dead } u)
      else
        rwvEdges P node value effect control rest
          (Revisit { gr with graph := gr.graph.updateEdge u k (control.getD 0) } u)
    else if NodeProperties.IsEffectEdge gr.graph u k then
      rwvEdges P node value effect control rest
        (Revisit { gr with graph := gr.graph.updateEdge u k (effect.getD 0) } u)
    else
      rwvEdges P node value effect control rest
        (Revisit { gr with graph := gr.graph.updateEdge u k (value.getD 0) } u)

/-- `GraphReducer::ReplaceWithValue(node, value, effect, control)`: a
missing effect (resp. control) replacement defaults to `node`'s own first
effect (resp. control) input when it has one; then every use edge of
`node` is rewired kind-by-kind.  `node` itself is not killed. -/
def ReplaceWithValue (P : Params) (gr : GraphReducer) (node : Nat)
    (value effect control : Option Nat) : Except Err GraphReducer :=
  let effect₂ :=
    if effect.isNone && decide (0 < (gr.graph.node node).op.effectIn) then
      some (NodeProperties.GetEffectInput gr.graph node)
    else effect
  let control₂ :=
    if control.isNone && decide (0 < (gr.graph.node node).op.controlIn) then
      some (NodeProperties.GetControlInput gr.graph node)
    else control
  rwvEdges P node value effect₂ control₂ (gr.graph.useEdges node) gr

/-- Update of the saved cursor of the frame that just suspended: after the
recursion pushed a new top frame, the suspending node's frame is the
second one (`entry.input_index = i + 1` through the retained reference in
the source). -/
def setCursor (gr : GraphReducer) (idx : Nat) : GraphReducer :=
  match gr.stack with
  | top :: under :: rest =>
      { gr with stack := top :: { under with input_index := idx } :: rest }
  | l => { gr with stack := l }

/-- One iteration of the input-scan loop of `ReduceTop`: a placeholder
input is chased to its ultimate target and the edge rewired in place;
then, unless the input is the node itself, the engine recurses on it, and
on a push the frame suspends with its cursor saved past this slot.
Returns whether the frame suspended. -/
def scanStep (gr : GraphReducer) (node i : Nat) : Bool × GraphReducer :=
  let input0 := (gr.graph.node node).inputs.getD i 0
  let ig : Nat × GraphReducer :=
    if (gr.graph.node input0).op.opcode = Opcode.replacementPlaceholder then
      let t := chase gr.graph gr.graph.nodes.length input0
      (t, { gr with graph := gr.graph.updateEdge node i t })
    else (input0, gr)
  if ig.1 ≠ node then
    match Recurse ig.2 ig.1 with
    | (true, gr₂) => (true, setCursor gr₂ (i + 1))
    | (false, gr₂) => (false, gr₂)
  else (false, ig.2)

/-- The input-scan loop of `ReduceTop` over a list of slot indices. -/
def scanInputs (gr : GraphReducer) (node : Nat) :
    List Nat → Bool × GraphReducer
  | [] => (false, gr)
  | i :: rest =>
    match scanStep gr node i with
    | (true, gr₂) => (true, gr₂)
    | (false, gr₂) => scanInputs gr₂ node rest

/-- One iteration of the rescan loop run after an in-place reduction (no
placeholder chasing there). -/
def rescanStep (gr : GraphReducer) (node i : Nat) : Bool × GraphReducer :=
  let input := (gr.graph.node node).inputs.getD i 0
  if input ≠ node then
    match Recurse gr input with
    | (true, gr₂) => (true, setCursor gr₂ (i + 1))
    | (false, gr₂) => (false, gr₂)
  else (false, gr)

/-- The rescan loop over a list of slot indices. -/
def rescanInputs (gr : GraphReducer) (node : Nat) :
    List Nat → Bool × GraphReducer
  | [] => (false, gr)
  | i :: rest =>
    match rescanStep gr node i with
    | (true, gr₂) => (true, gr₂)
    | (false, gr₂) => rescanInputs gr₂ node rest

/-- Revisit every current user of `node`, skipping `node` itself (the
in-place propagation loop at the end of `ReduceTop`). -/
def revisitUses (gr : GraphReducer) (node : Nat) : GraphReducer :=
  ((gr.graph.useEdges node).map Prod.fst).foldl
    (fun g u => if u ≠ node then Revisit g u else g) gr

/-- `GraphReducer::ReduceTop`: process the frame on top of the stack.  A
dead node is popped.  Inputs are scanned from the saved cursor, wrapping
around, possibly suspending.  A placeholder node is popped without
reduction.  Otherwise the node is dispatched to the reducers; on no
change it is popped; on an in-place change its (possibly new) inputs are
rescanned, then it is popped and either the resweep heuristic fires or
all its users are enqueued; on a replacement it is popped and the
replacement protocol runs with the pre-dispatch watermark.  Returns the
dispatch events of the step. -/
def ReduceTop (P : Params) (gr : GraphReducer) :
    Except Err (List Event × GraphReducer) :=
  match gr.stack with
  | [] => Except.ok ([], gr)
  | entry :: _ =>
    let node := entry.node
    if (gr.graph.node node).dead then Except.ok ([], Pop gr)
    else
      let count := (gr.graph.node node).inputs.length
      let start := if entry.input_index < count then entry.input_index else 0
      match scanInputs gr node (List.range' start (count - start)) with
      | (true, gr₂) => Except.ok ([], gr₂)
      | (false, gr₂) =>
      match scanInputs gr₂ node (List.range start) with
      | (true, gr₃) => Except.ok ([], gr₃)
      | (false, gr₃) =>
      if (gr₃.graph.node node).op.opcode = Opcode.replacementPlaceholder then
        Except.ok ([], Pop gr₃)
      else
        let max_id := gr₃.graph.nodes.length - 1
        match Reduce node P.reducers.length
          (fun g i => (P.reducers.getD i defaultReducer).reduce g node)
          P.dispatchFuel gr₃.graph with
        | none => Except.error Err.outOfFuel
        | some (red, g₂, tr) =>
          let evs := tr.map (fun e => Event.reduceCall e.1 node)
          let gr₄ := { gr₃ with graph := g₂ }
          match red with
          | Reduction.noChange => Except.ok (evs, Pop gr₄)
          | Reduction.changed replacement =>
            if replacement = node then
              match rescanInputs gr₄ node
                (List.range (gr₄.graph.node node).inputs.length) with
              | (true, gr₅) => Except.ok (evs, gr₅)
              | (false, gr₅) =>
                let gr₆ := Pop gr₅
                match update_and_get_revisit_all_nodes P gr₆ with
                | (true, gr₇) => Except.ok (evs, gr₇)
                | (false, gr₇) => Except.ok (evs, revisitUses gr₇ node)
            else
              (Replace P (Pop gr₄) node replacement max_id).map
                (fun gr₅ => (evs, gr₅))

/-- One finalization round: call every reducer's finalizer in registration
order (each may request revisits, which the engine applies), and advance
the round counter. -/
def finalizeRound (P : Params) (gr : GraphReducer) :
    List Event × GraphReducer :=
  let r := gr.finalize_rounds
  let gr₂ := (List.range P.reducers.length).foldl
    (fun g j => ((P.reducers.getD j defaultReducer).finalize r).foldl Revisit g) gr
  ((List.range P.reducers.length).map Event.finalizeCall,
   { gr₂ with finalize_rounds := r + 1 })

/-- The outcome of one iteration of the driver loop: continue with a new
state, or halt (the loop's `break`). -/
inductive StepRes where
  | more (evs : List Event) (gr : GraphReducer)
  | halt (evs : List Event) (gr : GraphReducer)

/-- One iteration of the driver loop of `GraphReducer::ReduceNode`: process
the top of the stack if any; otherwise pop the revisit queue (re-pushing
the node only if still `kRevisit`); otherwise, if the resweep heuristic
fires, reset all per-run state and push the graph's end node; otherwise
run a finalization round and halt if the revisit queue is still empty. -/
def stepLoop (P : Params) (gr : GraphReducer) : Except Err StepRes :=
  match gr.stack with
  | _ :: _ => (ReduceTop P gr).map (fun p => StepRes.more p.1 p.2)
  | [] =>
  match gr.revisit with
  | node :: rest =>
    let gr₂ := { gr with revisit := rest }
    Except.ok (StepRes.more []
      (if gr₂.state node = State.kRevisit then Push gr₂ node else gr₂))
  | [] =>
  match update_and_get_revisit_all_nodes P gr with
  | (true, gr₂) =>
    Except.ok (StepRes.more []
      (Push { gr₂ with revisit_all_nodes := false, nb_traversed_uses := 0,
                       nb_visited_nodes := 0,
                       state := fun _ => State.kUnvisited }
        gr₂.graph.endId))
  | (false, gr₂) =>
    let fr := finalizeRound P gr₂
    if fr.2.revisit = [] then Except.ok (StepRes.halt fr.1 fr.2)
    else Except.ok (StepRes.more fr.1 fr.2)

/-- Run the driver loop to completion, collecting events; the source loop
is unbounded, so fuel bounds the number of iterations. -/
def run (P : Params) : Nat → GraphReducer → Except Err (List Event × GraphReducer)
  | 0, _ => Except.error Err.outOfFuel
  | fuel + 1, gr =>
    match stepLoop P gr with
    | Except.error e => Except.error e
    | Except.ok (StepRes.halt evs gr₂) => Except.ok (evs, gr₂)
    | Except.ok (StepRes.more evs gr₂) =>
      match run P fuel gr₂ with
      | Except.error e => Except.error e
      | Except.ok (evs₂, gr₃) => Except.ok (evs ++ evs₂, gr₃)

/-- Apply at most `k` iterations of the driver loop, stopping early on
halt: the engine states traversed by a run. -/
def iterate (P : Params) : Nat → GraphReducer → Except Err GraphReducer
  | 0, gr => Except.ok gr
  | k + 1, gr =>
    match stepLoop P gr with
    | Except.error e => Except.error e
    | Except.ok (StepRes.halt _ gr₂) => Except.ok gr₂
    | Except.ok (StepRes.more _ gr₂) => iterate P k gr₂

/-- `GraphReducer::ReduceNode(node)`: push the node (the source asserts
stack and revisit queue empty on entry) and run the driver loop. -/
def ReduceNode (P : Params) (fuel : Nat) (gr : GraphReducer) (node : Nat) :
    Except Err (List Event × GraphReducer) :=
  run P fuel (Push gr node)

/-- `GraphReducer::ReduceGraph()`: reset the resweep flag and both
counters, then reduce from the graph's end node. -/
def ReduceGraph (P : Params) (fuel : Nat) (gr : GraphReducer) :
    Except Err (List Event × GraphReducer) :=
  ReduceNode P fuel
    { gr with revisit_all_nodes := false, nb_traversed_uses := 0,
              nb_visited_nodes := 0 }
    gr.graph.endId

/-- The number of stack frames currently holding node `n`. -/
def stackCount (st : List NodeState) (n : Nat) : Nat :=
  (st.filter (fun f => f.node = n)).length

/-- The stack coherence invariant of the engine: a node's visit state is
`kOnStack` exactly when one frame of the traversal stack holds it. -/
def Invariant (gr : GraphReducer) : Prop :=
  ∀ n, stackCount gr.stack n = if gr.state n = State.kOnStack then 1 else 0

/-- The nodes of the arena that the traversal may still push: states
`kUnvisited` or `kRevisit`. -/
def pushable (g : Graph) (st : Nat → State) : Nat :=
  ((List.range g.nodes.length).filter (fun n => (st n).toNat ≤ 1)).length

/-- A measure of remaining depth-first work: pushable nodes count double,
plus the current stack height. -/
def dfsMeasure (gr : GraphReducer) : Nat :=
  2 * pushable gr.graph gr.state + gr.stack.length

/-- The engine-side configuration maintained by a quiescent run: empty
revisit queue, no traversed uses, resweep latch off, all stack frames
within the arena, and the stack coherence invariant. -/
def QuiesceInv (gr : GraphReducer) : Prop :=
  gr.revisit = [] ∧ gr.nb_traversed_uses = 0 ∧ gr.revisit_all_nodes = false
  ∧ (∀ f ∈ gr.stack, f.node < gr.graph.nodes.length)
  ∧ Invariant gr

end GraphReducer

/-- Extract the reducer index of a finalizer-invocation event. -/
def finIdx : Event → Option Nat
  | Event.finalizeCall j => some j
  | Event.reduceCall _ _ => none

/-- Shorthand for an ordinary operator. -/
def mkOp (tag vi ei ci vo eo co : Nat) : Operator :=
  { opcode := Opcode.other tag, valueIn := vi, effectIn := ei, controlIn := ci,
    valueOut := vo, effectOut := eo, controlOut := co }

/-- Shorthand for a live node. -/
def mkNode (op : Operator) (ins : List Nat) : Node :=
  { op := op, inputs := ins, dead := false }

/-- The replacement target `ReplaceWithValue` assigns to one use edge
`(u, k)` of the node: control edges into an exception marker go to the
dead sentinel, other control edges to the control replacement, effect
edges to the effect replacement, everything else to the value
replacement. -/
def rwvTarget (g : Graph) (deadNode value effect control u k : Nat) : Nat :=
  if NodeProperties.IsControlEdge g u k then
    if (g.node u).op.opcode = Opcode.ifException then deadNode else control
  else if NodeProperties.IsEffectEdge g u k then effect
  else value

/-- A one-node graph for exercising the driver's finalization loop. -/
def g3 : Graph :=
  { nodes := [mkNode (mkOp 0 0 0 0 1 0 0) []], startId := 0, endId := 0 }

/-- Fresh engine state over `g3`. -/
def gr3 : GraphReducer :=
  { graph := g3, dead := 0, state := fun _ => GraphReducer.State.kUnvisited,
    revisit := [], stack := [], nb_traversed_uses := 0, nb_visited_nodes := 0,
    revisit_all_nodes := false, finalize_rounds := 0 }

/-- One never-changing reducer whose finalizer requests a revisit of node
0 in the first finalization round and nothing afterwards. -/
def P3 : Params :=
  { reducers := [{ reduce := fun g _ => (Reduction.noChange, g),
                   finalize := fun r => if r = 0 then [0] else [] }],
    heur := GraphReducer.specHeur 100, flagPlaceholder := false,
    dispatchFuel := 10 }

/-- A two-node graph — node 1 consumes node 0 — for exercising
`ReduceNode`'s traversal of inputs. -/
def g8 : Graph :=
  { nodes := [mkNode (mkOp 0 0 0 0 1 0 0) [],
              mkNode (mkOp 1 1 0 0 1 0 0) [0]],
    startId := 0, endId := 1 }

/-- Fresh engine state over `g8`. -/
def gr8 : GraphReducer :=
  { graph := g8, dead := 0, state := fun _ => GraphReducer.State.kUnvisited,
    revisit := [], stack := [], nb_traversed_uses := 0, nb_visited_nodes := 0,
    revisit_all_nodes := false, finalize_rounds := 0 }

/-- One never-changing reducer with the default do-nothing finalizer. -/
def P8 : Params :=
  { reducers := [{ reduce := fun g _ => (Reduction.noChange, g) }],
    heur := GraphReducer.specHeur 100, flagPlaceholder := false,
    dispatchFuel := 10 }

/-- One never-changing reducer whose finalizer requests a revisit of node
0 in every round: the driver never runs out of work. -/
def P9 : Params :=
  { reducers := [{ reduce := fun g _ => (Reduction.noChange, g),
                   finalize := fun _ => [0] }],
    heur := GraphReducer.specHeur 100, flagPlaceholder := false,
    dispatchFuel := 10 }

/-- Visit states of the divergent run over `g3`, phase A: node 0 is on the
stack. -/
def stAstate : Nat → GraphReducer.State :=
  GraphReducer.setVState (fun _ => GraphReducer.State.kUnvisited) 0
    GraphReducer.State.kOnStack

/-- Phase B: node 0 has been popped and is visited. -/
def stBstate : Nat → GraphReducer.State :=
  GraphReducer.setVState stAstate 0 GraphReducer.State.kVisited

/-- Phase C: node 0 has been queued for revisiting by the finalizer. -/
def stCstate : Nat → GraphReducer.State :=
  GraphReducer.setVState stBstate 0 GraphReducer.State.kRevisit

/-- Engine state of the divergent run at phase A (about to reduce node
0). -/
def stA (u v r : Nat) : GraphReducer :=
  { graph := g3, dead := 0, state := stAstate, revisit := [],
    stack := [{ node := 0, input_index := 0 }], nb_traversed_uses := u,
    nb_visited_nodes := v, revisit_all_nodes := false, finalize_rounds := r }

/-- Engine state at phase B (about to run a finalization round). -/
def stB (u v r : Nat) : GraphReducer :=
  { graph := g3, dead := 0, state := stBstate, revisit := [], stack := [],
    nb_traversed_uses := u, nb_visited_nodes := v, revisit_all_nodes := false,
    finalize_rounds := r }

/-- Engine state at phase C (about to pop the revisit queue). -/
def stC (u v r : Nat) : GraphReducer :=
  { graph := g3, dead := 0, state := stCstate, revisit := [0], stack := [],
    nb_traversed_uses := u, nb_visited_nodes := v, revisit_all_nodes := false,
    finalize_rounds := r }

/-- Example graph for `ReplaceWithValue`: node 0 has a value user (1), an
effect user (2) and an exception-marker control user (3). -/
def g4a : Graph :=
  { nodes := [mkNode (mkOp 0 0 0 0 1 1 1) [],
              mkNode (mkOp 1 1 0 0 1 0 0) [0],
              mkNode (mkOp 2 0 1 0 0 1 0) [0],
              mkNode { opcode := Opcode.ifException, valueIn := 0, effectIn := 0,
                       controlIn := 1, valueOut := 0, effectOut := 0,
                       controlOut := 1 } [0]],
    startId := 9, endId := 9 }

/-- Engine state over `g4a`; the dead sentinel is node id 8. -/
def gr4a : GraphReducer :=
  { graph := g4a, dead := 8, state := fun _ => GraphReducer.State.kUnvisited,
    revisit := [], stack := [], nb_traversed_uses := 0, nb_visited_nodes := 0,
    revisit_all_nodes := false, finalize_rounds := 0 }

/-- Example graph for `ReplaceWithValue` with a success-marker control
user: node 1 is an `IfSuccess` user of node 0; node 2 is the control
replacement. -/
def g4b : Graph :=
  { nodes := [mkNode (mkOp 0 0 0 0 1 1 1) [],
              mkNode { opcode := Opcode.ifSuccess, valueIn := 0, effectIn := 0,
                       controlIn := 1, valueOut := 0, effectOut := 0,
                       controlOut := 1 } [0],
              mkNode (mkOp 2 0 0 0 1 1 1) []],
    startId := 9, endId := 9 }

/-- Engine state over `g4b`. -/
def gr4b : GraphReducer :=
  { graph := g4b, dead := 8, state := fun _ => GraphReducer.State.kUnvisited,
    revisit := [], stack := [], nb_traversed_uses := 0, nb_visited_nodes := 0,
    revisit_all_nodes := false, finalize_rounds := 0 }

/-- Example graph for the lazy replacement protocol: node 0 is replaced by
node 1, a placeholder forwarding to node 3, and node 2 uses node 0. -/
def g6 : Graph :=
  { nodes := [mkNode (mkOp 0 0 0 0 1 0 0) [],
              mkNode (ReplacementPlaceholder 1 0 0) [3],
              mkNode (mkOp 2 1 0 0 1 0 0) [0],
              mkNode (mkOp 3 0 0 0 1 0 0) []],
    startId := 9, endId := 9 }

/-- Engine state over `g6` with the resweep flag already latched. -/
def gr6 : GraphReducer :=
  { graph := g6, dead := 0, state := fun _ => GraphReducer.State.kUnvisited,
    revisit := [], stack := [], nb_traversed_uses := 1, nb_visited_nodes := 0,
    revisit_all_nodes := true, finalize_rounds := 0 }

/-- Parameters with the placeholder flag enabled and no reducers. -/
def P6 : Params :=
  { reducers := [], heur := GraphReducer.specHeur 100, flagPlaceholder := true,
    dispatchFuel := 1 }

/-- Example graph for the replacement verification contrast: node 0 holds
a value edge to node 1, and node 2 — the intended replacement — produces
no outputs at all, so redirecting that value edge to node 2 is
kind-incompatible. -/
def g10 : Graph :=
  { nodes := [mkNode (mkOp 0 1 0 0 1 0 0) [1],
              mkNode (mkOp 1 0 0 0 1 0 0) [],
              mkNode (mkOp 2 0 0 0 0 0 0) []],
    startId := 9, endId := 9 }

/-- Engine state over `g10`. -/
def gr10 : GraphReducer :=
  { graph := g10, dead := 0, state := fun _ => GraphReducer.State.kUnvisited,
    revisit := [], stack := [], nb_traversed_uses := 0, nb_visited_nodes := 0,
    revisit_all_nodes := false, finalize_rounds := 0 }

/-- Parameters with the placeholder flag off and no reducers. -/
def P10 : Params :=
  { reducers := [], heur := GraphReducer.specHeur 100, flagPlaceholder := false,
    dispatchFuel := 1 }

/-- Engine state over `g10` in which the replacement node 2 is already on
the traversal stack. -/
def gr5 : GraphReducer :=
  { graph := g10, dead := 0,
    state := fun n => if n = 2 then GraphReducer.State.kOnStack
      else GraphReducer.State.kUnvisited,
    revisit := [], stack := [{ node := 2, input_index := 0 }],
    nb_traversed_uses := 0, nb_visited_nodes := 0,
    revisit_all_nodes := false, finalize_rounds := 0 }

namespace GraphReducer

/-- Unfolding equation of `reduceLoop` for positive fuel, valid for an
arbitrary `skip` argument. -/
theorem reduceLoop_succ {σ : Type} (node n : Nat)
    (call : σ → Nat → Reduction × σ) (fuel i : Nat) (skip : Option Nat)
    (s : σ) :
    reduceLoop node n call (fuel + 1) i skip s =
      (if i < n then
        if skip = some i then
          reduceLoop node n call fuel (i + 1) skip s
        else
          match call s i with
          | (Reduction.noChange, s₂) =>
              (reduceLoop node n call fuel (i + 1) skip s₂).map
                (fun p => (p.1, p.2.1, (i, Reduction.noChange) :: p.2.2))
          | (Reduction.changed repl, s₂) =>
              if repl = node then
                (reduceLoop node n call fuel 0 (some i) s₂).map
                  (fun p => (p.1, p.2.1, (i, Reduction.changed repl) :: p.2.2))
              else
                some (Reduction.changed repl, s₂, [(i, Reduction.changed repl)])
      else
        match skip with
        | none => some (Reduction.noChange, s, [])
        | some _ => some (Reduction.changed node, s, [])) := by
  cases skip <;> rfl

/-- If the dispatch loop completes and every invocation in its trace
reported no change, and no reducer was being skipped on entry, the final
result is `noChange`. -/
theorem reduceLoop_all_noChange {σ : Type} (node n : Nat)
    (call : σ → Nat → Reduction × σ) :
    ∀ (fuel i : Nat) (skip : Option Nat) (s : σ) (r : Reduction) (s' : σ)
      (tr : List TraceEntry),
      reduceLoop node n call fuel i skip s = some (r, s', tr) →
      skip = none → (∀ e ∈ tr, e.2 = Reduction.noChange) →
      r = Reduction.noChange := by
  intro fuel
  induction fuel with
  | zero =>
    intro i skip s r s' tr h
    simp [reduceLoop] at h
  | succ fuel ih =>
    intro i skip s r s' tr h hskip hall
    subst hskip
    rw [reduceLoop_succ] at h
    by_cases hi : i < n
    · rw [if_pos hi, if_neg (by simp : ¬ (none : Option Nat) = some i)] at h
      split at h
      next s₂ heq =>
        rcases Option.map_eq_some'.mp h with ⟨⟨r₀, s₀, tr₀⟩, hp, hpe⟩
        simp only [Prod.mk.injEq] at hpe
        obtain ⟨hr, _, htr⟩ := hpe
        subst hr
        exact ih (i + 1) none s₂ r₀ s₀ tr₀ hp rfl
          (fun e he => hall e (htr ▸ List.mem_cons_of_mem _ he))
      next repl s₂ heq =>
        by_cases hrn : repl = node
        · rw [if_pos hrn] at h
          rcases Option.map_eq_some'.mp h with ⟨⟨r₀, s₀, tr₀⟩, _, hpe⟩
          simp only [Prod.mk.injEq] at hpe
          obtain ⟨_, _, htr⟩ := hpe
          have := hall (i, Reduction.changed repl) (htr ▸ List.mem_cons_self _ _)
          simp at this
        · rw [if_neg hrn] at h
          simp only [Option.some.injEq, Prod.mk.injEq] at h
          obtain ⟨_, _, htr⟩ := h
          have := hall (i, Reduction.changed repl) (htr ▸ List.mem_cons_self _ _)
          simp at this
    · rw [if_neg hi] at h
      simp only [Option.some.injEq, Prod.mk.injEq] at h
      exact h.1.symm

/-- If the dispatch loop completes, no invocation reported a replacement by
a different node, and either some reducer was already being skipped on
entry or some invocation fired in place, then the result is an in-place
`changed node`. -/
theorem reduceLoop_inPlace_result {σ : Type} (node n : Nat)
    (call : σ → Nat → Reduction × σ) :
    ∀ (fuel i : Nat) (skip : Option Nat) (s : σ) (r : Reduction) (s' : σ)
      (tr : List TraceEntry),
      reduceLoop node n call fuel i skip s = some (r, s', tr) →
      (∀ e ∈ tr, isRepl node e = false) →
      (skip ≠ none ∨ ∃ e ∈ tr, isInPlace node e = true) →
      r = Reduction.changed node := by
  intro fuel
  induction fuel with
  | zero =>
    intro i skip s r s' tr h
    simp [reduceLoop] at h
  | succ fuel ih =>
    intro i skip s r s' tr h hnr hfire
    rw [reduceLoop_succ] at h
    by_cases hi : i < n
    · rw [if_pos hi] at h
      by_cases hsk : skip = some i
      · rw [if_pos hsk] at h
        exact ih (i + 1) skip s r s' tr h hnr (Or.inl (by simp [hsk]))
      · rw [if_neg hsk] at h
        split at h
        next s₂ heq =>
          rcases Option.map_eq_some'.mp h with ⟨⟨r₀, s₀, tr₀⟩, hp, hpe⟩
          simp only [Prod.mk.injEq] at hpe
          obtain ⟨hr, _, htr⟩ := hpe
          subst hr
          refine ih (i + 1) skip s₂ r₀ s₀ tr₀ hp
            (fun e he => hnr e (htr ▸ List.mem_cons_of_mem _ he)) ?_
          rcases hfire with hne | ⟨e, he, hip⟩
          · exact Or.inl hne
          · rw [← htr] at he
            rcases List.mem_cons.mp he with rfl | he₀
            · simp [isInPlace] at hip
            · exact Or.inr ⟨e, he₀, hip⟩
        next repl s₂ heq =>
          by_cases hrn : repl = node
          · rw [if_pos hrn] at h
            rcases Option.map_eq_some'.mp h with ⟨⟨r₀, s₀, tr₀⟩, hp, hpe⟩
            simp only [Prod.mk.injEq] at hpe
            obtain ⟨hr, _, htr⟩ := hpe
            subst hr
            exact ih 0 (some i) s₂ r₀ s₀ tr₀ hp
              (fun e he => hnr e (htr ▸ List.mem_cons_of_mem _ he))
              (Or.inl (by simp))
          · rw [if_neg hrn] at h
            simp only [Option.some.injEq, Prod.mk.injEq] at h
            obtain ⟨_, _, htr⟩ := h
            have := hnr (i, Reduction.changed repl) (htr ▸ List.mem_cons_self _ _)
            simp [isRepl, hrn] at this
    · rw [if_neg hi] at h
      cases skip with
      | none =>
        simp only [Option.some.injEq, Prod.mk.injEq] at h
        obtain ⟨_, _, htr⟩ := h
        rcases hfire with hne | ⟨e, he, _⟩
        · exact absurd rfl hne
        · rw [← htr] at he
          simp at he
      | some j =>
        simp only [Option.some.injEq, Prod.mk.injEq] at h
        exact h.1.symm

/-- If the dispatch loop completes and its trace contains an invocation
that reported a replacement by a different node, then that invocation is
the last one, the result is exactly that reduction, and no earlier
invocation reported such a replacement. -/
theorem reduceLoop_repl_last {σ : Type} (node n : Nat)
    (call : σ → Nat → Reduction × σ) :
    ∀ (fuel i : Nat) (skip : Option Nat) (s : σ) (r : Reduction) (s' : σ)
      (tr : List TraceEntry) (l₁ : List TraceEntry) (e : TraceEntry)
      (l₂ : List TraceEntry),
      reduceLoop node n call fuel i skip s = some (r, s', tr) →
      tr = l₁ ++ e :: l₂ → isRepl node e = true →
      r = e.2 ∧ l₂ = [] ∧ ∀ ep ∈ l₁, isRepl node ep = false := by
  intro fuel
  induction fuel with
  | zero =>
    intro i skip s r s' tr l₁ e l₂ h
    simp [reduceLoop] at h
  | succ fuel ih =>
    intro i skip s r s' tr l₁ e l₂ h htr hrepl
    rw [reduceLoop_succ] at h
    by_cases hi : i < n
    · rw [if_pos hi] at h
      by_cases hsk : skip = some i
      · rw [if_pos hsk] at h
        exact ih (i + 1) skip s r s' tr l₁ e l₂ h htr hrepl
      · rw [if_neg hsk] at h
        split at h
        next s₂ heq =>
          rcases Option.map_eq_some'.mp h with ⟨⟨r₀, s₀, tr₀⟩, hp, hpe⟩
          simp only [Prod.mk.injEq] at hpe
          obtain ⟨hr, _, htr₀⟩ := hpe
          subst hr
          rw [htr] at htr₀
          cases l₁ with
          | nil =>
            simp only [List.nil_append] at htr₀
            obtain ⟨he, _⟩ := List.cons.inj htr₀.symm
            rw [he] at hrepl
            simp [isRepl] at hrepl
          | cons x xs =>
            simp only [List.cons_append] at htr₀
            obtain ⟨hx, htl⟩ := List.cons.inj htr₀.symm
            obtain ⟨h1, h2, h3⟩ := ih (i + 1) skip s₂ r₀ s₀ tr₀ xs e l₂ hp htl.symm hrepl
            refine ⟨h1, h2, fun ep hep => ?_⟩
            rcases List.mem_cons.mp hep with rfl | hep₀
            · rw [hx]; simp [isRepl]
            · exact h3 ep hep₀
        next repl s₂ heq =>
          by_cases hrn : repl = node
          · rw [if_pos hrn] at h
            rcases Option.map_eq_some'.mp h with ⟨⟨r₀, s₀, tr₀⟩, hp, hpe⟩
            simp only [Prod.mk.injEq] at hpe
            obtain ⟨hr, _, htr₀⟩ := hpe
            subst hr
            rw [htr] at htr₀
            cases l₁ with
            | nil =>
              simp only [List.nil_append] at htr₀
              obtain ⟨he, _⟩ := List.cons.inj htr₀.symm
              rw [he] at hrepl
              simp [isRepl, hrn] at hrepl
            | cons x xs =>
              simp only [List.cons_append] at htr₀
              obtain ⟨hx, htl⟩ := List.cons.inj htr₀.symm
              obtain ⟨h1, h2, h3⟩ := ih 0 (some i) s₂ r₀ s₀ tr₀ xs e l₂ hp htl.symm hrepl
              refine ⟨h1, h2, fun ep hep => ?_⟩
              rcases List.mem_cons.mp hep with rfl | hep₀
              · rw [hx]; simp [isRepl, hrn]
              · exact h3 ep hep₀
          · rw [if_neg hrn] at h
            simp only [Option.some.injEq, Prod.mk.injEq] at h
            obtain ⟨hr, _, htr₀⟩ := h
            rw [htr] at htr₀
            cases l₁ with
            | nil =>
              simp only [List.nil_append] at htr₀
              obtain ⟨he, htl⟩ := List.cons.inj htr₀.symm
              exact ⟨by rw [← hr, he], htl, by simp⟩
            | cons x xs =>
              simp only [List.cons_append] at htr₀
              obtain ⟨_, htl⟩ := List.cons.inj htr₀.symm
              exact absurd htl.symm (by simp)
    · rw [if_neg hi] at h
      cases skip with
      | none =>
        simp only [Option.some.injEq, Prod.mk.injEq] at h
        obtain ⟨_, _, htr₀⟩ := h
        rw [htr] at htr₀
        exact absurd htr₀.symm (by simp)
      | some j =>
        simp only [Option.some.injEq, Prod.mk.injEq] at h
        obtain ⟨_, _, htr₀⟩ := h
        rw [htr] at htr₀
        exact absurd htr₀.symm (by simp)

/-- After an in-place firing by reducer `j`, as long as no further
invocation fires in place, reducer `j` is never invoked. -/
theorem reduceLoop_skip_not_called {σ : Type} (node n : Nat)
    (call : σ → Nat → Reduction × σ) :
    ∀ (fuel i j : Nat) (s : σ) (r : Reduction) (s' : σ)
      (tr : List TraceEntry),
      reduceLoop node n call fuel i (some j) s = some (r, s', tr) →
      (∀ e ∈ tr, isInPlace node e = false) →
      ∀ e ∈ tr, e.1 ≠ j := by
  intro fuel
  induction fuel with
  | zero =>
    intro i j s r s' tr h
    simp [reduceLoop] at h
  | succ fuel ih =>
    intro i j s r s' tr h hnip
    rw [reduceLoop_succ] at h
    by_cases hi : i < n
    · rw [if_pos hi] at h
      by_cases hsk : (some j : Option Nat) = some i
      · rw [if_pos hsk] at h
        exact ih (i + 1) j s r s' tr h hnip
      · rw [if_neg hsk] at h
        have hij : i ≠ j := fun hij => hsk (by rw [hij])
        split at h
        next s₂ heq =>
          rcases Option.map_eq_some'.mp h with ⟨⟨r₀, s₀, tr₀⟩, hp, hpe⟩
          simp only [Prod.mk.injEq] at hpe
          obtain ⟨_, _, htr⟩ := hpe
          intro e he
          rw [← htr] at he
          rcases List.mem_cons.mp he with rfl | he₀
          · exact hij
          · exact ih (i + 1) j s₂ r₀ s₀ tr₀ hp
              (fun ep hep => hnip ep (htr ▸ List.mem_cons_of_mem _ hep)) e he₀
        next repl s₂ heq =>
          by_cases hrn : repl = node
          · rw [if_pos hrn] at h
            rcases Option.map_eq_some'.mp h with ⟨⟨r₀, s₀, tr₀⟩, _, hpe⟩
            simp only [Prod.mk.injEq] at hpe
            obtain ⟨_, _, htr⟩ := hpe
            have := hnip (i, Reduction.changed repl) (htr ▸ List.mem_cons_self _ _)
            simp [isInPlace, hrn] at this
          · rw [if_neg hrn] at h
            simp only [Option.some.injEq, Prod.mk.injEq] at h
            obtain ⟨_, _, htr⟩ := h
            intro e he
            rw [← htr] at he
            rcases List.mem_cons.mp he with rfl | he₀
            · exact hij
            · simp at he₀
    · rw [if_neg hi] at h
      simp only [Option.some.injEq, Prod.mk.injEq] at h
      obtain ⟨_, _, htr⟩ := h
      intro e he
      rw [← htr] at he
      simp at he

/-- After an in-place firing by reducer `j`, iteration restarts at the
first reducer: the next invocation, if any, is reducer 0, or reducer 1
when reducer 0 is the one being skipped. -/
theorem reduceLoop_restart_head {σ : Type} (node n : Nat)
    (call : σ → Nat → Reduction × σ) :
    ∀ (fuel j : Nat) (s : σ) (r : Reduction) (s' : σ) (e : TraceEntry)
      (l : List TraceEntry),
      reduceLoop node n call fuel 0 (some j) s = some (r, s', e :: l) →
      e.1 = if j = 0 then 1 else 0 := by
  intro fuel
  induction fuel with
  | zero =>
    intro j s r s' e l h
    simp [reduceLoop] at h
  | succ fuel ih =>
    intro j s r s' e l h
    rw [reduceLoop_succ] at h
    by_cases h0 : 0 < n
    · rw [if_pos h0] at h
      by_cases hj : j = 0
      · rw [if_pos (by rw [hj])] at h
        subst hj
        simp only [if_pos rfl]
        cases fuel with
        | zero => simp [reduceLoop] at h
        | succ fuel₂ =>
          rw [reduceLoop_succ] at h
          by_cases h1 : 1 < n
          · rw [if_pos h1, if_neg (by simp : ¬ (some 0 : Option Nat) = some 1)] at h
            split at h
            next s₂ heq =>
              rcases Option.map_eq_some'.mp h with ⟨⟨r₀, s₀, tr₀⟩, _, hpe⟩
              simp only [Prod.mk.injEq] at hpe
              obtain ⟨_, _, htr⟩ := hpe
              obtain ⟨he, _⟩ := List.cons.inj htr
              rw [← he]; simp
            next repl s₂ heq =>
              by_cases hrn : repl = node
              · rw [if_pos hrn] at h
                rcases Option.map_eq_some'.mp h with ⟨⟨r₀, s₀, tr₀⟩, _, hpe⟩
                simp only [Prod.mk.injEq] at hpe
                obtain ⟨_, _, htr⟩ := hpe
                obtain ⟨he, _⟩ := List.cons.inj htr
                rw [← he]; simp
              · rw [if_neg hrn] at h
                simp only [Option.some.injEq, Prod.mk.injEq] at h
                obtain ⟨_, _, htr⟩ := h
                obtain ⟨he, _⟩ := List.cons.inj htr
                rw [← he]; simp
          · rw [if_neg h1] at h
            simp only [Option.some.injEq, Prod.mk.injEq] at h
            obtain ⟨_, _, htr⟩ := h
            simp at htr
      · rw [if_neg (fun hc : (some j : Option Nat) = some 0 => hj (Option.some.inj hc))] at h
        simp only [if_neg hj]
        split at h
        next s₂ heq =>
          rcases Option.map_eq_some'.mp h with ⟨⟨r₀, s₀, tr₀⟩, _, hpe⟩
          simp only [Prod.mk.injEq] at hpe
          obtain ⟨_, _, htr⟩ := hpe
          obtain ⟨he, _⟩ := List.cons.inj htr
          rw [← he]
        next repl s₂ heq =>
          by_cases hrn : repl = node
          · rw [if_pos hrn] at h
            rcases Option.map_eq_some'.mp h with ⟨⟨r₀, s₀, tr₀⟩, _, hpe⟩
            simp only [Prod.mk.injEq] at hpe
            obtain ⟨_, _, htr⟩ := hpe
            obtain ⟨he, _⟩ := List.cons.inj htr
            rw [← he]
          · rw [if_neg hrn] at h
            simp only [Option.some.injEq, Prod.mk.injEq] at h
            obtain ⟨_, _, htr⟩ := h
            obtain ⟨he, _⟩ := List.cons.inj htr
            rw [← he]
    · rw [if_neg h0] at h
      cases hsk : (some j : Option Nat) with
      | none => simp at hsk
      | some j₂ =>
        simp only [Option.some.injEq, Prod.mk.injEq] at h
        obtain ⟨_, _, htr⟩ := h
        simp at htr

/-- An in-place entry in the completed trace splits the run: the remainder
of the trace after it is produced by the loop restarted at reducer 0 with
the in-place reducer skipped. -/
theorem reduceLoop_decompose {σ : Type} (node n : Nat)
    (call : σ → Nat → Reduction × σ) :
    ∀ (fuel i : Nat) (skip : Option Nat) (s : σ) (r : Reduction) (s' : σ)
      (tr : List TraceEntry) (l₁ : List TraceEntry) (j : Nat)
      (l₂ : List TraceEntry),
      reduceLoop node n call fuel i skip s = some (r, s', tr) →
      tr = l₁ ++ (j, Reduction.changed node) :: l₂ →
      ∃ (fuel₂ : Nat) (s₂ : σ),
        reduceLoop node n call fuel₂ 0 (some j) s₂ = some (r, s', l₂) := by
  intro fuel
  induction fuel with
  | zero =>
    intro i skip s r s' tr l₁ j l₂ h
    simp [reduceLoop] at h
  | succ fuel ih =>
    intro i skip s r s' tr l₁ j l₂ h htr
    rw [reduceLoop_succ] at h
    by_cases hi : i < n
    · rw [if_pos hi] at h
      by_cases hsk : skip = some i
      · rw [if_pos hsk] at h
        exact ih (i + 1) skip s r s' tr l₁ j l₂ h htr
      · rw [if_neg hsk] at h
        split at h
        next s₂ heq =>
          rcases Option.map_eq_some'.mp h with ⟨⟨r₀, s₀, tr₀⟩, hp, hpe⟩
          simp only [Prod.mk.injEq] at hpe
          obtain ⟨hr, hs, htr₀⟩ := hpe
          rw [htr] at htr₀
          cases l₁ with
          | nil =>
            simp only [List.nil_append] at htr₀
            obtain ⟨he, _⟩ := List.cons.inj htr₀.symm
            exact absurd (congrArg Prod.snd he) (by simp)
          | cons x xs =>
            simp only [List.cons_append] at htr₀
            obtain ⟨_, htl⟩ := List.cons.inj htr₀.symm
            subst hr; subst hs
            exact ih (i + 1) skip s₂ r₀ s₀ tr₀ xs j l₂ hp htl.symm
        next repl s₂ heq =>
          by_cases hrn : repl = node
          · rw [if_pos hrn] at h
            rcases Option.map_eq_some'.mp h with ⟨⟨r₀, s₀, tr₀⟩, hp, hpe⟩
            simp only [Prod.mk.injEq] at hpe
            obtain ⟨hr, hs, htr₀⟩ := hpe
            rw [htr] at htr₀
            cases l₁ with
            | nil =>
              simp only [List.nil_append] at htr₀
              obtain ⟨he, htl⟩ := List.cons.inj htr₀.symm
              obtain ⟨hji, _⟩ := Prod.mk.inj he
              subst hr; subst hs
              refine ⟨fuel, s₂, ?_⟩
              rw [hji, htl]
              exact hp
            | cons x xs =>
              simp only [List.cons_append] at htr₀
              obtain ⟨_, htl⟩ := List.cons.inj htr₀.symm
              subst hr; subst hs
              exact ih 0 (some i) s₂ r₀ s₀ tr₀ xs j l₂ hp htl.symm
          · rw [if_neg hrn] at h
            simp only [Option.some.injEq, Prod.mk.injEq] at h
            obtain ⟨_, _, htr₀⟩ := h
            rw [htr] at htr₀
            cases l₁ with
            | nil =>
              simp only [List.nil_append] at htr₀
              obtain ⟨he, _⟩ := List.cons.inj htr₀.symm
              obtain ⟨_, hrepl⟩ := Prod.mk.inj he
              exact absurd (Reduction.changed.inj hrepl) (fun hc => hrn hc.symm)
            | cons x xs =>
              simp only [List.cons_append] at htr₀
              obtain ⟨_, htl⟩ := List.cons.inj htr₀.symm
              exact absurd htl.symm (by simp)
    · rw [if_neg hi] at h
      cases skip with
      | none =>
        simp only [Option.some.injEq, Prod.mk.injEq] at h
        obtain ⟨_, _, htr₀⟩ := h
        rw [htr] at htr₀
        exact absurd htr₀.symm (by simp)
      | some j₂ =>
        simp only [Option.some.injEq, Prod.mk.injEq] at h
        obtain ⟨_, _, htr₀⟩ := h
        rw [htr] at htr₀
        exact absurd htr₀.symm (by simp)

end GraphReducer

/-- C1: for every node and every registered list of reducers, the dispatch
`GraphReducer::Reduce` returns the first Replaced result it encounters and
stops iterating at once (that invocation is the last of the trace and no
earlier invocation reported a replacement); if every reducer invocation
reported Unchanged, the result is Unchanged; and if some invocation fired
in place but none reported a replacement by a different node, the result is
Changed-in-place referencing the original node. -/
theorem claim_C1_dispatch {σ : Type} (node n : Nat)
    (call : σ → Nat → Reduction × σ) (fuel : Nat) (s : σ) (r : Reduction)
    (s' : σ) (tr : List TraceEntry)
    (h : GraphReducer.Reduce node n call fuel s = some (r, s', tr)) :
    ((∀ e ∈ tr, e.2 = Reduction.noChange) → r = Reduction.noChange)
    ∧ ((∀ e ∈ tr, isRepl node e = false) →
        (∃ e ∈ tr, isInPlace node e = true) → r = Reduction.changed node)
    ∧ (∀ l₁ e l₂, tr = l₁ ++ e :: l₂ → isRepl node e = true →
        r = e.2 ∧ l₂ = [] ∧ ∀ ep ∈ l₁, isRepl node ep = false) := by
  refine ⟨?_, ?_, ?_⟩
  · exact fun hall =>
      GraphReducer.reduceLoop_all_noChange node n call fuel 0 none s r s' tr h rfl hall
  · exact fun hnr hip =>
      GraphReducer.reduceLoop_inPlace_result node n call fuel 0 none s r s' tr h hnr
        (Or.inr hip)
  · exact fun l₁ e l₂ htr hrepl =>
      GraphReducer.reduceLoop_repl_last node n call fuel 0 none s r s' tr l₁ e l₂ h
        htr hrepl

/-- Witness for C1 at a concrete input: two reducers where the second
replaces node 5 by node 7; the dispatch stops right there and returns that
replacement. -/
theorem claim_C1_dispatch_witness :
    GraphReducer.Reduce 5 2 replCall 10 () =
      some (Reduction.changed 7, (), [(0, Reduction.noChange), (1, Reduction.changed 7)])
    ∧ Reduction.changed 7 = ((1 : Nat), Reduction.changed 7).2 := by
  refine ⟨rfl, ?_⟩
  exact ((claim_C1_dispatch 5 2 replCall 10 () _ _ _ rfl).2.2
    [(0, Reduction.noChange)] (1, Reduction.changed 7) [] rfl (by decide)).1

/-- C2 is false on the code: with two stateful reducers that each fire in
place on their first invocation, reducer 0 fires in place and is
nevertheless invoked again later in the same call, because reducer 1's
subsequent in-place firing takes over the single skip slot. -/
theorem claim_C2_counterexample :
    ¬ (∀ (r : Reduction) (s' : Nat → Nat) (tr : List TraceEntry),
        GraphReducer.Reduce 0 2 inPlaceOnceCall 10 (fun _ => 0) = some (r, s', tr) →
        ∀ l₁ j l₂, tr = l₁ ++ (j, Reduction.changed 0) :: l₂ →
          ∀ e ∈ l₂, e.1 ≠ j) := by
  intro h
  exact h _ _ _ rfl [] 0 [(1, Reduction.changed 0), (0, Reduction.noChange)] rfl
    (0, Reduction.noChange) (by simp) rfl

/-- C2 amended: when a reducer fires in place, iteration restarts from the
first registered reducer, and the reducer that just fired is skipped until
some reducer fires in place again (it is not skipped permanently: only the
most recent in-place reducer holds the skip slot).  Concretely: along any
suffix of the trace following an in-place firing by reducer `j` that
contains no further in-place firing, reducer `j` is never invoked, and the
first invocation of that suffix, if any, is reducer 0 (reducer 1 when
`j = 0`). -/
theorem claim_C2_amended {σ : Type} (node n : Nat)
    (call : σ → Nat → Reduction × σ) (fuel : Nat) (s : σ) (r : Reduction)
    (s' : σ) (tr : List TraceEntry)
    (h : GraphReducer.Reduce node n call fuel s = some (r, s', tr)) :
    ∀ l₁ j l₂, tr = l₁ ++ (j, Reduction.changed node) :: l₂ →
      (∀ e ∈ l₂, isInPlace node e = false) →
      (∀ e ∈ l₂, e.1 ≠ j)
      ∧ (∀ e l₃, l₂ = e :: l₃ → e.1 = if j = 0 then 1 else 0) := by
  intro l₁ j l₂ htr hnip
  obtain ⟨fuel₂, s₂, h₂⟩ :=
    GraphReducer.reduceLoop_decompose node n call fuel 0 none s r s' tr l₁ j l₂ h htr
  refine ⟨GraphReducer.reduceLoop_skip_not_called node n call fuel₂ 0 j s₂ r s' l₂ h₂ hnip,
    ?_⟩
  intro e l₃ hl
  subst hl
  exact GraphReducer.reduceLoop_restart_head node n call fuel₂ j s₂ r s' e l₃ h₂

/-- Witness for the amended C2 at a concrete input: in the two-reducer
in-place example, after reducer 1 fires in place the remaining suffix of
the trace contains no invocation of reducer 1, and its first invocation is
reducer 0. -/
theorem claim_C2_amended_witness :
    ((0 : Nat), Reduction.noChange).1 ≠ 1
    ∧ ((0 : Nat), Reduction.noChange).1 = if (1 : Nat) = 0 then 1 else 0 := by
  have h := claim_C2_amended 0 2 inPlaceOnceCall 10 (fun _ => 0) _ _ _ rfl
    [(0, Reduction.changed 0)] 1 [(0, Reduction.noChange)] rfl (by decide)
  exact ⟨h.1 (0, Reduction.noChange) (by simp), h.2 (0, Reduction.noChange) [] rfl⟩

/-- Setting a node at an in-range identifier is read back verbatim. -/
theorem Graph.node_setNode_self (g : Graph) (i : Nat) (nd : Node)
    (h : i < g.nodes.length) : (g.setNode i nd).node i = nd := by
  simp [Graph.node, Graph.setNode, List.getD_eq_getElem?_getD,
    List.getElem?_set_self, h]

/-- Setting a node leaves every other identifier unchanged. -/
theorem Graph.node_setNode_ne (g : Graph) (i j : Nat) (nd : Node)
    (h : i ≠ j) : (g.setNode i nd).node j = g.node j := by
  simp [Graph.node, Graph.setNode, List.getD_eq_getElem?_getD,
    List.getElem?_set_ne, h]

/-- Setting a node at an out-of-range identifier is a no-op. -/
theorem Graph.setNode_oob (g : Graph) (i : Nat) (nd : Node)
    (h : g.nodes.length ≤ i) : g.setNode i nd = g := by
  simp [Graph.setNode, List.set_eq_of_length_le h]

theorem Graph.length_setNode (g : Graph) (i : Nat) (nd : Node) :
    (g.setNode i nd).nodes.length = g.nodes.length := by
  simp [Graph.setNode]

theorem Graph.startId_setNode (g : Graph) (i : Nat) (nd : Node) :
    (g.setNode i nd).startId = g.startId := rfl

theorem Graph.endId_setNode (g : Graph) (i : Nat) (nd : Node) :
    (g.setNode i nd).endId = g.endId := rfl

/-- An edge redirection leaves every other node unchanged. -/
theorem Graph.node_updateEdge_ne (g : Graph) (u k t v : Nat) (h : v ≠ u) :
    (g.updateEdge u k t).node v = g.node v :=
  Graph.node_setNode_ne g u v _ (fun he => h he.symm)

/-- An in-range edge redirection is read back verbatim. -/
theorem Graph.input_updateEdge_self (g : Graph) (u k t : Nat)
    (hu : u < g.nodes.length) (hk : k < (g.node u).inputs.length) :
    (g.updateEdge u k t).input u k = t := by
  simp [Graph.input, Graph.updateEdge, Graph.node_setNode_self g u _ hu,
    List.getD_eq_getElem?_getD, List.getElem?_set_self, hk]

/-- An edge redirection leaves every other slot unchanged. -/
theorem Graph.input_updateEdge_ne (g : Graph) (u k t v j : Nat)
    (h : v ≠ u ∨ j ≠ k) : (g.updateEdge u k t).input v j = g.input v j := by
  rcases h with h | h
  · simp [Graph.input, Graph.node_updateEdge_ne g u k t v h]
  · by_cases hv : v = u
    · subst hv
      by_cases hu : v < g.nodes.length
      · simp [Graph.input, Graph.updateEdge, Graph.node_setNode_self g v _ hu,
          List.getD_eq_getElem?_getD, List.getElem?_set_ne (fun hc => h hc.symm)]
      · rw [Graph.updateEdge, Graph.setNode_oob _ _ _ (Nat.le_of_not_lt hu)]
    · simp [Graph.input, Graph.node_updateEdge_ne g u k t v hv]

/-- An edge redirection changes no operator. -/
theorem Graph.op_updateEdge (g : Graph) (u k t v : Nat) :
    ((g.updateEdge u k t).node v).op = (g.node v).op := by
  by_cases hv : v = u
  · subst hv
    by_cases hu : v < g.nodes.length
    · simp [Graph.updateEdge, Graph.node_setNode_self g v _ hu]
    · rw [Graph.updateEdge, Graph.setNode_oob _ _ _ (Nat.le_of_not_lt hu)]
  · rw [Graph.node_updateEdge_ne g u k t v hv]

/-- An edge redirection changes no dead mark. -/
theorem Graph.dead_updateEdge (g : Graph) (u k t v : Nat) :
    ((g.updateEdge u k t).node v).dead = (g.node v).dead := by
  by_cases hv : v = u
  · subst hv
    by_cases hu : v < g.nodes.length
    · simp [Graph.updateEdge, Graph.node_setNode_self g v _ hu]
    · rw [Graph.updateEdge, Graph.setNode_oob _ _ _ (Nat.le_of_not_lt hu)]
  · rw [Graph.node_updateEdge_ne g u k t v hv]

/-- An edge redirection changes no input-list length. -/
theorem Graph.inputsLength_updateEdge (g : Graph) (u k t v : Nat) :
    ((g.updateEdge u k t).node v).inputs.length = (g.node v).inputs.length := by
  by_cases hv : v = u
  · subst hv
    by_cases hu : v < g.nodes.length
    · simp [Graph.updateEdge, Graph.node_setNode_self g v _ hu]
    · rw [Graph.updateEdge, Graph.setNode_oob _ _ _ (Nat.le_of_not_lt hu)]
  · rw [Graph.node_updateEdge_ne g u k t v hv]

theorem Graph.length_updateEdge (g : Graph) (u k t : Nat) :
    (g.updateEdge u k t).nodes.length = g.nodes.length :=
  Graph.length_setNode g u _

/-- Killing a node leaves every other node unchanged. -/
theorem Graph.node_kill_ne (g : Graph) (i v : Nat) (h : v ≠ i) :
    (g.kill i).node v = g.node v :=
  Graph.node_setNode_ne g i v _ (fun he => h he.symm)

/-- Killing an in-range node clears its inputs and marks it dead, keeping
its operator. -/
theorem Graph.node_kill_self (g : Graph) (i : Nat) (h : i < g.nodes.length) :
    (g.kill i).node i = { op := (g.node i).op, inputs := [], dead := true } :=
  Graph.node_setNode_self g i _ h

/-- Membership in the use-edge list: exactly the in-range slots currently
targeting the node. -/
theorem Graph.mem_useEdges (g : Graph) (i u k : Nat) :
    (u, k) ∈ g.useEdges i ↔
      u < g.nodes.length ∧ k < (g.node u).inputs.length ∧ g.input u k = i := by
  simp only [Graph.useEdges, List.mem_flatMap, List.mem_filterMap,
    List.mem_range]
  constructor
  · rintro ⟨u₂, hu₂, k₂, hk₂, hif⟩
    by_cases hc : (g.node u₂).inputs.getD k₂ 0 = i
    · rw [if_pos hc] at hif
      obtain ⟨h1, h2⟩ := Prod.mk.inj (Option.some.inj hif)
      subst h1; subst h2
      exact ⟨hu₂, hk₂, hc⟩
    · rw [if_neg hc] at hif
      exact absurd hif (by simp)
  · rintro ⟨hu, hk, hi⟩
    refine ⟨u, hu, k, hk, ?_⟩
    rw [if_pos (show (g.node u).inputs.getD k 0 = i from hi)]

/-- Node lookup only depends on the node arena. -/
theorem Graph.node_congr (g g' : Graph) (h : g'.nodes = g.nodes) (i : Nat) :
    g'.node i = g.node i := by
  simp [Graph.node, h]

/-- Use-edge computation only depends on the node arena. -/
theorem Graph.useEdges_congr (g g' : Graph) (h : g'.nodes = g.nodes)
    (i : Nat) : g'.useEdges i = g.useEdges i := by
  simp [Graph.useEdges, Graph.node, h]

/-- Placeholder chains only depend on the node arena. -/
theorem ChasesN_congr (g g' : Graph) (h : g'.nodes = g.nodes) (m x t : Nat)
    (hc : ChasesN g m x t) : ChasesN g' m x t := by
  induction hc with
  | done x hx =>
    exact ChasesN.done x (by rw [Graph.node_congr g g' h]; exact hx)
  | step m x t hx _ ih =>
    refine ChasesN.step m x t (by rw [Graph.node_congr g g' h]; exact hx) ?_
    rw [Graph.node_congr g g' h]
    exact ih

/-- The target of a placeholder chain is not itself a placeholder. -/
theorem ChasesN_target (g : Graph) (m x t : Nat) (hc : ChasesN g m x t) :
    (g.node t).op.opcode ≠ Opcode.replacementPlaceholder := by
  induction hc with
  | done x hx => exact hx
  | step m x t _ _ ih => exact ih

/-- `chase` follows any given placeholder chain to its end once the fuel
covers the chain length. -/
theorem chase_of_chasesN (g : Graph) (m x t : Nat) (h : ChasesN g m x t) :
    ∀ fuel, m ≤ fuel → chase g fuel x = t := by
  induction h with
  | done x hx =>
    intro fuel _
    cases fuel with
    | zero => rfl
    | succ f => rw [chase, if_neg hx]
  | step m x t hx _ ih =>
    intro fuel hm
    cases fuel with
    | zero => exact absurd hm (by simp)
    | succ f => rw [chase, if_pos hx]; exact ih f (Nat.le_of_succ_le_succ hm)

/-- When the replacement is within the watermark, the placeholder flag is
set, and the resweep heuristic fires, `Replace` runs the lazy placeholder
protocol. -/
theorem Replace_lazy_eq (P : Params) (gr : GraphReducer)
    (node replacement max_id : Nat)
    (hle : replacement ≤ max_id) (hfl : P.flagPlaceholder = true)
    (hfire : (gr.revisit_all_nodes
      || P.heur gr.nb_traversed_uses gr.nb_visited_nodes) = true) :
    GraphReducer.Replace P gr node replacement max_id =
      Except.ok (GraphReducer.replaceLazy
        { GraphReducer.fixDesignations gr node replacement with
            revisit_all_nodes := true }
        node replacement) := by
  rw [GraphReducer.Replace]
  simp only [GraphReducer.update_and_get_revisit_all_nodes,
    GraphReducer.fixDesignations, hfl, hfire, if_pos hle]
  simp

/-- The lazy protocol when the replacement has no outputs or the node has
no users: the node is killed directly and nothing else changes. -/
theorem GraphReducer.replaceLazyG_kill (g : Graph) (node replacement : Nat)
    (hnode : node < g.nodes.length)
    (hcond : (decide ((if (g.node replacement).op.valueOut != 0 then 1 else 0) +
        (if (g.node replacement).op.effectOut != 0 then 1 else 0) +
        (if (g.node replacement).op.controlOut != 0 then 1 else 0) = 0)
        || (g.useEdges node).isEmpty) = true) :
    (GraphReducer.replaceLazyG g node replacement).node node =
      { op := (g.node node).op, inputs := [], dead := true }
    ∧ ∀ v, v ≠ node → (GraphReducer.replaceLazyG g node replacement).node v = g.node v := by
  have heq : GraphReducer.replaceLazyG g node replacement = g.kill node := by
    simp only [GraphReducer.replaceLazyG]
    rw [hcond]
    simp
  rw [heq]
  exact ⟨Graph.node_kill_self g node hnode,
    fun v hv => Graph.node_kill_ne g node v hv⟩

/-- The lazy protocol in the aliasing case: the node becomes a placeholder
of the replacement's output arities whose inputs are the chased ultimate
target, once per output kind, and nothing else changes. -/
theorem GraphReducer.replaceLazyG_alias (g : Graph) (node replacement : Nat)
    (hnode : node < g.nodes.length)
    (hcond : (decide ((if (g.node replacement).op.valueOut != 0 then 1 else 0) +
        (if (g.node replacement).op.effectOut != 0 then 1 else 0) +
        (if (g.node replacement).op.controlOut != 0 then 1 else 0) = 0)
        || (g.useEdges node).isEmpty) = false) :
    (GraphReducer.replaceLazyG g node replacement).node node =
      { op := ReplacementPlaceholder
          (if (g.node replacement).op.valueOut != 0 then 1 else 0)
          (if (g.node replacement).op.effectOut != 0 then 1 else 0)
          (if (g.node replacement).op.controlOut != 0 then 1 else 0),
        inputs := List.replicate
          ((if (g.node replacement).op.valueOut != 0 then 1 else 0) +
           (if (g.node replacement).op.effectOut != 0 then 1 else 0) +
           (if (g.node replacement).op.controlOut != 0 then 1 else 0))
          (chase (g.setNode node { g.node node with inputs := [] })
            g.nodes.length replacement),
        dead := (g.node node).dead }
    ∧ ∀ v, v ≠ node → (GraphReducer.replaceLazyG g node replacement).node v = g.node v := by
  have hneg : ¬ ((decide ((if (g.node replacement).op.valueOut != 0 then 1 else 0) +
        (if (g.node replacement).op.effectOut != 0 then 1 else 0) +
        (if (g.node replacement).op.controlOut != 0 then 1 else 0) = 0)
        || (g.useEdges node).isEmpty) = true) := by
    rw [hcond]
    exact Bool.false_ne_true
  have hlen₁ : node < (g.setNode node { g.node node with inputs := [] }).nodes.length := by
    rw [Graph.length_setNode]
    exact hnode
  have hlen₂ : node <
      ((g.setNode node { g.node node with inputs := [] }).setNode node
        { (g.setNode node { g.node node with inputs := [] }).node node with
          inputs := List.replicate
            ((if (g.node replacement).op.valueOut != 0 then 1 else 0) +
             (if (g.node replacement).op.effectOut != 0 then 1 else 0) +
             (if (g.node replacement).op.controlOut != 0 then 1 else 0))
            (chase (g.setNode node { g.node node with inputs := [] })
              (g.setNode node { g.node node with inputs := [] }).nodes.length
              replacement) }).nodes.length := by
    rw [Graph.length_setNode, Graph.length_setNode]
    exact hnode
  constructor
  · simp only [GraphReducer.replaceLazyG]
    rw [if_neg hneg]
    rw [Graph.node_setNode_self _ node _ hlen₂]
    rw [Graph.node_setNode_self _ node _ hlen₁]
    rw [Graph.node_setNode_self _ node _ hnode]
    rw [Graph.length_setNode]
  · intro v hv
    simp only [GraphReducer.replaceLazyG]
    rw [if_neg hneg]
    rw [Graph.node_setNode_ne _ node v _ (Ne.symm hv),
      Graph.node_setNode_ne _ node v _ (Ne.symm hv),
      Graph.node_setNode_ne _ node v _ (Ne.symm hv)]

/-- C6: in the lazy placeholder branch of `GraphReducer::Replace` (taken
when the replacement is within the watermark, the placeholder flag is set
and the resweep heuristic fires): if the replacement's total output arity
across value/effect/control kinds is zero, or the node has no users, the
node is killed directly; otherwise the node's inputs are truncated to
zero, the replacement is chased through any existing placeholder chain to
its ultimate non-placeholder target, that target is appended as an input
once per output kind, the node's operator is mutated into the placeholder
variant matching those arities, and every other node — in particular every
current user's edges — is left untouched. -/
theorem claim_C6_lazy_replace (P : Params) (gr : GraphReducer)
    (node replacement max_id : Nat) (gr' : GraphReducer)
    (hnode : node < gr.graph.nodes.length)
    (hle : replacement ≤ max_id)
    (hfl : P.flagPlaceholder = true)
    (hfire : (gr.revisit_all_nodes
      || P.heur gr.nb_traversed_uses gr.nb_visited_nodes) = true)
    (hok : GraphReducer.Replace P gr node replacement max_id = Except.ok gr') :
    ((((if (gr.graph.node replacement).op.valueOut != 0 then 1 else 0) +
        (if (gr.graph.node replacement).op.effectOut != 0 then 1 else 0) +
        (if (gr.graph.node replacement).op.controlOut != 0 then 1 else 0) = 0) ∨
       gr.graph.useEdges node = []) →
      (gr'.graph.node node).dead = true ∧ (gr'.graph.node node).inputs = [] ∧
      (∀ v, v ≠ node → gr'.graph.node v = gr.graph.node v))
    ∧ (∀ tot m t : Nat,
        tot = (if (gr.graph.node replacement).op.valueOut != 0 then 1 else 0) +
              (if (gr.graph.node replacement).op.effectOut != 0 then 1 else 0) +
              (if (gr.graph.node replacement).op.controlOut != 0 then 1 else 0) →
        tot ≠ 0 → gr.graph.useEdges node ≠ [] →
        ChasesN (gr.graph.setNode node { gr.graph.node node with inputs := [] })
          m replacement t →
        m ≤ gr.graph.nodes.length →
        (gr'.graph.node node).op =
          ReplacementPlaceholder
            (if (gr.graph.node replacement).op.valueOut != 0 then 1 else 0)
            (if (gr.graph.node replacement).op.effectOut != 0 then 1 else 0)
            (if (gr.graph.node replacement).op.controlOut != 0 then 1 else 0)
        ∧ (gr'.graph.node node).inputs = List.replicate tot t
        ∧ (∀ v, v ≠ node → gr'.graph.node v = gr.graph.node v)
        ∧ (t ≠ node →
            (gr'.graph.node t).op.opcode ≠ Opcode.replacementPlaceholder)) := by
  rw [Replace_lazy_eq P gr node replacement max_id hle hfl hfire] at hok
  replace hok := (Except.ok.inj hok).symm
  subst hok
  constructor
  · intro hkill
    have hcond : (decide ((if (gr.graph.node replacement).op.valueOut != 0 then 1 else 0) +
        (if (gr.graph.node replacement).op.effectOut != 0 then 1 else 0) +
        (if (gr.graph.node replacement).op.controlOut != 0 then 1 else 0) = 0)
        || (gr.graph.useEdges node).isEmpty) = true := by
      rcases hkill with h | h
      · rw [h]
        simp
      · rw [h]
        simp
    obtain ⟨h1, h2⟩ := GraphReducer.replaceLazyG_kill
      (GraphReducer.fixDesignations gr node replacement).graph node replacement
      hnode hcond
    refine ⟨?_, ?_, ?_⟩
    · show ((GraphReducer.replaceLazyG
        (GraphReducer.fixDesignations gr node replacement).graph node
        replacement).node node).dead = true
      rw [h1]
    · show ((GraphReducer.replaceLazyG
        (GraphReducer.fixDesignations gr node replacement).graph node
        replacement).node node).inputs = []
      rw [h1]
    · intro v hv
      show (GraphReducer.replaceLazyG
        (GraphReducer.fixDesignations gr node replacement).graph node
        replacement).node v = gr.graph.node v
      exact (h2 v hv).trans rfl
  · intro tot m t htot hne huse hch hm
    have hcond : (decide ((if (gr.graph.node replacement).op.valueOut != 0 then 1 else 0) +
        (if (gr.graph.node replacement).op.effectOut != 0 then 1 else 0) +
        (if (gr.graph.node replacement).op.controlOut != 0 then 1 else 0) = 0)
        || (gr.graph.useEdges node).isEmpty) = false := by
      rw [← htot]
      simp only [Bool.or_eq_false_iff, decide_eq_false_iff_not]
      refine ⟨hne, ?_⟩
      rw [Bool.eq_false_iff]
      intro hc
      exact huse (List.isEmpty_iff.mp hc)
    obtain ⟨h1, h2⟩ := GraphReducer.replaceLazyG_alias
      (GraphReducer.fixDesignations gr node replacement).graph node replacement
      hnode hcond
    have hchase : chase ((GraphReducer.fixDesignations gr node
          replacement).graph.setNode node
          { (GraphReducer.fixDesignations gr node replacement).graph.node node with
            inputs := [] })
        (GraphReducer.fixDesignations gr node replacement).graph.nodes.length
        replacement = t :=
      chase_of_chasesN _ m replacement t
        (ChasesN_congr
          (gr.graph.setNode node { gr.graph.node node with inputs := [] })
          ((GraphReducer.fixDesignations gr node replacement).graph.setNode node
            { (GraphReducer.fixDesignations gr node replacement).graph.node node with
              inputs := [] })
          rfl m replacement t hch) _ hm
    rw [hchase] at h1
    refine ⟨?_, ?_, ?_, ?_⟩
    · show ((GraphReducer.replaceLazyG
        (GraphReducer.fixDesignations gr node replacement).graph node
        replacement).node node).op = _
      rw [h1]
      exact rfl
    · show ((GraphReducer.replaceLazyG
        (GraphReducer.fixDesignations gr node replacement).graph node
        replacement).node node).inputs = List.replicate tot t
      rw [h1, htot]
      exact rfl
    · intro v hv
      show (GraphReducer.replaceLazyG
        (GraphReducer.fixDesignations gr node replacement).graph node
        replacement).node v = gr.graph.node v
      exact (h2 v hv).trans rfl
    · intro ht
      show ((GraphReducer.replaceLazyG
        (GraphReducer.fixDesignations gr node replacement).graph node
        replacement).node t).op.opcode ≠ Opcode.replacementPlaceholder
      rw [h2 t ht]
      have h3 := ChasesN_target _ m replacement t hch
      rw [Graph.node_setNode_ne _ node t _ (Ne.symm ht)] at h3
      exact h3

/-- Witness for C6 at a concrete input: node 0 (used by node 2) is lazily
replaced by node 1, itself a placeholder forwarding to node 3; node 0
becomes a one-value-output placeholder whose single input is the chased
target 3. -/
theorem claim_C6_lazy_replace_witness :
    ∃ gr', GraphReducer.Replace P6 gr6 0 1 10 = Except.ok gr' ∧
      (gr'.graph.node 0).op = ReplacementPlaceholder 1 0 0 ∧
      (gr'.graph.node 0).inputs = [3] := by
  refine ⟨_, rfl, ?_⟩
  have h := claim_C6_lazy_replace P6 gr6 0 1 10 _ (by decide) (by decide)
    (by decide) (by decide) rfl
  have hchain : ChasesN (gr6.graph.setNode 0 { gr6.graph.node 0 with inputs := [] })
      1 1 3 :=
    ChasesN.step 0 1 3 (by decide) (ChasesN.done 3 (by decide))
  have h2 := h.2 1 1 3 (by decide) (by decide) (by decide) hchain (by decide)
  exact ⟨h2.1.trans (by decide), h2.2.1.trans (by decide)⟩

/-- C10: the watermark branch of `GraphReducer::Replace` (taken when the
replacement's identifier exceeds the watermark) performs no edge-kind
verification and therefore can never end in the fatal verifier failure —
it always succeeds; the eager branch, by contrast, verifies every edge
before redirecting it: on a concrete graph where a value edge would be
redirected to a replacement with no outputs, the eager call fails fatally
while the watermark call on the very same graph succeeds, silently
redirecting the incompatible edge. -/
theorem claim_C10_watermark_unverified :
    (∀ (P : Params) (gr : GraphReducer) (node replacement max_id : Nat),
      max_id < replacement →
      ∃ gr', GraphReducer.Replace P gr node replacement max_id = Except.ok gr')
    ∧ GraphReducer.Replace P10 gr10 1 2 GraphReducer.kMaxNodeId =
        Except.error Err.verifyFail
    ∧ (∃ gr', GraphReducer.Replace P10 gr10 1 2 1 = Except.ok gr'
        ∧ gr'.graph.input 0 0 = 2) := by
  refine ⟨?_, rfl, ⟨_, rfl, rfl⟩⟩
  intro P gr node replacement max_id h
  simp only [GraphReducer.Replace]
  rw [if_neg (Nat.not_le.mpr h)]
  exact ⟨_, rfl⟩

/-- Witness for C10's universal part at a concrete input: the watermark
call on the incompatible example succeeds. -/
theorem claim_C10_watermark_unverified_witness :
    ∃ gr', GraphReducer.Replace P10 gr10 1 2 1 = Except.ok gr' :=
  claim_C10_watermark_unverified.1 P10 gr10 1 2 1 (by decide)

/-- `Revisit` does not touch the graph. -/
theorem Revisit_graph (gr : GraphReducer) (u : Nat) :
    (GraphReducer.Revisit gr u).graph = gr.graph := by
  simp only [GraphReducer.Revisit]
  split <;> rfl

/-- `Revisit` does not touch the stack. -/
theorem Revisit_stack (gr : GraphReducer) (u : Nat) :
    (GraphReducer.Revisit gr u).stack = gr.stack := by
  simp only [GraphReducer.Revisit]
  split <;> rfl

/-- `Revisit` leaves the state of any node that is not `kVisited`
unchanged. -/
theorem Revisit_state_of_ne_visited (gr : GraphReducer) (u n : Nat)
    (h : gr.state n ≠ GraphReducer.State.kVisited) :
    (GraphReducer.Revisit gr u).state n = gr.state n := by
  simp only [GraphReducer.Revisit]
  split
  · next hu =>
      simp only [GraphReducer.setVState]
      rw [if_neg (fun he : n = u => h (by rw [he]; exact hu))]
  · rfl

/-- The watermark edge loop preserves node count, operators, dead marks,
input arities, the start and end designations, the stack, and the state of
every node that is not `kVisited`. -/
theorem replaceEdgesBounded_facts (node repl max_id : Nat) :
    ∀ (L : List (Nat × Nat)) (gr : GraphReducer),
      ((GraphReducer.replaceEdgesBounded node repl max_id L gr).graph.nodes.length
        = gr.graph.nodes.length)
      ∧ (∀ v, (((GraphReducer.replaceEdgesBounded node repl max_id L gr).graph.node v).op
          = (gr.graph.node v).op)
        ∧ (((GraphReducer.replaceEdgesBounded node repl max_id L gr).graph.node v).dead
          = (gr.graph.node v).dead)
        ∧ (((GraphReducer.replaceEdgesBounded node repl max_id L gr).graph.node v).inputs.length
          = (gr.graph.node v).inputs.length))
      ∧ ((GraphReducer.replaceEdgesBounded node repl max_id L gr).stack = gr.stack)
      ∧ (∀ n, gr.state n ≠ GraphReducer.State.kVisited →
          (GraphReducer.replaceEdgesBounded node repl max_id L gr).state n = gr.state n) := by
  intro L
  induction L with
  | nil =>
    intro gr
    exact ⟨rfl, fun v => ⟨rfl, rfl, rfl⟩, rfl, fun n _ => rfl⟩
  | cons a rest ih =>
    intro gr
    obtain ⟨a1, a2⟩ := a
    rw [GraphReducer.replaceEdgesBounded]
    by_cases ha : a1 ≤ max_id
    · rw [if_pos ha]
      have hg3 : (if a1 ≠ node then
            GraphReducer.Revisit { gr with graph := gr.graph.updateEdge a1 a2 repl } a1
          else { gr with graph := gr.graph.updateEdge a1 a2 repl }).graph
          = gr.graph.updateEdge a1 a2 repl := by
        split
        · rw [Revisit_graph]
        · rfl
      have hst : (if a1 ≠ node then
            GraphReducer.Revisit { gr with graph := gr.graph.updateEdge a1 a2 repl } a1
          else { gr with graph := gr.graph.updateEdge a1 a2 repl }).stack
          = gr.stack := by
        split
        · rw [Revisit_stack]
        · rfl
      obtain ⟨ih1, ih2, ih3, ih4⟩ := ih (if a1 ≠ node then
        GraphReducer.Revisit { gr with graph := gr.graph.updateEdge a1 a2 repl } a1
        else { gr with graph := gr.graph.updateEdge a1 a2 repl })
      refine ⟨?_, ?_, ?_, ?_⟩
      · rw [ih1, hg3, Graph.length_updateEdge]
      · intro v
        obtain ⟨h1, h2, h3⟩ := ih2 v
        refine ⟨?_, ?_, ?_⟩
        · rw [h1, hg3, Graph.op_updateEdge]
        · rw [h2, hg3, Graph.dead_updateEdge]
        · rw [h3, hg3, Graph.inputsLength_updateEdge]
      · rw [ih3, hst]
      · intro n hn
        have hn₂ : (if a1 ≠ node then
            GraphReducer.Revisit { gr with graph := gr.graph.updateEdge a1 a2 repl } a1
            else { gr with graph := gr.graph.updateEdge a1 a2 repl }).state n
            = gr.state n := by
          split
          · exact Revisit_state_of_ne_visited _ a1 n hn
          · rfl
        rw [ih4 n (by rw [hn₂]; exact hn), hn₂]
    · rw [if_neg ha]
      exact ih gr

/-- Slot values after the watermark edge loop: every listed edge within
the watermark is redirected to the replacement; every other slot — in
particular every listed edge beyond the watermark — is untouched. -/
theorem replaceEdgesBounded_slots (node repl max_id : Nat) :
    ∀ (L : List (Nat × Nat)) (gr : GraphReducer), L.Nodup →
      (∀ e ∈ L, e.1 < gr.graph.nodes.length ∧
        e.2 < (gr.graph.node e.1).inputs.length) →
      ∀ u k : Nat,
        (((u, k) ∈ L ∧ u ≤ max_id) →
          (GraphReducer.replaceEdgesBounded node repl max_id L gr).graph.input u k
            = repl)
        ∧ (((u, k) ∉ L ∨ max_id < u) →
          (GraphReducer.replaceEdgesBounded node repl max_id L gr).graph.input u k
            = gr.graph.input u k) := by
  intro L
  induction L with
  | nil =>
    intro gr _ _ u k
    exact ⟨fun h => absurd h.1 (by simp), fun _ => rfl⟩
  | cons a rest ih =>
    intro gr hnd hbd u k
    obtain ⟨a1, a2⟩ := a
    have hndr : rest.Nodup := (List.nodup_cons.mp hnd).2
    have hanr : (a1, a2) ∉ rest := (List.nodup_cons.mp hnd).1
    rw [GraphReducer.replaceEdgesBounded]
    by_cases ha : a1 ≤ max_id
    · rw [if_pos ha]
      have hg3 : (if a1 ≠ node then
            GraphReducer.Revisit { gr with graph := gr.graph.updateEdge a1 a2 repl } a1
          else { gr with graph := gr.graph.updateEdge a1 a2 repl }).graph
          = gr.graph.updateEdge a1 a2 repl := by
        split
        · rw [Revisit_graph]
        · rfl
      have hbdr : ∀ e ∈ rest, e.1 < (if a1 ≠ node then
            GraphReducer.Revisit { gr with graph := gr.graph.updateEdge a1 a2 repl } a1
          else { gr with graph := gr.graph.updateEdge a1 a2 repl }).graph.nodes.length ∧
          e.2 < ((if a1 ≠ node then
            GraphReducer.Revisit { gr with graph := gr.graph.updateEdge a1 a2 repl } a1
          else { gr with graph := gr.graph.updateEdge a1 a2 repl }).graph.node e.1).inputs.length := by
        intro e he
        rw [hg3, Graph.length_updateEdge, Graph.inputsLength_updateEdge]
        exact hbd e (List.mem_cons_of_mem _ he)
      have ihr := ih (if a1 ≠ node then
        GraphReducer.Revisit { gr with graph := gr.graph.updateEdge a1 a2 repl } a1
        else { gr with graph := gr.graph.updateEdge a1 a2 repl }) hndr hbdr
      constructor
      · rintro ⟨hmem, hu⟩
        rcases List.mem_cons.mp hmem with heq | hmem₀
        · obtain ⟨hu1, hk2⟩ := Prod.mk.inj heq
          subst hu1; subst hk2
          rw [(ihr u k).2 (Or.inl (fun hc => hanr hc)), hg3]
          exact Graph.input_updateEdge_self gr.graph u k repl
            (hbd (u, k) (List.mem_cons_self _ _)).1
            (hbd (u, k) (List.mem_cons_self _ _)).2
        · exact (ihr u k).1 ⟨hmem₀, hu⟩
      · rintro (hnot | hgt)
        · have hnr : (u, k) ∉ rest := fun hc => hnot (List.mem_cons_of_mem _ hc)
          have hne : ¬ (u = a1 ∧ k = a2) := by
            rintro ⟨h1, h2⟩
            exact hnot (by rw [h1, h2]; exact List.mem_cons_self _ _)
          rw [(ihr u k).2 (Or.inl hnr), hg3]
          apply Graph.input_updateEdge_ne
          by_cases h1 : u = a1
          · exact Or.inr (fun h2 => hne ⟨h1, h2⟩)
          · exact Or.inl h1
        · rw [(ihr u k).2 (Or.inr hgt), hg3]
          apply Graph.input_updateEdge_ne
          exact Or.inl (fun he => absurd (he ▸ hgt) (Nat.not_lt.mpr ha))
    · rw [if_neg ha]
      have ihr := ih gr hndr (fun e he => hbd e (List.mem_cons_of_mem _ he))
      constructor
      · rintro ⟨hmem, hu⟩
        rcases List.mem_cons.mp hmem with heq | hmem₀
        · obtain ⟨hu1, _⟩ := Prod.mk.inj heq
          exact absurd (hu1 ▸ hu) ha
        · exact (ihr u k).1 ⟨hmem₀, hu⟩
      · rintro (hnot | hgt)
        · exact (ihr u k).2 (Or.inl (fun hc => hnot (List.mem_cons_of_mem _ hc)))
        · exact (ihr u k).2 (Or.inr hgt)

/-- `Recurse` does not touch the graph. -/
theorem Recurse_graph (gr : GraphReducer) (n : Nat) :
    (GraphReducer.Recurse gr n).2.graph = gr.graph := by
  simp only [GraphReducer.Recurse]
  split <;> rfl

/-- C5 is false as stated in one point: after the watermark branch the
replacement is offered through `Recurse`, which does not push a node whose
visit state is `kOnStack` or `kVisited`; with the replacement already on
the stack, no frame is pushed. -/
theorem claim_C5_counterexample :
    ¬ (∀ gr', GraphReducer.Replace P10 gr5 1 2 1 = Except.ok gr' →
        gr'.stack = { node := 2, input_index := 0 } :: gr5.stack) := by
  intro h
  have h2 := h _ rfl
  exact absurd h2 (by decide)

/-- C5 amended: in the watermark branch of `GraphReducer::Replace` (taken
when the replacement's identifier exceeds the watermark), every use edge
of the node owned by a user at most the watermark is redirected to the
replacement, every use edge owned by a younger user is left untouched,
the node is killed if and only if no users remain (all its use edges were
within the watermark), and the replacement is then offered to the
traversal via `Recurse`: a frame for it is pushed when its visit state is
`kUnvisited` (or `kRevisit`), and the stack is left unchanged when it is
already `kOnStack` (or `kVisited`). -/
theorem claim_C5_watermark (P : Params) (gr : GraphReducer)
    (node replacement max_id : Nat) (gr' : GraphReducer)
    (h1 : max_id < replacement)
    (hrn : replacement ≠ node)
    (hnode : node < gr.graph.nodes.length)
    (hdead : (gr.graph.node node).dead = false)
    (hself : ∀ e ∈ gr.graph.useEdges node, e.1 ≠ node)
    (hnd : (gr.graph.useEdges node).Nodup)
    (hok : GraphReducer.Replace P gr node replacement max_id = Except.ok gr') :
    (∀ u k, (u, k) ∈ gr.graph.useEdges node → u ≤ max_id →
      gr'.graph.input u k = replacement)
    ∧ (∀ u k, (u, k) ∈ gr.graph.useEdges node → max_id < u →
      gr'.graph.input u k = node)
    ∧ ((gr'.graph.node node).dead =
        (gr.graph.useEdges node).all (fun e => decide (e.1 ≤ max_id)))
    ∧ (gr.state replacement = GraphReducer.State.kUnvisited →
        gr'.stack = { node := replacement, input_index := 0 } :: gr.stack)
    ∧ (gr.state replacement = GraphReducer.State.kOnStack →
        gr'.stack = gr.stack)
    ∧ (gr'.stack = gr.stack
        ∨ gr'.stack = { node := replacement, input_index := 0 } :: gr.stack) := by
  simp only [GraphReducer.Replace] at hok
  rw [if_neg (Nat.not_le.mpr h1)] at hok
  replace hok := (Except.ok.inj hok).symm
  subst hok
  set A := GraphReducer.fixDesignations gr node replacement with hA
  set out := GraphReducer.replaceEdgesBounded node replacement max_id
    (A.graph.useEdges node) A with hout
  set g4 := if (out.graph.useEdges node).isEmpty then
    { out with graph := out.graph.kill node } else out with hg4
  have hAuse : A.graph.useEdges node = gr.graph.useEdges node := rfl
  have hAstack : A.stack = gr.stack := rfl
  have hAinput : ∀ u k, A.graph.input u k = gr.graph.input u k := fun _ _ => rfl
  obtain ⟨flen, fnode, fstack, fstate⟩ :=
    replaceEdgesBounded_facts node replacement max_id (A.graph.useEdges node) A
  have hbd : ∀ e ∈ A.graph.useEdges node, e.1 < A.graph.nodes.length ∧
      e.2 < (A.graph.node e.1).inputs.length := by
    intro e he
    obtain ⟨e1, e2⟩ := e
    obtain ⟨hb1, hb2, _⟩ := (Graph.mem_useEdges A.graph node e1 e2).mp he
    exact ⟨hb1, hb2⟩
  have slots := replaceEdgesBounded_slots node replacement max_id
    (A.graph.useEdges node) A (by rw [hAuse]; exact hnd) hbd
  have hg4input : ∀ u k, u ≠ node → g4.graph.input u k = out.graph.input u k := by
    intro u k hu
    rw [hg4]
    split
    · show (out.graph.kill node).input u k = out.graph.input u k
      simp [Graph.input, Graph.node_kill_ne out.graph node u hu]
    · rfl
  have hg4stack : g4.stack = out.stack := by
    rw [hg4]; split <;> rfl
  have hg4state : g4.state = out.state := by
    rw [hg4]; split <;> rfl
  have hstacks : g4.stack = gr.stack := by
    rw [hg4stack, fstack, hAstack]
  have hfin : (GraphReducer.Recurse g4 replacement).2.graph = g4.graph :=
    Recurse_graph g4 replacement
  have hmemout : ∀ u k, (u, k) ∈ out.graph.useEdges node ↔
      ((u, k) ∈ A.graph.useEdges node ∧ max_id < u) := by
    intro u k
    constructor
    · intro hm'
      obtain ⟨hul, hkl, hslot⟩ := (Graph.mem_useEdges out.graph node u k).mp hm'
      by_cases hmem : (u, k) ∈ A.graph.useEdges node
      · by_cases hu : u ≤ max_id
        · exact absurd (((slots u k).1 ⟨hmem, hu⟩).symm.trans hslot) hrn
        · exact ⟨hmem, Nat.lt_of_not_le hu⟩
      · exfalso
        apply hmem
        refine (Graph.mem_useEdges A.graph node u k).mpr ⟨?_, ?_, ?_⟩
        · rw [← flen]; exact hul
        · rw [← (fnode u).2.2]; exact hkl
        · rw [← (slots u k).2 (Or.inl hmem)]; exact hslot
    · rintro ⟨hmem, hgt⟩
      obtain ⟨hul, hkl, hsA⟩ := (Graph.mem_useEdges A.graph node u k).mp hmem
      refine (Graph.mem_useEdges out.graph node u k).mpr ⟨?_, ?_, ?_⟩
      · rw [flen]; exact hul
      · rw [(fnode u).2.2]; exact hkl
      · rw [(slots u k).2 (Or.inr hgt)]; exact hsA
  refine ⟨?_, ?_, ?_, ?_, ?_, ?_⟩
  · intro u k hm hu
    have hune : u ≠ node := hself (u, k) hm
    rw [hfin, hg4input u k hune]
    exact (slots u k).1 ⟨by rw [hAuse]; exact hm, hu⟩
  · intro u k hm hgt
    have hune : u ≠ node := hself (u, k) hm
    rw [hfin, hg4input u k hune, (slots u k).2 (Or.inr hgt), hAinput]
    exact ((Graph.mem_useEdges gr.graph node u k).mp hm).2.2
  · rw [hfin]
    by_cases hie : (out.graph.useEdges node).isEmpty = true
    · have hnil := List.isEmpty_iff.mp hie
      have hall : (gr.graph.useEdges node).all
          (fun e => decide (e.1 ≤ max_id)) = true := by
        rw [List.all_eq_true]
        intro e he
        obtain ⟨e1, e2⟩ := e
        by_contra hc
        simp only [decide_eq_true_eq] at hc
        have hmo : (e1, e2) ∈ out.graph.useEdges node :=
          (hmemout e1 e2).mpr ⟨by rw [hAuse]; exact he, Nat.lt_of_not_le hc⟩
        rw [hnil] at hmo
        exact absurd hmo (by simp)
      rw [hall, hg4, if_pos hie]
      show ((out.graph.kill node).node node).dead = true
      rw [Graph.node_kill_self out.graph node (by rw [flen]; exact hnode)]
    · have hne : out.graph.useEdges node ≠ [] :=
        fun hc => hie (by rw [hc]; rfl)
      obtain ⟨e, hme⟩ := List.exists_mem_of_ne_nil _ hne
      obtain ⟨e1, e2⟩ := e
      obtain ⟨hmA, hgt⟩ := (hmemout e1 e2).mp hme
      have hall : (gr.graph.useEdges node).all
          (fun e => decide (e.1 ≤ max_id)) = false := by
        rw [Bool.eq_false_iff]
        intro hc
        rw [List.all_eq_true] at hc
        have := hc (e1, e2) (by rw [← hAuse]; exact hmA)
        simp only [decide_eq_true_eq] at this
        exact absurd hgt (Nat.not_lt.mpr this)
      rw [hall, hg4, if_neg hie]
      show ((out.graph.node node).dead) = false
      rw [(fnode node).2.1]
      exact hdead
  · intro hst
    have ho : out.state replacement = GraphReducer.State.kUnvisited := by
      rw [fstate replacement (by show gr.state replacement ≠ _; rw [hst]; decide)]
      exact hst
    simp only [GraphReducer.Recurse]
    rw [show g4.state replacement = GraphReducer.State.kUnvisited from
      by rw [hg4state]; exact ho]
    rw [if_neg (by decide)]
    show ({ node := replacement, input_index := 0 } : GraphReducer.NodeState)
      :: g4.stack = _
    rw [hstacks]
  · intro hst
    have ho : out.state replacement = GraphReducer.State.kOnStack := by
      rw [fstate replacement (by show gr.state replacement ≠ _; rw [hst]; decide)]
      exact hst
    simp only [GraphReducer.Recurse]
    rw [show g4.state replacement = GraphReducer.State.kOnStack from
      by rw [hg4state]; exact ho]
    rw [if_pos (by decide)]
    exact hstacks
  · simp only [GraphReducer.Recurse]
    by_cases hc : GraphReducer.State.kRevisit.toNat < (g4.state replacement).toNat
    · rw [if_pos hc]
      exact Or.inl hstacks
    · rw [if_neg hc]
      refine Or.inr ?_
      show ({ node := replacement, input_index := 0 } : GraphReducer.NodeState)
        :: g4.stack = _
      rw [hstacks]

/-- Witness for the amended C5 at a concrete input: replacing node 1 by
node 2 with watermark 1 redirects the single use edge (owned by node 0),
kills node 1, and pushes the unvisited replacement. -/
theorem claim_C5_watermark_witness :
    ∃ gr', GraphReducer.Replace P10 gr10 1 2 1 = Except.ok gr'
      ∧ gr'.graph.input 0 0 = 2
      ∧ (gr'.graph.node 1).dead = true
      ∧ gr'.stack = [{ node := 2, input_index := 0 }] := by
  refine ⟨_, rfl, ?_⟩
  have h := claim_C5_watermark P10 gr10 1 2 1 _ (by decide) (by decide)
    (by decide) (by decide) (by decide) (by decide) rfl
  refine ⟨h.1 0 0 (by decide) (by decide), ?_, ?_⟩
  · rw [h.2.2.1]
    decide
  · rw [h.2.2.2.1 (by decide)]
    decide

/-- `Revisit` does not touch the dead-sentinel field. -/
theorem Revisit_dead (gr : GraphReducer) (u : Nat) :
    (GraphReducer.Revisit gr u).dead = gr.dead := by
  simp only [GraphReducer.Revisit]
  split <;> rfl

/-- The per-edge replacement target only depends on the user's operator. -/
theorem rwvTarget_congr (g g' : Graph) (d v e c u k : Nat)
    (h : (g'.node u).op = (g.node u).op) :
    rwvTarget g' d v e c u k = rwvTarget g d v e c u k := by
  simp only [rwvTarget, NodeProperties.IsControlEdge,
    NodeProperties.IsEffectEdge, h]

/-- One step of the `ReplaceWithValue` edge loop followed by the remainder
of the loop: redirect edge `(a1, a2)` to its target, revisit its user, and
continue; packaged against the original state. -/
theorem rwvEdges_after_update (P : Params) (node value effect control : Nat)
    (rest : List (Nat × Nat))
    (ih : ∀ gr : GraphReducer, rest.Nodup →
      (∀ e ∈ rest, (gr.graph.node e.1).op.opcode ≠ Opcode.ifSuccess) →
      (∀ e ∈ rest, e.1 < gr.graph.nodes.length ∧
        e.2 < (gr.graph.node e.1).inputs.length) →
      ∃ gr₂, GraphReducer.rwvEdges P node (some value) (some effect)
          (some control) rest gr = Except.ok gr₂
        ∧ gr₂.graph.nodes.length = gr.graph.nodes.length
        ∧ (∀ v, ((gr₂.graph.node v).op = (gr.graph.node v).op)
            ∧ ((gr₂.graph.node v).dead = (gr.graph.node v).dead)
            ∧ ((gr₂.graph.node v).inputs.length = (gr.graph.node v).inputs.length))
        ∧ gr₂.dead = gr.dead
        ∧ (∀ u k, (u, k) ∈ rest →
            gr₂.graph.input u k = rwvTarget gr.graph gr.dead value effect control u k)
        ∧ (∀ u k, (u, k) ∉ rest →
            gr₂.graph.input u k = gr.graph.input u k))
    (gr : GraphReducer) (a1 a2 tgt : Nat)
    (hnd : ((a1, a2) :: rest).Nodup)
    (hns : ∀ e ∈ (a1, a2) :: rest,
      (gr.graph.node e.1).op.opcode ≠ Opcode.ifSuccess)
    (hbd : ∀ e ∈ (a1, a2) :: rest, e.1 < gr.graph.nodes.length ∧
      e.2 < (gr.graph.node e.1).inputs.length)
    (htgt : rwvTarget gr.graph gr.dead value effect control a1 a2 = tgt) :
    ∃ gr₂, GraphReducer.rwvEdges P node (some value) (some effect) (some control)
        rest (GraphReducer.Revisit
          { gr with graph := gr.graph.updateEdge a1 a2 tgt } a1) = Except.ok gr₂
      ∧ gr₂.graph.nodes.length = gr.graph.nodes.length
      ∧ (∀ v, ((gr₂.graph.node v).op = (gr.graph.node v).op)
          ∧ ((gr₂.graph.node v).dead = (gr.graph.node v).dead)
          ∧ ((gr₂.graph.node v).inputs.length = (gr.graph.node v).inputs.length))
      ∧ gr₂.dead = gr.dead
      ∧ (∀ u k, (u, k) ∈ (a1, a2) :: rest →
          gr₂.graph.input u k = rwvTarget gr.graph gr.dead value effect control u k)
      ∧ (∀ u k, (u, k) ∉ (a1, a2) :: rest →
          gr₂.graph.input u k = gr.graph.input u k) := by
  have hg3 : (GraphReducer.Revisit
      { gr with graph := gr.graph.updateEdge a1 a2 tgt } a1).graph
      = gr.graph.updateEdge a1 a2 tgt := Revisit_graph _ _
  have hd3 : (GraphReducer.Revisit
      { gr with graph := gr.graph.updateEdge a1 a2 tgt } a1).dead
      = gr.dead := Revisit_dead _ _
  have hop3 : ∀ v, ((GraphReducer.Revisit
      { gr with graph := gr.graph.updateEdge a1 a2 tgt } a1).graph.node v).op
      = (gr.graph.node v).op := by
    intro v
    rw [hg3]
    exact Graph.op_updateEdge gr.graph a1 a2 tgt v
  have hdd3 : ∀ v, ((GraphReducer.Revisit
      { gr with graph := gr.graph.updateEdge a1 a2 tgt } a1).graph.node v).dead
      = (gr.graph.node v).dead := by
    intro v
    rw [hg3]
    exact Graph.dead_updateEdge gr.graph a1 a2 tgt v
  have hil3 : ∀ v, ((GraphReducer.Revisit
      { gr with graph := gr.graph.updateEdge a1 a2 tgt } a1).graph.node v).inputs.length
      = (gr.graph.node v).inputs.length := by
    intro v
    rw [hg3]
    exact Graph.inputsLength_updateEdge gr.graph a1 a2 tgt v
  have hln3 : (GraphReducer.Revisit
      { gr with graph := gr.graph.updateEdge a1 a2 tgt } a1).graph.nodes.length
      = gr.graph.nodes.length := by
    rw [hg3]
    exact Graph.length_updateEdge gr.graph a1 a2 tgt
  obtain ⟨gr₂, hrun, hlen, hfacts, hdead, hmem, hnot⟩ :=
    ih (GraphReducer.Revisit { gr with graph := gr.graph.updateEdge a1 a2 tgt } a1)
      (List.nodup_cons.mp hnd).2
      (fun e he => by rw [hop3 e.1]; exact hns e (List.mem_cons_of_mem _ he))
      (fun e he => by
        rw [hln3, hil3 e.1]
        exact hbd e (List.mem_cons_of_mem _ he))
  refine ⟨gr₂, hrun, ?_, ?_, ?_, ?_, ?_⟩
  · rw [hlen, hln3]
  · intro v
    obtain ⟨f1, f2, f3⟩ := hfacts v
    exact ⟨f1.trans (hop3 v), f2.trans (hdd3 v), f3.trans (hil3 v)⟩
  · rw [hdead, hd3]
  · intro u k hm
    rcases List.mem_cons.mp hm with heq | hm₀
    · obtain ⟨h1, h2⟩ := Prod.mk.inj heq
      subst h1; subst h2
      rw [hnot u k (List.nodup_cons.mp hnd).1, hg3,
        Graph.input_updateEdge_self gr.graph u k tgt
          (hbd (u, k) (List.mem_cons_self _ _)).1
          (hbd (u, k) (List.mem_cons_self _ _)).2]
      exact htgt.symm
    · rw [hmem u k hm₀, hd3, rwvTarget_congr gr.graph _ gr.dead value effect
        control u k (hop3 u)]
  · intro u k hnm
    have hne : ¬ (u = a1 ∧ k = a2) := by
      rintro ⟨h1, h2⟩
      exact hnm (by rw [h1, h2]; exact List.mem_cons_self _ _)
    rw [hnot u k (fun hc => hnm (List.mem_cons_of_mem _ hc)), hg3]
    apply Graph.input_updateEdge_ne
    by_cases h1 : u = a1
    · exact Or.inr (fun h2 => hne ⟨h1, h2⟩)
    · exact Or.inl h1

/-- The `ReplaceWithValue` edge loop on a list of edges none of whose
users is an `IfSuccess` marker: it always succeeds, preserves node count,
operators, dead marks and input arities, and sets each listed slot to its
kind-determined target while leaving every other slot untouched. -/
theorem rwvEdges_spec (P : Params) (node value effect control : Nat) :
    ∀ (L : List (Nat × Nat)) (gr : GraphReducer), L.Nodup →
      (∀ e ∈ L, (gr.graph.node e.1).op.opcode ≠ Opcode.ifSuccess) →
      (∀ e ∈ L, e.1 < gr.graph.nodes.length ∧
        e.2 < (gr.graph.node e.1).inputs.length) →
      ∃ gr₂, GraphReducer.rwvEdges P node (some value) (some effect)
          (some control) L gr = Except.ok gr₂
        ∧ gr₂.graph.nodes.length = gr.graph.nodes.length
        ∧ (∀ v, ((gr₂.graph.node v).op = (gr.graph.node v).op)
            ∧ ((gr₂.graph.node v).dead = (gr.graph.node v).dead)
            ∧ ((gr₂.graph.node v).inputs.length = (gr.graph.node v).inputs.length))
        ∧ gr₂.dead = gr.dead
        ∧ (∀ u k, (u, k) ∈ L →
            gr₂.graph.input u k = rwvTarget gr.graph gr.dead value effect control u k)
        ∧ (∀ u k, (u, k) ∉ L →
            gr₂.graph.input u k = gr.graph.input u k) := by
  intro L
  induction L with
  | nil =>
    intro gr _ _ _
    exact ⟨gr, rfl, rfl, fun v => ⟨rfl, rfl, rfl⟩, rfl,
      fun u k hm => absurd hm (by simp), fun _ _ _ => rfl⟩
  | cons a rest ih =>
    intro gr hnd hns hbd
    obtain ⟨a1, a2⟩ := a
    have hsuc : (gr.graph.node a1).op.opcode ≠ Opcode.ifSuccess :=
      hns (a1, a2) (List.mem_cons_self _ _)
    rw [GraphReducer.rwvEdges]
    simp only [Option.getD_some]
    by_cases hctl : NodeProperties.IsControlEdge gr.graph a1 a2 = true
    · rw [if_pos hctl, if_neg hsuc]
      by_cases hexc : (gr.graph.node a1).op.opcode = Opcode.ifException
      · rw [if_pos hexc]
        exact rwvEdges_after_update P node value effect control rest ih gr a1 a2
          gr.dead hnd hns hbd
          (by rw [rwvTarget, if_pos hctl, if_pos hexc])
      · rw [if_neg hexc]
        exact rwvEdges_after_update P node value effect control rest ih gr a1 a2
          control hnd hns hbd
          (by rw [rwvTarget, if_pos hctl, if_neg hexc])
    · rw [if_neg hctl]
      by_cases heff : NodeProperties.IsEffectEdge gr.graph a1 a2 = true
      · rw [if_pos heff]
        exact rwvEdges_after_update P node value effect control rest ih gr a1 a2
          effect hnd hns hbd
          (by rw [rwvTarget, if_neg hctl, if_pos heff])
      · rw [if_neg heff]
        exact rwvEdges_after_update P node value effect control rest ih gr a1 a2
          value hnd hns hbd
          (by rw [rwvTarget, if_neg hctl, if_neg heff])

/-- The eager edge loop, when it succeeds, preserves node count,
operators and dead marks. -/
theorem replaceEdgesEager_facts (node repl : Nat) :
    ∀ (L : List (Nat × Nat)) (gr gr₂ : GraphReducer),
      GraphReducer.replaceEdgesEager node repl L gr = Except.ok gr₂ →
      gr₂.graph.nodes.length = gr.graph.nodes.length
      ∧ ∀ v, ((gr₂.graph.node v).op = (gr.graph.node v).op)
          ∧ ((gr₂.graph.node v).dead = (gr.graph.node v).dead) := by
  intro L
  induction L with
  | nil =>
    intro gr gr₂ h
    replace h := Except.ok.inj h
    subst h
    exact ⟨rfl, fun v => ⟨rfl, rfl⟩⟩
  | cons a rest ih =>
    intro gr gr₂ h
    obtain ⟨a1, a2⟩ := a
    rw [GraphReducer.replaceEdgesEager] at h
    by_cases hv : VerifyEdgeInputReplacement gr.graph a1 a2 repl = true
    · rw [if_pos hv] at h
      obtain ⟨hlen, hfacts⟩ := ih _ _ h
      have hg3 : (if a1 ≠ node then
          GraphReducer.Revisit { gr with graph := gr.graph.updateEdge a1 a2 repl } a1
          else { gr with graph := gr.graph.updateEdge a1 a2 repl }).graph
          = gr.graph.updateEdge a1 a2 repl := by
        split
        · exact Revisit_graph _ _
        · rfl
      constructor
      · rw [hlen, hg3, Graph.length_updateEdge]
      · intro v
        obtain ⟨f1, f2⟩ := hfacts v
        constructor
        · rw [f1, hg3, Graph.op_updateEdge]
        · rw [f2, hg3, Graph.dead_updateEdge]
    · rw [if_neg hv] at h
      exact absurd h (by simp)

/-- With the placeholder flag off and the replacement within the
watermark, `Replace` runs the eager protocol and kills the node, leaving
every other node's dead mark unchanged. -/
theorem Replace_eager_kills (P : Params) (gr : GraphReducer)
    (node replacement max_id : Nat) (gr₂ : GraphReducer)
    (hfl : P.flagPlaceholder = false)
    (hle : replacement ≤ max_id)
    (hnode : node < gr.graph.nodes.length)
    (hok : GraphReducer.Replace P gr node replacement max_id = Except.ok gr₂) :
    (gr₂.graph.node node).dead = true
    ∧ ∀ v, v ≠ node → (gr₂.graph.node v).dead = (gr.graph.node v).dead := by
  simp only [GraphReducer.Replace, hfl, Bool.false_eq_true, if_false,
    if_pos hle] at hok
  simp only [GraphReducer.replaceEager] at hok
  cases hre : GraphReducer.replaceEdgesEager node replacement
      ((GraphReducer.fixDesignations gr node replacement).graph.useEdges node)
      (GraphReducer.fixDesignations gr node replacement) with
  | error e =>
    rw [hre] at hok
    exact absurd hok (by simp [Except.map])
  | ok inner =>
    rw [hre] at hok
    simp only [Except.map] at hok
    replace hok := (Except.ok.inj hok).symm
    subst hok
    obtain ⟨hlen, hfacts⟩ := replaceEdgesEager_facts node replacement _ _ _ hre
    constructor
    · show ((inner.graph.kill node).node node).dead = true
      rw [Graph.node_kill_self inner.graph node (by rw [hlen]; exact hnode)]
    · intro v hv
      show ((inner.graph.kill node).node v).dead = (gr.graph.node v).dead
      rw [Graph.node_kill_ne inner.graph node v hv, (hfacts v).2]
      exact rfl

/-- C4: `ReplaceWithValue(node, value, effect, control)` rewires the use
edges of `node` kind by kind.  First part: when no user is a success
marker, a value edge ends up pointing at the value replacement, an effect
edge at the effect replacement, a control edge owned by an exception
marker (`IfException`) at the dead sentinel rather than the control
replacement, and any other control edge at the control replacement; and
`node` itself is not killed (its operator and dead mark are untouched).
Second part: a success-marker (`IfSuccess`) control user is replaced
wholesale by the control replacement — it is killed, and only it. -/
theorem claim_C4_replaceWithValue :
    (∀ (P : Params) (gr : GraphReducer) (node value effect control : Nat)
      (gr' : GraphReducer),
      (gr.graph.useEdges node).Nodup →
      (∀ e ∈ gr.graph.useEdges node, e.1 ≠ node) →
      (∀ e ∈ gr.graph.useEdges node,
        (gr.graph.node e.1).op.opcode ≠ Opcode.ifSuccess) →
      GraphReducer.ReplaceWithValue P gr node (some value) (some effect)
        (some control) = Except.ok gr' →
      (∀ u k, (u, k) ∈ gr.graph.useEdges node →
        (NodeProperties.IsControlEdge gr.graph u k = true →
          ((gr.graph.node u).op.opcode = Opcode.ifException →
            gr'.graph.input u k = gr.dead)
          ∧ ((gr.graph.node u).op.opcode ≠ Opcode.ifException →
            gr'.graph.input u k = control))
        ∧ (NodeProperties.IsControlEdge gr.graph u k = false →
          (NodeProperties.IsEffectEdge gr.graph u k = true →
            gr'.graph.input u k = effect)
          ∧ (NodeProperties.IsEffectEdge gr.graph u k = false →
            gr'.graph.input u k = value)))
      ∧ (gr'.graph.node node).dead = (gr.graph.node node).dead
      ∧ (gr'.graph.node node).op = (gr.graph.node node).op)
    ∧ (∀ (P : Params) (gr : GraphReducer) (node value effect control u k : Nat)
      (gr' : GraphReducer),
      gr.graph.useEdges node = [(u, k)] →
      NodeProperties.IsControlEdge gr.graph u k = true →
      (gr.graph.node u).op.opcode = Opcode.ifSuccess →
      P.flagPlaceholder = false →
      control ≤ GraphReducer.kMaxNodeId →
      u ≠ node →
      GraphReducer.ReplaceWithValue P gr node (some value) (some effect)
        (some control) = Except.ok gr' →
      (gr'.graph.node u).dead = true
      ∧ ∀ v, v ≠ u → (gr'.graph.node v).dead = (gr.graph.node v).dead) := by
  constructor
  · intro P gr node value effect control gr' hnd hself hnosucc hok
    simp only [GraphReducer.ReplaceWithValue, Option.isNone_some,
      Bool.false_and, Bool.false_eq_true, if_false] at hok
    have hbd : ∀ e ∈ gr.graph.useEdges node, e.1 < gr.graph.nodes.length ∧
        e.2 < (gr.graph.node e.1).inputs.length := by
      intro e he
      obtain ⟨e1, e2⟩ := e
      obtain ⟨h1, h2, _⟩ := (Graph.mem_useEdges gr.graph node e1 e2).mp he
      exact ⟨h1, h2⟩
    obtain ⟨gr₂, hrun, _, hfacts, _, hmem, hnot⟩ :=
      rwvEdges_spec P node value effect control (gr.graph.useEdges node) gr
        hnd hnosucc hbd
    rw [hrun] at hok
    replace hok := (Except.ok.inj hok).symm
    subst hok
    refine ⟨?_, ?_, ?_⟩
    · intro u k hm
      have htgt := hmem u k hm
      constructor
      · intro hctl
        constructor
        · intro hexc
          rw [htgt, rwvTarget, if_pos hctl, if_pos hexc]
        · intro hexc
          rw [htgt, rwvTarget, if_pos hctl, if_neg hexc]
      · intro hctl
        constructor
        · intro heff
          rw [htgt, rwvTarget, if_neg (by rw [hctl]; exact Bool.false_ne_true),
            if_pos heff]
        · intro heff
          rw [htgt, rwvTarget, if_neg (by rw [hctl]; exact Bool.false_ne_true),
            if_neg (by rw [heff]; exact Bool.false_ne_true)]
    · exact (hfacts node).2.1
    · exact (hfacts node).1
  · intro P gr node value effect control u k gr' huse hctl hsuc hfl hcle hun hok
    simp only [GraphReducer.ReplaceWithValue, Option.isNone_some,
      Bool.false_and, Bool.false_eq_true, if_false] at hok
    rw [huse, GraphReducer.rwvEdges] at hok
    rw [if_pos hctl, if_pos hsuc] at hok
    simp only [Option.getD_some] at hok
    have hu : u < gr.graph.nodes.length := by
      have hm : (u, k) ∈ gr.graph.useEdges node := by
        rw [huse]; exact List.mem_cons_self _ _
      exact ((Graph.mem_useEdges gr.graph node u k).mp hm).1
    split at hok
    next e heq => exact absurd hok (by simp)
    next =>
      rename_i g2 heq
      have hok₂ : g2 = gr' :=
        Except.ok.inj (show Except.ok g2 = Except.ok gr' from hok)
      exact hok₂ ▸ Replace_eager_kills P gr u control GraphReducer.kMaxNodeId g2
        hfl hcle hu heq

/-- Reducer-dispatch events carry no finalizer index. -/
theorem filterMap_finIdx_reduceCalls (tr : List TraceEntry) (node : Nat) :
    ((tr.map (fun e => Event.reduceCall e.1 node)).filterMap finIdx) = [] := by
  induction tr with
  | nil => rfl
  | cons a l ih => simp [finIdx, ih]

/-- The finalizer indices of a finalization round are the round's list
itself. -/
theorem filterMap_finIdx_finalizeCalls (l : List Nat) :
    ((l.map Event.finalizeCall).filterMap finIdx) = l := by
  induction l with
  | nil => rfl
  | cons a l ih => simp [finIdx, ih]

/-- Mapping a pair-builder over an `Except`: an `ok` result pins the first
component. -/
theorem except_map_pair_ok {B : Type} (x : Except Err B)
    (evs0 evs : List Event) (b : B)
    (h : x.map (fun g => (evs0, g)) = Except.ok (evs, b)) : evs = evs0 := by
  cases x with
  | error e =>
    exact absurd (show (Except.error e : Except Err (List Event × B))
      = Except.ok (evs, b) from h) (by simp)
  | ok g =>
    have h2 : (Except.ok (evs0, g) : Except Err (List Event × B))
        = Except.ok (evs, b) := h
    exact (Prod.mk.inj (Except.ok.inj h2)).1.symm

/-- Mapping a pair-builder over an `Except`: an `ok` result pins the
underlying value. -/
theorem except_map_pair_ok_snd {B : Type} (x : Except Err B)
    (evs0 evs : List Event) (b : B)
    (h : x.map (fun g => (evs0, g)) = Except.ok (evs, b)) :
    x = Except.ok b := by
  cases x with
  | error e =>
    exact absurd (show (Except.error e : Except Err (List Event × B))
      = Except.ok (evs, b) from h) (by simp)
  | ok g =>
    have h2 : (Except.ok (evs0, g) : Except Err (List Event × B))
        = Except.ok (evs, b) := h
    rw [(Prod.mk.inj (Except.ok.inj h2)).2]

/-- `ReduceTop` emits only reducer-dispatch events, never finalizer
events. -/
theorem ReduceTop_events (P : Params) (gr : GraphReducer) (evs : List Event)
    (gr₂ : GraphReducer)
    (h : GraphReducer.ReduceTop P gr = Except.ok (evs, gr₂)) :
    evs.filterMap finIdx = [] := by
  rw [GraphReducer.ReduceTop] at h
  split at h
  · obtain ⟨h1, _⟩ := Prod.mk.inj (Except.ok.inj h)
    rw [← h1]; rfl
  · try dsimp only at h
    split at h
    · obtain ⟨h1, _⟩ := Prod.mk.inj (Except.ok.inj h)
      rw [← h1]; rfl
    · split at h
      · obtain ⟨h1, _⟩ := Prod.mk.inj (Except.ok.inj h)
        rw [← h1]; rfl
      · split at h
        · obtain ⟨h1, _⟩ := Prod.mk.inj (Except.ok.inj h)
          rw [← h1]; rfl
        · split at h
          · obtain ⟨h1, _⟩ := Prod.mk.inj (Except.ok.inj h)
            rw [← h1]; rfl
          · split at h
            · exact absurd h (by simp)
            · try dsimp only at h
              split at h
              · obtain ⟨h1, _⟩ := Prod.mk.inj (Except.ok.inj h)
                rw [← h1]
                exact filterMap_finIdx_reduceCalls _ _
              · split at h
                · split at h
                  · obtain ⟨h1, _⟩ := Prod.mk.inj (Except.ok.inj h)
                    rw [← h1]
                    exact filterMap_finIdx_reduceCalls _ _
                  · try dsimp only at h
                    split at h
                    · obtain ⟨h1, _⟩ := Prod.mk.inj (Except.ok.inj h)
                      rw [← h1]
                      exact filterMap_finIdx_reduceCalls _ _
                    · obtain ⟨h1, _⟩ := Prod.mk.inj (Except.ok.inj h)
                      rw [← h1]
                      exact filterMap_finIdx_reduceCalls _ _
                · rw [except_map_pair_ok _ _ _ _ h]
                  exact filterMap_finIdx_reduceCalls _ _

/-- If no finalizer ever requests a revisit, a finalization round leaves
the engine state unchanged apart from the round counter. -/
theorem finalizeRound_of_allEmpty (P : Params) (gr : GraphReducer)
    (hall : ∀ j r, (P.reducers.getD j defaultReducer).finalize r = []) :
    (GraphReducer.finalizeRound P gr).2
      = { gr with finalize_rounds := gr.finalize_rounds + 1 } := by
  rw [GraphReducer.finalizeRound]
  have hfold : ∀ (l : List Nat) (g : GraphReducer),
      List.foldl (fun g j =>
        ((P.reducers.getD j defaultReducer).finalize gr.finalize_rounds).foldl
          GraphReducer.Revisit g) g l = g := by
    intro l
    induction l with
    | nil => intro g; rfl
    | cons a rest ih =>
      intro g
      rw [List.foldl_cons, hall a gr.finalize_rounds]
      exact ih g
  rw [hfold]

/-- The finalizer events of one driver-loop iteration: a continuing
iteration emits either no finalizer events or one full round in
registration order (the latter only when some finalizer can still enqueue
work); a halting iteration emits exactly one full round. -/
theorem stepLoop_events (P : Params) (gr : GraphReducer) :
    (∀ evs gr₂,
      GraphReducer.stepLoop P gr = Except.ok (GraphReducer.StepRes.more evs gr₂) →
      evs.filterMap finIdx = [] ∨
        (evs.filterMap finIdx = List.range P.reducers.length ∧
          ¬ (∀ j r, (P.reducers.getD j defaultReducer).finalize r = [])))
    ∧ (∀ evs gr₂,
      GraphReducer.stepLoop P gr = Except.ok (GraphReducer.StepRes.halt evs gr₂) →
      evs.filterMap finIdx = List.range P.reducers.length) := by
  constructor
  · intro evs gr₂ h
    rw [GraphReducer.stepLoop] at h
    split at h
    · cases hrt : GraphReducer.ReduceTop P gr with
      | error e =>
        rw [hrt] at h
        exact absurd (show (Except.error e : Except Err GraphReducer.StepRes)
          = Except.ok (GraphReducer.StepRes.more evs gr₂) from h) (by simp)
      | ok p =>
        rw [hrt] at h
        have h₂ : Except.ok (GraphReducer.StepRes.more p.1 p.2)
            = Except.ok (GraphReducer.StepRes.more evs gr₂) := h
        obtain ⟨hevs, _⟩ := GraphReducer.StepRes.more.inj (Except.ok.inj h₂)
        rw [← hevs]
        exact Or.inl (ReduceTop_events P gr p.1 p.2 (by rw [hrt]))
    · split at h
      · obtain ⟨hevs, _⟩ := GraphReducer.StepRes.more.inj (Except.ok.inj h)
        rw [← hevs]
        exact Or.inl rfl
      · split at h
        · obtain ⟨hevs, _⟩ := GraphReducer.StepRes.more.inj (Except.ok.inj h)
          rw [← hevs]
          exact Or.inl rfl
        · rename_i gr₃ hheu
          have hrev : gr.revisit = [] := by assumption
          try dsimp only at h
          split at h
          · exact absurd (Except.ok.inj h) (by simp)
          · rename_i hne
            obtain ⟨hevs, _⟩ := GraphReducer.StepRes.more.inj (Except.ok.inj h)
            rw [← hevs]
            refine Or.inr ⟨?_, ?_⟩
            · show ((List.range P.reducers.length).map
                Event.finalizeCall).filterMap finIdx = _
              exact filterMap_finIdx_finalizeCalls _
            · intro hall
              apply hne
              rw [finalizeRound_of_allEmpty P gr₃ hall]
              show gr₃.revisit = []
              have hg₃ : ({ gr with revisit_all_nodes := gr.revisit_all_nodes || P.heur gr.nb_traversed_uses gr.nb_visited_nodes } : GraphReducer) = gr₃ :=
                congrArg Prod.snd hheu
              rw [← hg₃]
              show gr.revisit = []
              exact hrev
  · intro evs gr₂ h
    rw [GraphReducer.stepLoop] at h
    split at h
    · cases hrt : GraphReducer.ReduceTop P gr with
      | error e =>
        rw [hrt] at h
        exact absurd (show (Except.error e : Except Err GraphReducer.StepRes)
          = Except.ok (GraphReducer.StepRes.halt evs gr₂) from h) (by simp)
      | ok p =>
        rw [hrt] at h
        have h₂ : Except.ok (GraphReducer.StepRes.more p.1 p.2)
            = Except.ok (GraphReducer.StepRes.halt evs gr₂) := h
        exact absurd (Except.ok.inj h₂) (by simp)
    · split at h
      · exact absurd (Except.ok.inj h) (by simp)
      · split at h
        · exact absurd (Except.ok.inj h) (by simp)
        · try dsimp only at h
          split at h
          · obtain ⟨hevs, _⟩ := GraphReducer.StepRes.halt.inj (Except.ok.inj h)
            rw [← hevs]
            show ((List.range P.reducers.length).map
              Event.finalizeCall).filterMap finIdx = _
            exact filterMap_finIdx_finalizeCalls _
          · exact absurd (Except.ok.inj h) (by simp)

/-- Any successful run of the driver loop performs `k ≥ 1` complete
finalization rounds, each calling every registered finalizer in
registration order; if no finalizer ever requests more work, `k = 1`. -/
theorem run_rounds (P : Params) (fuel : Nat) (gr : GraphReducer)
    (evs : List Event) (gr₂ : GraphReducer)
    (h : GraphReducer.run P fuel gr = Except.ok (evs, gr₂)) :
    ∃ k, 1 ≤ k
      ∧ evs.filterMap finIdx
          = (List.replicate k (List.range P.reducers.length)).flatten
      ∧ ((∀ j r, (P.reducers.getD j defaultReducer).finalize r = []) → k = 1) := by
  induction fuel generalizing gr evs gr₂ with
  | zero => exact absurd h (by simp [GraphReducer.run])
  | succ fuel ih =>
    rw [GraphReducer.run] at h
    split at h
    · exact absurd h (by simp)
    · rename_i evs₀ gr₀ heq
      obtain ⟨hevs, -⟩ := Prod.mk.inj (Except.ok.inj h)
      refine ⟨1, le_refl 1, ?_, fun _ => rfl⟩
      rw [← hevs]
      have hfin := (stepLoop_events P gr).2 evs₀ gr₀ heq
      simpa using hfin
    · rename_i evs₀ gr₀ heq
      split at h
      · exact absurd h (by simp)
      · rename_i evs₂ gr₃ hrun
        obtain ⟨hevs, -⟩ := Prod.mk.inj (Except.ok.inj h)
        obtain ⟨k, hk1, hkeq, hkall⟩ := ih gr₀ evs₂ gr₃ hrun
        have hstep := (stepLoop_events P gr).1 evs₀ gr₀ heq
        cases hstep with
        | inl hnil =>
          refine ⟨k, hk1, ?_, hkall⟩
          rw [← hevs, List.filterMap_append, hnil, hkeq, List.nil_append]
        | inr hfull =>
          refine ⟨k + 1, Nat.le_add_left 1 k, ?_, ?_⟩
          · rw [← hevs, List.filterMap_append, hfull.1, hkeq,
              List.replicate_succ, List.flatten_cons]
          · intro hall
            exact absurd hall hfull.2

/-- C3: on a graph with a single node and a single reducer whose finalizer
requests a revisit in the first round, `ReduceGraph` terminates but the
finalizer has been called twice, not exactly once: the claim that a
terminating `reduceGraph()` calls `finalize()` on every reducer exactly
once fails. -/
theorem claim_C3_counterexample :
    ∃ evs gr₂, GraphReducer.ReduceGraph P3 20 gr3 = Except.ok (evs, gr₂)
      ∧ ¬ (evs.filterMap finIdx = List.range P3.reducers.length) := by
  refine ⟨_, _, rfl, ?_⟩
  decide

/-- C3, amended: every terminating run of `ReduceGraph` calls the
finalizers in `k ≥ 1` complete rounds, each round invoking every
registered reducer's finalizer exactly once in registration order; when no
finalizer ever enqueues further work, there is exactly one round. -/
theorem claim_C3_amended (P : Params) (fuel : Nat) (gr : GraphReducer)
    (evs : List Event) (gr₂ : GraphReducer)
    (h : GraphReducer.ReduceGraph P fuel gr = Except.ok (evs, gr₂)) :
    ∃ k, 1 ≤ k
      ∧ evs.filterMap finIdx
          = (List.replicate k (List.range P.reducers.length)).flatten
      ∧ ((∀ j r, (P.reducers.getD j defaultReducer).finalize r = []) → k = 1) :=
  run_rounds P fuel _ evs gr₂ h

/-- Witness for the amended C3 on the concrete one-node run. -/
theorem claim_C3_amended_witness :
    ∃ evs gr₂, GraphReducer.ReduceGraph P3 20 gr3 = Except.ok (evs, gr₂)
      ∧ ∃ k, 1 ≤ k
        ∧ evs.filterMap finIdx
            = (List.replicate k (List.range P3.reducers.length)).flatten
        ∧ ((∀ j r, (P3.reducers.getD j defaultReducer).finalize r = []) → k = 1) :=
  ⟨_, _, rfl, claim_C3_amended P3 20 gr3 _ _ rfl⟩

/-- C8: `ReduceNode` on node 1 of the two-node graph (node 1 consumes node
0) dispatches the rule set not only on node 1 but also on its input node
0: the standalone entry point does perform a graph traversal through the
argument's inputs, so the claim that it applies the rule set once without
traversal fails. -/
theorem claim_C8_counterexample :
    ∃ evs gr₂, GraphReducer.ReduceNode P8 20 gr8 1 = Except.ok (evs, gr₂)
      ∧ Event.reduceCall 0 1 ∈ evs ∧ Event.reduceCall 0 0 ∈ evs := by
  refine ⟨_, _, rfl, ?_, ?_⟩ <;> decide

/-- C8, amended: `ReduceNode(node)` runs the full depth-first driver from
`node`: it is `run` after pushing `node`, and whenever `node` has a live,
distinct, unvisited, non-placeholder input, the first driver iteration
dispatches no reducer at all — it suspends `node`'s frame and descends
into the input, which then gets reduced first. -/
theorem claim_C8_amended (P : Params) (gr : GraphReducer) (node inp fuel : Nat)
    (hstack : gr.stack = [])
    (hdead : (gr.graph.node node).dead = false)
    (hinputs : (gr.graph.node node).inputs = [inp])
    (hne : inp ≠ node)
    (hop : ¬ ((gr.graph.node inp).op.opcode = Opcode.replacementPlaceholder))
    (hstate : gr.state inp = GraphReducer.State.kUnvisited) :
    GraphReducer.ReduceNode P fuel gr node
        = GraphReducer.run P fuel (GraphReducer.Push gr node)
    ∧ ∃ gr₂,
      GraphReducer.stepLoop P (GraphReducer.Push gr node)
          = Except.ok (GraphReducer.StepRes.more [] gr₂)
      ∧ gr₂.stack = [⟨inp, 0⟩, ⟨node, 1⟩] := by
  have hRT : GraphReducer.ReduceTop P (GraphReducer.Push gr node)
      = Except.ok ([], GraphReducer.setCursor
          (GraphReducer.Push (GraphReducer.Push gr node) inp) 1) := by
    rw [GraphReducer.ReduceTop]
    simp only [GraphReducer.Push, GraphReducer.scanInputs, GraphReducer.scanStep,
      GraphReducer.Recurse, GraphReducer.setVState, GraphReducer.State.toNat,
      hdead, hinputs, hop, hstate, List.length_cons, List.length_nil,
      Nat.sub_zero, List.range'_one, List.getD_cons_zero, if_neg hne,
      Bool.false_eq_true, if_false, ite_self, Nat.not_lt_zero, if_pos hne]
  refine ⟨rfl, ⟨GraphReducer.setCursor
    (GraphReducer.Push (GraphReducer.Push gr node) inp) 1, ?_, ?_⟩⟩
  · show (GraphReducer.ReduceTop P (GraphReducer.Push gr node)).map
        (fun p => GraphReducer.StepRes.more p.1 p.2) = _
    rw [hRT]
    rfl
  · simp [GraphReducer.setCursor, GraphReducer.Push, hstack]

/-- Witness for the amended C8 on the concrete two-node graph. -/
theorem claim_C8_amended_witness :
    GraphReducer.ReduceNode P8 20 gr8 1
        = GraphReducer.run P8 20 (GraphReducer.Push gr8 1)
    ∧ ∃ gr₂,
      GraphReducer.stepLoop P8 (GraphReducer.Push gr8 1)
          = Except.ok (GraphReducer.StepRes.more [] gr₂)
      ∧ gr₂.stack = [⟨0, 0⟩, ⟨1, 1⟩] :=
  claim_C8_amended P8 gr8 1 0 20 rfl rfl rfl (by decide) (by decide) rfl

/-- Counting frames in an empty stack. -/
theorem stackCount_nil (n : Nat) : GraphReducer.stackCount [] n = 0 := rfl

/-- Counting frames through a cons. -/
theorem stackCount_cons (f : GraphReducer.NodeState)
    (st : List GraphReducer.NodeState) (n : Nat) :
    GraphReducer.stackCount (f :: st) n
      = (if f.node = n then 1 else 0) + GraphReducer.stackCount st n := by
  by_cases h : f.node = n
  · simp [GraphReducer.stackCount, List.filter_cons, h, Nat.add_comm]
  · simp [GraphReducer.stackCount, List.filter_cons, h]

/-- The invariant only depends on the stack and the visit states. -/
theorem Invariant_congr (gr gr₂ : GraphReducer)
    (hstack : gr₂.stack = gr.stack) (hstate : gr₂.state = gr.state)
    (h : GraphReducer.Invariant gr) : GraphReducer.Invariant gr₂ := by
  intro n
  rw [hstack, hstate]
  exact h n

/-- `Push` preserves the invariant when the pushed node is not already on
the stack. -/
theorem Invariant_Push (gr : GraphReducer) (n : Nat)
    (h : GraphReducer.Invariant gr)
    (hn : gr.state n ≠ GraphReducer.State.kOnStack) :
    GraphReducer.Invariant (GraphReducer.Push gr n) := by
  intro m
  show GraphReducer.stackCount
      (({ node := n, input_index := 0 } : GraphReducer.NodeState) :: gr.stack) m
    = if GraphReducer.setVState gr.state n GraphReducer.State.kOnStack m
        = GraphReducer.State.kOnStack then 1 else 0
  rw [stackCount_cons, GraphReducer.setVState]
  by_cases hmn : m = n
  · subst hmn
    rw [if_pos rfl, if_pos rfl]
    have hm := h m
    rw [if_neg hn] at hm
    rw [hm]
    simp
  · rw [if_neg (fun hh => hmn hh.symm), if_neg hmn, Nat.zero_add]
    exact h m

/-- `Pop` preserves the invariant (and marks the popped node visited). -/
theorem Invariant_Pop (gr : GraphReducer) (h : GraphReducer.Invariant gr) :
    GraphReducer.Invariant (GraphReducer.Pop gr) := by
  cases hst : gr.stack with
  | nil =>
    intro m
    rw [GraphReducer.Pop, hst]
    exact h m
  | cons f rest =>
    have hf := h f.node
    rw [hst, stackCount_cons, if_pos rfl] at hf
    have h1 : GraphReducer.stackCount rest f.node = 0 := by
      by_cases hs : gr.state f.node = GraphReducer.State.kOnStack
      · rw [if_pos hs] at hf; omega
      · rw [if_neg hs] at hf; omega
    intro m
    rw [GraphReducer.Pop, hst]
    show GraphReducer.stackCount rest m
      = if GraphReducer.setVState gr.state f.node GraphReducer.State.kVisited m
          = GraphReducer.State.kOnStack then 1 else 0
    rw [GraphReducer.setVState]
    by_cases hm : m = f.node
    · subst hm
      rw [if_pos rfl, if_neg (by decide)]
      exact h1
    · rw [if_neg hm]
      have hm2 := h m
      rw [hst, stackCount_cons, if_neg (fun hh => hm hh.symm), Nat.zero_add]
        at hm2
      exact hm2

/-- `Recurse` preserves the invariant unconditionally: it only pushes a
node whose state is below `kOnStack`. -/
theorem Invariant_Recurse (gr : GraphReducer) (n : Nat)
    (h : GraphReducer.Invariant gr) :
    GraphReducer.Invariant (GraphReducer.Recurse gr n).2 := by
  rw [GraphReducer.Recurse]
  by_cases hc : GraphReducer.State.kRevisit.toNat < (gr.state n).toNat
  · rw [if_pos hc]; exact h
  · rw [if_neg hc]
    refine Invariant_Push gr n h ?_
    intro hs
    rw [hs] at hc
    exact hc (by decide)

/-- `Revisit` preserves the invariant: it moves a visited node to
`kRevisit`, neither of which is `kOnStack`. -/
theorem Invariant_Revisit (gr : GraphReducer) (n : Nat)
    (h : GraphReducer.Invariant gr) :
    GraphReducer.Invariant (GraphReducer.Revisit gr n) := by
  rw [GraphReducer.Revisit]
  by_cases hc : gr.state n = GraphReducer.State.kVisited
  · rw [if_pos hc]
    intro m
    show GraphReducer.stackCount gr.stack m
      = if GraphReducer.setVState gr.state n GraphReducer.State.kRevisit m
          = GraphReducer.State.kOnStack then 1 else 0
    rw [GraphReducer.setVState]
    by_cases hm : m = n
    · subst hm
      rw [if_pos rfl, if_neg (by decide)]
      have hn := h m
      rw [hc, if_neg (by decide)] at hn
      exact hn
    · rw [if_neg hm]
      exact h m
  · rw [if_neg hc]; exact h

/-- Folding `Revisit` over a list preserves the invariant. -/
theorem Invariant_foldl_Revisit (l : List Nat) (gr : GraphReducer)
    (h : GraphReducer.Invariant gr) :
    GraphReducer.Invariant (l.foldl GraphReducer.Revisit gr) := by
  induction l generalizing gr with
  | nil => exact h
  | cons a rest ih => exact ih _ (Invariant_Revisit gr a h)

/-- `revisitUses` preserves the invariant. -/
theorem Invariant_revisitUses (gr : GraphReducer) (node : Nat)
    (h : GraphReducer.Invariant gr) :
    GraphReducer.Invariant (GraphReducer.revisitUses gr node) := by
  rw [GraphReducer.revisitUses]
  generalize (gr.graph.useEdges node).map Prod.fst = l
  induction l generalizing gr with
  | nil => exact h
  | cons a rest ih =>
    rw [List.foldl_cons]
    refine ih _ ?_
    by_cases hc : a ≠ node
    · rw [if_pos hc]; exact Invariant_Revisit gr a h
    · rw [if_neg hc]; exact h

/-- `setCursor` preserves the invariant: it only adjusts a saved input
cursor, never which nodes occupy frames. -/
theorem Invariant_setCursor (gr : GraphReducer) (i : Nat)
    (h : GraphReducer.Invariant gr) :
    GraphReducer.Invariant (GraphReducer.setCursor gr i) := by
  intro m
  rw [GraphReducer.setCursor]
  cases hst : gr.stack with
  | nil =>
    have hm := h m
    rw [hst] at hm
    exact hm
  | cons top rest =>
    cases rest with
    | nil =>
      have hm := h m
      rw [hst] at hm
      exact hm
    | cons under rest2 =>
      have hm := h m
      rw [hst] at hm
      rw [stackCount_cons, stackCount_cons] at hm
      show GraphReducer.stackCount
          (top :: { under with input_index := i } :: rest2) m = _
      rw [stackCount_cons, stackCount_cons]
      exact hm

/-- The recurse-or-suspend combination shared by the scan loops preserves
the invariant. -/
theorem Invariant_recurse_branch (g : GraphReducer) (t i : Nat) (b : Bool)
    (gr₂ : GraphReducer)
    (heq : (match GraphReducer.Recurse g t with
      | (true, g2) => (true, GraphReducer.setCursor g2 (i + 1))
      | (false, g2) => (false, g2)) = (b, gr₂))
    (hg : GraphReducer.Invariant g) :
    GraphReducer.Invariant gr₂ := by
  cases hr : GraphReducer.Recurse g t with
  | mk b2 g2 =>
    rw [hr] at heq
    have h3 : (GraphReducer.Recurse g t).2 = g2 := congrArg Prod.snd hr
    cases b2
    · have h2 : ((false, g2) : Bool × GraphReducer) = (b, gr₂) := heq
      rw [← (Prod.mk.inj h2).2, ← h3]
      exact Invariant_Recurse g t hg
    · have h2 : ((true, GraphReducer.setCursor g2 (i + 1))
          : Bool × GraphReducer) = (b, gr₂) := heq
      rw [← (Prod.mk.inj h2).2, ← h3]
      exact Invariant_setCursor _ _ (Invariant_Recurse g t hg)

/-- One step of the input scan preserves the invariant. -/
theorem Invariant_scanStep (gr : GraphReducer) (node i : Nat)
    (h : GraphReducer.Invariant gr) (b : Bool) (gr₂ : GraphReducer)
    (heq : GraphReducer.scanStep gr node i = (b, gr₂)) :
    GraphReducer.Invariant gr₂ := by
  rw [GraphReducer.scanStep] at heq
  try dsimp only at heq
  by_cases hpl : (gr.graph.node ((gr.graph.node node).inputs.getD i 0)).op.opcode
      = Opcode.replacementPlaceholder
  · rw [if_pos hpl] at heq
    try dsimp only at heq
    split at heq
    · exact Invariant_recurse_branch _ _ i b gr₂ heq
        (Invariant_congr gr _ rfl rfl h)
    · rw [← (Prod.mk.inj heq).2]
      exact Invariant_congr gr _ rfl rfl h
  · rw [if_neg hpl] at heq
    try dsimp only at heq
    split at heq
    · exact Invariant_recurse_branch _ _ i b gr₂ heq h
    · rw [← (Prod.mk.inj heq).2]
      exact h

/-- The input-scan loop preserves the invariant. -/
theorem Invariant_scanInputs (node : Nat) :
    ∀ (l : List Nat) (gr : GraphReducer) (b : Bool) (gr₂ : GraphReducer),
      GraphReducer.scanInputs gr node l = (b, gr₂) →
      GraphReducer.Invariant gr →
      GraphReducer.Invariant gr₂ := by
  intro l
  induction l with
  | nil =>
    intro gr b gr₂ heq h
    have h2 : ((false, gr) : Bool × GraphReducer) = (b, gr₂) := heq
    rw [← (Prod.mk.inj h2).2]
    exact h
  | cons a rest ih =>
    intro gr b gr₂ heq h
    rw [GraphReducer.scanInputs] at heq
    split at heq
    · rename_i g2 hs
      rw [← (Prod.mk.inj heq).2]
      exact Invariant_scanStep gr node a h true g2 hs
    · rename_i g2 hs
      exact ih g2 b gr₂ heq (Invariant_scanStep gr node a h false g2 hs)

/-- One step of the rescan loop preserves the invariant. -/
theorem Invariant_rescanStep (gr : GraphReducer) (node i : Nat)
    (h : GraphReducer.Invariant gr) (b : Bool) (gr₂ : GraphReducer)
    (heq : GraphReducer.rescanStep gr node i = (b, gr₂)) :
    GraphReducer.Invariant gr₂ := by
  rw [GraphReducer.rescanStep] at heq
  try dsimp only at heq
  split at heq
  · exact Invariant_recurse_branch _ _ i b gr₂ heq h
  · rw [← (Prod.mk.inj heq).2]
    exact h

/-- The rescan loop preserves the invariant. -/
theorem Invariant_rescanInputs (node : Nat) :
    ∀ (l : List Nat) (gr : GraphReducer) (b : Bool) (gr₂ : GraphReducer),
      GraphReducer.rescanInputs gr node l = (b, gr₂) →
      GraphReducer.Invariant gr →
      GraphReducer.Invariant gr₂ := by
  intro l
  induction l with
  | nil =>
    intro gr b gr₂ heq h
    have h2 : ((false, gr) : Bool × GraphReducer) = (b, gr₂) := heq
    rw [← (Prod.mk.inj h2).2]
    exact h
  | cons a rest ih =>
    intro gr b gr₂ heq h
    rw [GraphReducer.rescanInputs] at heq
    split at heq
    · rename_i g2 hs
      rw [← (Prod.mk.inj heq).2]
      exact Invariant_rescanStep gr node a h true g2 hs
    · rename_i g2 hs
      exact ih g2 b gr₂ heq (Invariant_rescanStep gr node a h false g2 hs)

/-- The eager edge-replacement loop preserves the invariant. -/
theorem Invariant_replaceEdgesEager (node repl : Nat) :
    ∀ (l : List (Nat × Nat)) (gr gr₂ : GraphReducer),
      GraphReducer.Invariant gr →
      GraphReducer.replaceEdgesEager node repl l gr = Except.ok gr₂ →
      GraphReducer.Invariant gr₂ := by
  intro l
  induction l with
  | nil =>
    intro gr gr₂ h heq
    rw [← Except.ok.inj heq]
    exact h
  | cons e rest ih =>
    intro gr gr₂ h heq
    obtain ⟨u, k⟩ := e
    rw [GraphReducer.replaceEdgesEager] at heq
    split at heq
    · try dsimp only at heq
      refine ih _ _ ?_ heq
      split
      · exact Invariant_Revisit _ _ (Invariant_congr gr _ rfl rfl h)
      · exact Invariant_congr gr _ rfl rfl h
    · exact absurd heq (by simp)

/-- The watermark edge-replacement loop preserves the invariant. -/
theorem Invariant_replaceEdgesBounded (node repl max_id : Nat) :
    ∀ (l : List (Nat × Nat)) (gr : GraphReducer),
      GraphReducer.Invariant gr →
      GraphReducer.Invariant
        (GraphReducer.replaceEdgesBounded node repl max_id l gr) := by
  intro l
  induction l with
  | nil => intro gr h; exact h
  | cons e rest ih =>
    intro gr h
    obtain ⟨u, k⟩ := e
    rw [GraphReducer.replaceEdgesBounded]
    split
    · refine ih _ ?_
      split
      · exact Invariant_Revisit _ _ (Invariant_congr gr _ rfl rfl h)
      · exact Invariant_congr gr _ rfl rfl h
    · exact ih _ h

/-- The eager replacement branch preserves the invariant. -/
theorem Invariant_replaceEager (gr : GraphReducer) (node repl : Nat)
    (gr₂ : GraphReducer)
    (heq : GraphReducer.replaceEager gr node repl = Except.ok gr₂)
    (h : GraphReducer.Invariant gr) :
    GraphReducer.Invariant gr₂ := by
  rw [GraphReducer.replaceEager] at heq
  cases hre : GraphReducer.replaceEdgesEager node repl
      (gr.graph.useEdges node) gr with
  | error e =>
    rw [hre] at heq
    exact absurd (show (Except.error e : Except Err GraphReducer)
      = Except.ok gr₂ from heq) (by simp)
  | ok g2 =>
    rw [hre] at heq
    have h2 : (Except.ok { g2 with graph := g2.graph.kill node }
        : Except Err GraphReducer) = Except.ok gr₂ := heq
    rw [← Except.ok.inj h2]
    exact Invariant_congr g2 _ rfl rfl
      (Invariant_replaceEdgesEager node repl _ gr g2 h hre)

/-- `Replace` preserves the invariant in all three protocols. -/
theorem Invariant_Replace (P : Params) (gr : GraphReducer)
    (node repl max_id : Nat) (gr₂ : GraphReducer)
    (heq : GraphReducer.Replace P gr node repl max_id = Except.ok gr₂)
    (h : GraphReducer.Invariant gr) :
    GraphReducer.Invariant gr₂ := by
  have hfix : GraphReducer.Invariant (GraphReducer.fixDesignations gr node repl) :=
    Invariant_congr gr _ rfl rfl h
  rw [GraphReducer.Replace] at heq
  try dsimp only at heq
  split at heq
  · split at heq
    · split at heq
      · rw [← Except.ok.inj heq]
        exact Invariant_congr _ _ rfl rfl (Invariant_congr _ _ rfl rfl hfix)
      · exact Invariant_replaceEager _ node repl gr₂ heq
          (Invariant_congr _ _ rfl rfl hfix)
    · exact Invariant_replaceEager _ node repl gr₂ heq hfix
  · rw [← Except.ok.inj heq]
    refine Invariant_Recurse _ _ ?_
    split
    · exact Invariant_congr _ _ rfl rfl
        (Invariant_replaceEdgesBounded node repl max_id _ _ hfix)
    · exact Invariant_replaceEdgesBounded node repl max_id _ _ hfix

/-- A finalization round preserves the invariant. -/
theorem Invariant_finalizeRound (P : Params) (gr : GraphReducer)
    (h : GraphReducer.Invariant gr) :
    GraphReducer.Invariant (GraphReducer.finalizeRound P gr).2 := by
  have hgen : ∀ (l : List Nat) (g : GraphReducer), GraphReducer.Invariant g →
      GraphReducer.Invariant (l.foldl
        (fun g2 j => ((P.reducers.getD j defaultReducer).finalize
          gr.finalize_rounds).foldl GraphReducer.Revisit g2) g) := by
    intro l
    induction l with
    | nil => intro g hg; exact hg
    | cons a rest ih =>
      intro g hg
      rw [List.foldl_cons]
      exact ih _ (Invariant_foldl_Revisit _ _ hg)
  exact Invariant_congr _ _ rfl rfl (hgen (List.range P.reducers.length) gr h)

/-- `ReduceTop` preserves the invariant. -/
theorem Invariant_ReduceTop (P : Params) (gr : GraphReducer)
    (h : GraphReducer.Invariant gr) (evs : List Event) (gr₂ : GraphReducer)
    (heq : GraphReducer.ReduceTop P gr = Except.ok (evs, gr₂)) :
    GraphReducer.Invariant gr₂ := by
  rw [GraphReducer.ReduceTop] at heq
  split at heq
  · rw [← (Prod.mk.inj (Except.ok.inj heq)).2]
    exact h
  · try dsimp only at heq
    split at heq
    · rw [← (Prod.mk.inj (Except.ok.inj heq)).2]
      exact Invariant_Pop gr h
    · split at heq
      · rename_i g2 hs
        rw [← (Prod.mk.inj (Except.ok.inj heq)).2]
        exact Invariant_scanInputs _ _ gr true g2 hs h
      · rename_i g2 hs
        have hg2 : GraphReducer.Invariant g2 :=
          Invariant_scanInputs _ _ gr false g2 hs h
        split at heq
        · rename_i g3 hs3
          rw [← (Prod.mk.inj (Except.ok.inj heq)).2]
          exact Invariant_scanInputs _ _ g2 true g3 hs3 hg2
        · rename_i g3 hs3
          have hg3 : GraphReducer.Invariant g3 :=
            Invariant_scanInputs _ _ g2 false g3 hs3 hg2
          split at heq
          · rw [← (Prod.mk.inj (Except.ok.inj heq)).2]
            exact Invariant_Pop g3 hg3
          · split at heq
            · exact absurd heq (by simp)
            · rename_i red gg tr hd
              try dsimp only at heq
              split at heq
              · rw [← (Prod.mk.inj (Except.ok.inj heq)).2]
                exact Invariant_Pop _ (Invariant_congr g3 _ rfl rfl hg3)
              · rename_i repl
                split at heq
                · split at heq
                  · rename_i g5 hr5
                    rw [← (Prod.mk.inj (Except.ok.inj heq)).2]
                    exact Invariant_rescanInputs _ _ _ true g5 hr5
                      (Invariant_congr g3 _ rfl rfl hg3)
                  · rename_i g5 hr5
                    have hg5 : GraphReducer.Invariant g5 :=
                      Invariant_rescanInputs _ _ _ false g5 hr5
                        (Invariant_congr g3 _ rfl rfl hg3)
                    try dsimp only at heq
                    split at heq
                    · rename_i g7 hu
                      rw [← (Prod.mk.inj (Except.ok.inj heq)).2]
                      have hg7 : ({ GraphReducer.Pop g5 with
                          revisit_all_nodes := (GraphReducer.Pop g5).revisit_all_nodes
                            || P.heur (GraphReducer.Pop g5).nb_traversed_uses
                              (GraphReducer.Pop g5).nb_visited_nodes }
                          : GraphReducer) = g7 :=
                        congrArg Prod.snd hu
                      rw [← hg7]
                      exact Invariant_congr _ _ rfl rfl (Invariant_Pop g5 hg5)
                    · rename_i g7 hu
                      rw [← (Prod.mk.inj (Except.ok.inj heq)).2]
                      have hg7 : ({ GraphReducer.Pop g5 with
                          revisit_all_nodes := (GraphReducer.Pop g5).revisit_all_nodes
                            || P.heur (GraphReducer.Pop g5).nb_traversed_uses
                              (GraphReducer.Pop g5).nb_visited_nodes }
                          : GraphReducer) = g7 :=
                        congrArg Prod.snd hu
                      refine Invariant_revisitUses g7 _ ?_
                      rw [← hg7]
                      exact Invariant_congr _ _ rfl rfl (Invariant_Pop g5 hg5)
                · have hrep := except_map_pair_ok_snd _ _ _ _ heq
                  exact Invariant_Replace P _ _ _ _ gr₂ hrep
                    (Invariant_Pop _ (Invariant_congr g3 _ rfl rfl hg3))

/-- One driver-loop iteration preserves the invariant. -/
theorem Invariant_stepLoop (P : Params) (gr : GraphReducer)
    (h : GraphReducer.Invariant gr) :
    (∀ evs gr₂,
      GraphReducer.stepLoop P gr = Except.ok (GraphReducer.StepRes.more evs gr₂) →
      GraphReducer.Invariant gr₂)
    ∧ (∀ evs gr₂,
      GraphReducer.stepLoop P gr = Except.ok (GraphReducer.StepRes.halt evs gr₂) →
      GraphReducer.Invariant gr₂) := by
  constructor
  · intro evs gr₂ hq
    rw [GraphReducer.stepLoop] at hq
    split at hq
    · cases hrt : GraphReducer.ReduceTop P gr with
      | error e =>
        rw [hrt] at hq
        exact absurd (show (Except.error e : Except Err GraphReducer.StepRes)
          = Except.ok (GraphReducer.StepRes.more evs gr₂) from hq) (by simp)
      | ok p =>
        rw [hrt] at hq
        have h₂ : Except.ok (GraphReducer.StepRes.more p.1 p.2)
            = Except.ok (GraphReducer.StepRes.more evs gr₂) := hq
        rw [← (GraphReducer.StepRes.more.inj (Except.ok.inj h₂)).2]
        exact Invariant_ReduceTop P gr h p.1 p.2 (by rw [hrt])
    · split at hq
      · rename_i node rest
        rw [← (GraphReducer.StepRes.more.inj (Except.ok.inj hq)).2]
        split
        · rename_i hst2
          refine Invariant_Push _ _ (Invariant_congr gr _ rfl rfl h) ?_
          intro hc
          exact absurd (hst2.symm.trans hc) (by decide)
        · exact Invariant_congr gr _ rfl rfl h
      · split at hq
        · rename_i g3 hheu
          have hstack : gr.stack = [] := by assumption
          rw [← (GraphReducer.StepRes.more.inj (Except.ok.inj hq)).2]
          have hg3 : ({ gr with revisit_all_nodes := gr.revisit_all_nodes || P.heur gr.nb_traversed_uses gr.nb_visited_nodes } : GraphReducer) = g3 :=
            congrArg Prod.snd hheu
          refine Invariant_Push _ _ ?_ ?_
          · intro n
            show GraphReducer.stackCount g3.stack n
              = if GraphReducer.State.kUnvisited = GraphReducer.State.kOnStack
                  then 1 else 0
            rw [if_neg (by decide), ← hg3]
            show GraphReducer.stackCount gr.stack n = 0
            rw [hstack]
            rfl
          · intro hc
            exact GraphReducer.State.noConfusion hc
        · rename_i g3 hheu
          try dsimp only at hq
          split at hq
          · exact absurd (Except.ok.inj hq) (by simp)
          · rw [← (GraphReducer.StepRes.more.inj (Except.ok.inj hq)).2]
            have hg3 : ({ gr with revisit_all_nodes := gr.revisit_all_nodes || P.heur gr.nb_traversed_uses gr.nb_visited_nodes } : GraphReducer) = g3 :=
              congrArg Prod.snd hheu
            refine Invariant_finalizeRound P g3 ?_
            rw [← hg3]
            exact Invariant_congr gr _ rfl rfl h
  · intro evs gr₂ hq
    rw [GraphReducer.stepLoop] at hq
    split at hq
    · cases hrt : GraphReducer.ReduceTop P gr with
      | error e =>
        rw [hrt] at hq
        exact absurd (show (Except.error e : Except Err GraphReducer.StepRes)
          = Except.ok (GraphReducer.StepRes.halt evs gr₂) from hq) (by simp)
      | ok p =>
        rw [hrt] at hq
        have h₂ : Except.ok (GraphReducer.StepRes.more p.1 p.2)
            = Except.ok (GraphReducer.StepRes.halt evs gr₂) := hq
        exact absurd (Except.ok.inj h₂) (by simp)
    · split at hq
      · exact absurd (Except.ok.inj hq) (by simp)
      · split at hq
        · exact absurd (Except.ok.inj hq) (by simp)
        · rename_i g3 hheu
          try dsimp only at hq
          split at hq
          · rw [← (GraphReducer.StepRes.halt.inj (Except.ok.inj hq)).2]
            have hg3 : ({ gr with revisit_all_nodes := gr.revisit_all_nodes || P.heur gr.nb_traversed_uses gr.nb_visited_nodes } : GraphReducer) = g3 :=
              congrArg Prod.snd hheu
            refine Invariant_finalizeRound P g3 ?_
            rw [← hg3]
            exact Invariant_congr gr _ rfl rfl h
          · exact absurd (Except.ok.inj hq) (by simp)

/-- Any number of driver-loop iterations preserves the invariant. -/
theorem Invariant_iterate (P : Params) :
    ∀ (k : Nat) (gr : GraphReducer), GraphReducer.Invariant gr →
      ∀ gr₂, GraphReducer.iterate P k gr = Except.ok gr₂ →
      GraphReducer.Invariant gr₂ := by
  intro k
  induction k with
  | zero =>
    intro gr h gr₂ heq
    rw [← Except.ok.inj (show Except.ok gr = Except.ok gr₂ from heq)]
    exact h
  | succ k ih =>
    intro gr h gr₂ heq
    rw [GraphReducer.iterate] at heq
    split at heq
    · exact absurd heq (by simp)
    · rename_i evs g2 hs
      rw [← Except.ok.inj heq]
      exact (Invariant_stepLoop P gr h).2 evs g2 hs
    · rename_i evs g2 hs
      exact ih g2 ((Invariant_stepLoop P gr h).1 evs g2 hs) gr₂ heq

/-- C7: from any state satisfying the stack coherence invariant — a node
is `kOnStack` iff it occupies exactly one stack frame — every run of the
driver loop preserves the invariant; moreover `Push` preserves it when the
pushed node is not already on the stack, `Pop` moves the popped node to
`kVisited`, and `Recurse` refuses to push a node that is `kOnStack` or
`kVisited`. -/
theorem claim_C7_invariant (P : Params) (gr : GraphReducer)
    (h : GraphReducer.Invariant gr) :
    (∀ k gr₂, GraphReducer.iterate P k gr = Except.ok gr₂ →
      GraphReducer.Invariant gr₂)
    ∧ (∀ n, gr.state n ≠ GraphReducer.State.kOnStack →
        GraphReducer.Invariant (GraphReducer.Push gr n))
    ∧ (∀ f rest, gr.stack = f :: rest →
        (GraphReducer.Pop gr).state f.node = GraphReducer.State.kVisited)
    ∧ (∀ n, gr.state n = GraphReducer.State.kOnStack
          ∨ gr.state n = GraphReducer.State.kVisited →
        (GraphReducer.Recurse gr n).1 = false) := by
  refine ⟨fun k gr₂ heq => Invariant_iterate P k gr h gr₂ heq,
    fun n hn => Invariant_Push gr n h hn, ?_, ?_⟩
  · intro f rest hst
    rw [GraphReducer.Pop, hst]
    show GraphReducer.setVState gr.state f.node GraphReducer.State.kVisited
        f.node = _
    rw [GraphReducer.setVState, if_pos rfl]
  · intro n hn
    rw [GraphReducer.Recurse]
    cases hn with
    | inl hs =>
      rw [if_pos (show GraphReducer.State.kRevisit.toNat
        < (gr.state n).toNat by rw [hs]; decide)]
    | inr hs =>
      rw [if_pos (show GraphReducer.State.kRevisit.toNat
        < (gr.state n).toNat by rw [hs]; decide)]

/-- Witness for C7 on a concrete state whose stack holds exactly node 2:
popping marks node 2 visited. -/
theorem claim_C7_invariant_witness :
    (GraphReducer.Pop gr5).state 2 = GraphReducer.State.kVisited := by
  have hinv : GraphReducer.Invariant gr5 := by
    intro n
    by_cases hn : n = 2
    · subst hn; rfl
    · show GraphReducer.stackCount [⟨2, 0⟩] n
        = if (if n = 2 then GraphReducer.State.kOnStack
            else GraphReducer.State.kUnvisited)
            = GraphReducer.State.kOnStack then 1 else 0
      rw [if_neg hn, if_neg (show ¬ (GraphReducer.State.kUnvisited
        = GraphReducer.State.kOnStack) by decide)]
      rw [stackCount_cons, stackCount_nil]
      simp [Ne.symm hn]
  exact (claim_C7_invariant P10 gr5 hinv).2.2.1 ⟨2, 0⟩ [] rfl

/-- When every reducer invocation reports no change and returns its state
untouched, the dispatch loop completes with enough fuel, reporting no
change and the unchanged state. -/
theorem reduceLoop_quiescent {σ : Type} (node n : Nat)
    (call : σ → Nat → Reduction × σ)
    (hcall : ∀ s i, call s i = (Reduction.noChange, s)) :
    ∀ (fuel i : Nat) (s : σ), n - i < fuel →
      ∃ tr, GraphReducer.reduceLoop node n call fuel i none s
        = some (Reduction.noChange, s, tr) := by
  intro fuel
  induction fuel with
  | zero => intro i s h; omega
  | succ fuel ih =>
    intro i s h
    rw [GraphReducer.reduceLoop_succ]
    by_cases hi : i < n
    · rw [if_pos hi, if_neg (by simp), hcall s i]
      dsimp only
      obtain ⟨tr, htr⟩ := ih (i + 1) s (by omega)
      rw [htr]
      exact ⟨(i, Reduction.noChange) :: tr, rfl⟩
    · rw [if_neg hi]
      exact ⟨[], rfl⟩

/-- Replacing the truth value of one distinguished member of a
duplicate-free list from kept to dropped shrinks the filter by one. -/
theorem length_filter_update (m : Nat) (p q : Nat → Bool) :
    ∀ (l : List Nat), l.Nodup → m ∈ l → p m = true → q m = false →
      (∀ n ∈ l, n ≠ m → p n = q n) →
      (l.filter q).length + 1 = (l.filter p).length := by
  intro l
  induction l with
  | nil => intro _ hm; cases hm
  | cons a rest ih =>
    intro hnd hm hp hq hagree
    by_cases ham : a = m
    · subst ham
      rw [List.filter_cons, List.filter_cons, hp, hq]
      have hnotin : a ∉ rest := (List.nodup_cons.mp hnd).1
      have hcong : rest.filter q = rest.filter p := by
        apply List.filter_congr
        intro n hn
        exact (hagree n (List.mem_cons_of_mem a hn)
          (fun he => hnotin (he ▸ hn))).symm
      rw [hcong]
      simp
    · have hm2 : m ∈ rest := by
        cases List.mem_cons.mp hm with
        | inl he => exact absurd he.symm ham
        | inr hr => exact hr
      have hpa : p a = q a :=
        hagree a (List.mem_cons_self a rest) ham
      rw [List.filter_cons, List.filter_cons, ← hpa]
      have hrec := ih (List.nodup_cons.mp hnd).2 hm2 hp hq
        (fun n hn hne => hagree n (List.mem_cons_of_mem a hn) hne)
      cases hpb : p a
      · simp only [hpb, Bool.false_eq_true, if_false]
        omega
      · simp only [hpb, if_true, List.length_cons]
        omega

/-- Re-marking a node that is already unpushable keeps the pushable count
unchanged. -/
theorem pushable_setVState_high (g : Graph) (st : Nat → GraphReducer.State)
    (m : Nat) (v : GraphReducer.State)
    (hm : ¬ ((st m).toNat ≤ 1)) (hv : ¬ (v.toNat ≤ 1)) :
    GraphReducer.pushable g (GraphReducer.setVState st m v)
      = GraphReducer.pushable g st := by
  rw [GraphReducer.pushable, GraphReducer.pushable]
  congr 1
  apply List.filter_congr
  intro n _
  rw [GraphReducer.setVState]
  by_cases hn : n = m
  · subst hn
    rw [if_pos rfl]
    simp [hm, hv]
  · rw [if_neg hn]

/-- Pushing marks one pushable in-range node as on-stack, decrementing the
pushable count. -/
theorem pushable_setVState_push (g : Graph) (st : Nat → GraphReducer.State)
    (m : Nat) (hm : (st m).toNat ≤ 1) (hmN : m < g.nodes.length) :
    GraphReducer.pushable g
        (GraphReducer.setVState st m GraphReducer.State.kOnStack) + 1
      = GraphReducer.pushable g st := by
  rw [GraphReducer.pushable, GraphReducer.pushable]
  apply length_filter_update m
  · exact List.nodup_range _
  · exact List.mem_range.mpr hmN
  · simpa using hm
  · rw [GraphReducer.setVState, if_pos rfl]
    decide
  · intro n _ hne
    rw [GraphReducer.setVState, if_neg hne]

/-- Under the coherence invariant, the node of the topmost stack frame is
marked `kOnStack`. -/
theorem state_top_onStack (gr : GraphReducer) (f : GraphReducer.NodeState)
    (rest : List GraphReducer.NodeState)
    (hinv : GraphReducer.Invariant gr) (hst : gr.stack = f :: rest) :
    gr.state f.node = GraphReducer.State.kOnStack := by
  have hf := hinv f.node
  rw [hst, stackCount_cons, if_pos rfl] at hf
  by_cases hs : gr.state f.node = GraphReducer.State.kOnStack
  · exact hs
  · rw [if_neg hs] at hf
    omega

/-- Popping strictly decreases the depth-first measure. -/
theorem dfsMeasure_Pop (gr : GraphReducer) (f : GraphReducer.NodeState)
    (rest : List GraphReducer.NodeState)
    (hinv : GraphReducer.Invariant gr) (hst : gr.stack = f :: rest) :
    GraphReducer.dfsMeasure (GraphReducer.Pop gr)
      < GraphReducer.dfsMeasure gr := by
  have hO := state_top_onStack gr f rest hinv hst
  have hpop : GraphReducer.Pop gr
      = { gr with state := (GraphReducer.setVState gr.state f.node GraphReducer.State.kVisited), nb_visited_nodes := gr.nb_visited_nodes + 1, stack := rest } := by
    rw [GraphReducer.Pop, hst]
  rw [hpop, GraphReducer.dfsMeasure, GraphReducer.dfsMeasure]
  dsimp only
  rw [pushable_setVState_high _ _ _ _ (by rw [hO]; decide) (by decide), hst]
  simp

/-- The cursor fix preserves the depth-first measure. -/
theorem dfsMeasure_setCursor (gr : GraphReducer) (i : Nat) :
    GraphReducer.dfsMeasure (GraphReducer.setCursor gr i)
      = GraphReducer.dfsMeasure gr := by
  rw [GraphReducer.dfsMeasure, GraphReducer.dfsMeasure, GraphReducer.setCursor]
  cases hst : gr.stack with
  | nil => rfl
  | cons top rest =>
    cases rest with
    | nil => rfl
    | cons under rest2 => rfl

/-- Pushing a pushable in-range node and fixing the suspended cursor
strictly decreases the depth-first measure. -/
theorem dfsMeasure_push_cursor (gr : GraphReducer) (t i : Nat)
    (ht : t < gr.graph.nodes.length) (hts : (gr.state t).toNat ≤ 1) :
    GraphReducer.dfsMeasure (GraphReducer.setCursor (GraphReducer.Push gr t) i)
      < GraphReducer.dfsMeasure gr := by
  rw [dfsMeasure_setCursor]
  rw [GraphReducer.dfsMeasure, GraphReducer.dfsMeasure]
  show 2 * GraphReducer.pushable gr.graph
      (GraphReducer.setVState gr.state t GraphReducer.State.kOnStack)
      + (gr.stack.length + 1) < _
  have := pushable_setVState_push gr.graph gr.state t hts ht
  omega

/-- Under a non-placeholder input, one scan step either leaves the state
untouched (no push) or suspends after pushing that input. -/
theorem scanStep_quiet (gr : GraphReducer) (node i : Nat)
    (hnp : (gr.graph.node ((gr.graph.node node).inputs.getD i 0)).op.opcode
      ≠ Opcode.replacementPlaceholder)
    (b : Bool) (gr₂ : GraphReducer)
    (heq : GraphReducer.scanStep gr node i = (b, gr₂)) :
    (b = false ∧ gr₂ = gr)
    ∨ (b = true
        ∧ ((gr.state ((gr.graph.node node).inputs.getD i 0)).toNat ≤ 1)
        ∧ gr₂ = GraphReducer.setCursor
            (GraphReducer.Push gr ((gr.graph.node node).inputs.getD i 0))
            (i + 1)) := by
  rw [GraphReducer.scanStep] at heq
  try dsimp only at heq
  rw [if_neg hnp] at heq
  try dsimp only at heq
  split at heq
  · split at heq
    · rename_i g2 hr
      rw [GraphReducer.Recurse] at hr
      split at hr
      · exact absurd (Prod.mk.inj hr).1 (by simp)
      · rename_i hguard
        obtain ⟨hb, hg⟩ := Prod.mk.inj heq
        rw [show GraphReducer.State.kRevisit.toNat = 1 from rfl] at hguard
        refine Or.inr ⟨hb.symm, Nat.not_lt.mp hguard, ?_⟩
        rw [← hg, ← (Prod.mk.inj hr).2]
    · rename_i g2 hr
      rw [GraphReducer.Recurse] at hr
      split at hr
      · obtain ⟨hb, hg⟩ := Prod.mk.inj heq
        exact Or.inl ⟨hb.symm, by rw [← hg, ← (Prod.mk.inj hr).2]⟩
      · exact absurd (Prod.mk.inj hr).1 (by simp)
  · obtain ⟨hb, hg⟩ := Prod.mk.inj heq
    exact Or.inl ⟨hb.symm, hg.symm⟩

/-- Under non-placeholder inputs, the scan loop either passes through the
state unchanged or suspends having pushed exactly one scanned input. -/
theorem scanInputs_quiet (node : Nat) :
    ∀ (l : List Nat) (gr : GraphReducer) (b : Bool) (gr₂ : GraphReducer),
      (∀ i ∈ l, (gr.graph.node ((gr.graph.node node).inputs.getD i 0)).op.opcode
          ≠ Opcode.replacementPlaceholder) →
      GraphReducer.scanInputs gr node l = (b, gr₂) →
      (b = false ∧ gr₂ = gr)
      ∨ (b = true ∧ ∃ i, i ∈ l
          ∧ ((gr.state ((gr.graph.node node).inputs.getD i 0)).toNat ≤ 1)
          ∧ gr₂ = GraphReducer.setCursor
              (GraphReducer.Push gr ((gr.graph.node node).inputs.getD i 0))
              (i + 1)) := by
  intro l
  induction l with
  | nil =>
    intro gr b gr₂ _ heq
    have h2 : ((false, gr) : Bool × GraphReducer) = (b, gr₂) := heq
    exact Or.inl ⟨(Prod.mk.inj h2).1.symm, (Prod.mk.inj h2).2.symm⟩
  | cons a rest ih =>
    intro gr b gr₂ hnp heq
    rw [GraphReducer.scanInputs] at heq
    split at heq
    · rename_i g2 hs
      obtain ⟨hb, hg⟩ := Prod.mk.inj heq
      cases scanStep_quiet gr node a (hnp a (List.mem_cons_self a rest))
          true g2 hs with
      | inl hfalse => exact absurd hfalse.1 (by simp)
      | inr htrue =>
        exact Or.inr ⟨hb.symm, a, List.mem_cons_self a rest, htrue.2.1,
          by rw [← hg, htrue.2.2]⟩
    · rename_i g2 hs
      cases scanStep_quiet gr node a (hnp a (List.mem_cons_self a rest))
          false g2 hs with
      | inl hfalse =>
        rw [hfalse.2] at heq
        cases ih gr b gr₂ (fun i hi => hnp i (List.mem_cons_of_mem a hi)) heq with
        | inl h1 => exact Or.inl h1
        | inr h2 =>
          obtain ⟨hb, i, hi, hss, hg⟩ := h2
          exact Or.inr ⟨hb, i, List.mem_cons_of_mem a hi, hss, hg⟩
      | inr htrue => exact absurd htrue.1 (by simp)

/-- `setCursor` leaves every field except the stack untouched, and the
stack nodes themselves are preserved. -/
theorem setCursor_fields (gr : GraphReducer) (i : Nat) :
    (GraphReducer.setCursor gr i).graph = gr.graph
    ∧ (GraphReducer.setCursor gr i).revisit = gr.revisit
    ∧ (GraphReducer.setCursor gr i).nb_traversed_uses = gr.nb_traversed_uses
    ∧ (GraphReducer.setCursor gr i).revisit_all_nodes = gr.revisit_all_nodes
    ∧ (∀ f ∈ (GraphReducer.setCursor gr i).stack,
        ∃ f2 ∈ gr.stack, f.node = f2.node) := by
  rw [GraphReducer.setCursor]
  cases hst : gr.stack with
  | nil =>
    refine ⟨rfl, rfl, rfl, rfl, ?_⟩
    intro f hf
    exact ⟨f, hf, rfl⟩
  | cons top rest =>
    cases rest with
    | nil =>
      refine ⟨rfl, rfl, rfl, rfl, ?_⟩
      intro f hf
      exact ⟨f, hf, rfl⟩
    | cons under rest2 =>
      refine ⟨rfl, rfl, rfl, rfl, ?_⟩
      intro f hf
      cases List.mem_cons.mp hf with
      | inl he => exact ⟨top, List.mem_cons_self top (under :: rest2), by rw [he]⟩
      | inr hf2 =>
        cases List.mem_cons.mp hf2 with
        | inl he =>
          exact ⟨under, List.mem_cons_of_mem top
            (List.mem_cons_self under rest2), by rw [he]⟩
        | inr hf3 =>
          exact ⟨f, List.mem_cons_of_mem top (List.mem_cons_of_mem under hf3), rfl⟩

/-- The pop outcome of a quiet `ReduceTop` branch: the graph is unchanged,
the configuration stays quiescent, and the measure strictly decreases. -/
theorem pop_branch_facts (gr : GraphReducer) (f : GraphReducer.NodeState)
    (rest : List GraphReducer.NodeState)
    (hq : GraphReducer.QuiesceInv gr) (hst : gr.stack = f :: rest) :
    (GraphReducer.Pop gr).graph = gr.graph
    ∧ GraphReducer.QuiesceInv (GraphReducer.Pop gr)
    ∧ GraphReducer.dfsMeasure (GraphReducer.Pop gr)
        < GraphReducer.dfsMeasure gr := by
  obtain ⟨hrev, huses, hflag, hsbound, hinv⟩ := hq
  have hpop : GraphReducer.Pop gr
      = { gr with state := (GraphReducer.setVState gr.state f.node GraphReducer.State.kVisited), nb_visited_nodes := gr.nb_visited_nodes + 1, stack := rest } := by
    rw [GraphReducer.Pop, hst]
  refine ⟨by rw [hpop], ⟨?_, ?_, ?_, ?_, Invariant_Pop gr hinv⟩,
    dfsMeasure_Pop gr f rest hinv hst⟩
  · rw [hpop]; exact hrev
  · rw [hpop]; exact huses
  · rw [hpop]; exact hflag
  · rw [hpop]
    intro f2 hf2
    exact hsbound f2 (by rw [hst]; exact List.mem_cons_of_mem f hf2)

/-- The push outcome of a quiet scan: the graph is unchanged, the
configuration stays quiescent, and the measure strictly decreases. -/
theorem push_branch_facts (gr : GraphReducer) (t i : Nat)
    (hq : GraphReducer.QuiesceInv gr)
    (ht : t < gr.graph.nodes.length) (hts : (gr.state t).toNat ≤ 1) :
    (GraphReducer.setCursor (GraphReducer.Push gr t) i).graph = gr.graph
    ∧ GraphReducer.QuiesceInv (GraphReducer.setCursor (GraphReducer.Push gr t) i)
    ∧ GraphReducer.dfsMeasure (GraphReducer.setCursor (GraphReducer.Push gr t) i)
        < GraphReducer.dfsMeasure gr := by
  obtain ⟨hrev, huses, hflag, hsbound, hinv⟩ := hq
  obtain ⟨hg, hr, hu, hfl, hsn⟩ := setCursor_fields (GraphReducer.Push gr t) i
  have hts2 : gr.state t ≠ GraphReducer.State.kOnStack := by
    intro hc
    rw [hc] at hts
    exact absurd hts (by decide)
  refine ⟨hg, ⟨?_, ?_, ?_, ?_, Invariant_setCursor _ _ (Invariant_Push gr t hinv hts2)⟩,
    dfsMeasure_push_cursor gr t i ht hts⟩
  · rw [hr]; exact hrev
  · rw [hu]; exact huses
  · rw [hfl]; exact hflag
  · intro f2 hf2
    obtain ⟨f3, hf3, hnode⟩ := hsn f2 hf2
    rw [hg, hnode]
    cases List.mem_cons.mp hf3 with
    | inl he => rw [he]; exact ht
    | inr hf4 => exact hsbound f3 hf4

/-- In a quiescent configuration — reducers at a fixed point, adequate
dispatch fuel, a placeholder-free input-closed graph — `ReduceTop` on a
nonempty stack succeeds, leaves the graph untouched, keeps the
configuration quiescent, and strictly decreases the depth-first
measure. -/
theorem ReduceTop_quiet (P : Params) (gr : GraphReducer)
    (hred : ∀ j g m, (P.reducers.getD j defaultReducer).reduce g m
      = (Reduction.noChange, g))
    (hfuel : P.reducers.length < P.dispatchFuel)
    (hwf : ∀ n, n < gr.graph.nodes.length →
      ∀ i ∈ (gr.graph.node n).inputs, i < gr.graph.nodes.length)
    (hnp : ∀ n, n < gr.graph.nodes.length →
      (gr.graph.node n).op.opcode ≠ Opcode.replacementPlaceholder)
    (hq : GraphReducer.QuiesceInv gr)
    (f : GraphReducer.NodeState) (rest : List GraphReducer.NodeState)
    (hst : gr.stack = f :: rest)
    (res : Except Err (List Event × GraphReducer))
    (hRT : GraphReducer.ReduceTop P gr = res) :
    ∃ evs gr₂, res = Except.ok (evs, gr₂)
      ∧ gr₂.graph = gr.graph ∧ GraphReducer.QuiesceInv gr₂
      ∧ GraphReducer.dfsMeasure gr₂ < GraphReducer.dfsMeasure gr := by
  have hfN : f.node < gr.graph.nodes.length :=
    hq.2.2.2.1 f (by rw [hst]; exact List.mem_cons_self f rest)
  have hin : ∀ i, i < (gr.graph.node f.node).inputs.length →
      (gr.graph.node f.node).inputs.getD i 0 < gr.graph.nodes.length := by
    intro i hi
    refine hwf f.node hfN _ ?_
    rw [List.getD_eq_getElem?_getD, List.getElem?_eq_getElem hi]
    exact List.getElem_mem hi
  have hnpi : ∀ i, i < (gr.graph.node f.node).inputs.length →
      (gr.graph.node ((gr.graph.node f.node).inputs.getD i 0)).op.opcode
        ≠ Opcode.replacementPlaceholder := fun i hi => hnp _ (hin i hi)
  have hstart : (if f.input_index < (gr.graph.node f.node).inputs.length
      then f.input_index else 0) ≤ (gr.graph.node f.node).inputs.length := by
    split
    · omega
    · omega
  have hbound1 : ∀ i ∈ List.range'
      (if f.input_index < (gr.graph.node f.node).inputs.length
        then f.input_index else 0)
      ((gr.graph.node f.node).inputs.length
        - (if f.input_index < (gr.graph.node f.node).inputs.length
            then f.input_index else 0)),
      i < (gr.graph.node f.node).inputs.length := by
    intro i hi
    obtain ⟨h1, h2⟩ := List.mem_range'_1.mp hi
    omega
  have hbound2 : ∀ i ∈ List.range
      (if f.input_index < (gr.graph.node f.node).inputs.length
        then f.input_index else 0),
      i < (gr.graph.node f.node).inputs.length := by
    intro i hi
    have := List.mem_range.mp hi
    omega
  rw [GraphReducer.ReduceTop] at hRT
  split at hRT
  · have h0 : gr.stack = [] := by assumption
    rw [hst] at h0
    exact absurd h0 (by simp)
  · rename_i entry tail heqs
    have he : gr.stack = entry :: tail := heqs
    rw [hst] at he
    obtain ⟨hef, het⟩ := List.cons.inj he
    subst hef
    subst het
    try dsimp only at hRT
    split at hRT
    · obtain ⟨hg, hq2, hm⟩ := pop_branch_facts gr f rest hq hst
      exact ⟨[], GraphReducer.Pop gr, hRT.symm, hg, hq2, hm⟩
    · split at hRT
      · rename_i g2 hs
        cases scanInputs_quiet f.node _ gr true g2
            (fun i hi => hnpi i (hbound1 i hi)) hs with
        | inl hf => exact absurd hf.1 (by simp)
        | inr ht2 =>
          obtain ⟨-, i, hi, hsts, hg2⟩ := ht2
          obtain ⟨hg, hq2, hm⟩ := push_branch_facts gr _ (i + 1) hq
            (hin i (hbound1 i hi)) hsts
          rw [← hg2] at hg hq2 hm
          exact ⟨[], g2, hRT.symm, hg, hq2, hm⟩
      · rename_i g2 hs
        cases scanInputs_quiet f.node _ gr false g2
            (fun i hi => hnpi i (hbound1 i hi)) hs with
        | inr ht2 => exact absurd ht2.1 (by simp)
        | inl hf =>
          obtain ⟨-, hg2⟩ := hf
          subst g2
          split at hRT
          · rename_i g3 hs3
            cases scanInputs_quiet f.node _ gr true g3
                (fun i hi => hnpi i (hbound2 i hi)) hs3 with
            | inl hf3 => exact absurd hf3.1 (by simp)
            | inr ht3 =>
              obtain ⟨-, i, hi, hsts, hg3⟩ := ht3
              obtain ⟨hg, hq2, hm⟩ := push_branch_facts gr _ (i + 1) hq
                (hin i (hbound2 i hi)) hsts
              rw [← hg3] at hg hq2 hm
              exact ⟨[], g3, hRT.symm, hg, hq2, hm⟩
          · rename_i g3 hs3
            cases scanInputs_quiet f.node _ gr false g3
                (fun i hi => hnpi i (hbound2 i hi)) hs3 with
            | inr ht3 => exact absurd ht3.1 (by simp)
            | inl hf3 =>
              obtain ⟨-, hg3⟩ := hf3
              subst g3
              split at hRT
              · rename_i hplc
                exact absurd hplc (hnp f.node hfN)
              · try dsimp only at hRT
                split at hRT
                · rename_i hd
                  obtain ⟨tr0, htr0⟩ := reduceLoop_quiescent f.node
                    P.reducers.length
                    (fun g i => (P.reducers.getD i defaultReducer).reduce g f.node)
                    (fun s i => hred i s f.node) P.dispatchFuel 0 gr.graph
                    (by omega)
                  rw [GraphReducer.Reduce] at hd
                  rw [htr0] at hd
                  exact absurd hd (by simp)
                · rename_i red gg tr hd
                  obtain ⟨tr0, htr0⟩ := reduceLoop_quiescent f.node
                    P.reducers.length
                    (fun g i => (P.reducers.getD i defaultReducer).reduce g f.node)
                    (fun s i => hred i s f.node) P.dispatchFuel 0 gr.graph
                    (by omega)
                  rw [GraphReducer.Reduce] at hd
                  rw [htr0] at hd
                  obtain ⟨hred2, hrest2⟩ := Prod.mk.inj (Option.some.inj hd)
                  obtain ⟨hgg, htr⟩ := Prod.mk.inj hrest2
                  subst hred2
                  subst hgg
                  try dsimp only at hRT
                  obtain ⟨hg, hq2, hm⟩ := pop_branch_facts gr f rest hq hst
                  exact ⟨_, GraphReducer.Pop gr, hRT.symm, hg, hq2, hm⟩

/-- One quiet driver iteration: with frames on the stack it continues,
preserving quiescence and decreasing the measure; with an empty stack it
halts. -/
theorem stepLoop_quiet (P : Params) (gr : GraphReducer)
    (hred : ∀ j g m, (P.reducers.getD j defaultReducer).reduce g m
      = (Reduction.noChange, g))
    (hfin : ∀ j r, (P.reducers.getD j defaultReducer).finalize r = [])
    (hheur : ∀ v, P.heur 0 v = false)
    (hfuel : P.reducers.length < P.dispatchFuel)
    (hwf : ∀ n, n < gr.graph.nodes.length →
      ∀ i ∈ (gr.graph.node n).inputs, i < gr.graph.nodes.length)
    (hnp : ∀ n, n < gr.graph.nodes.length →
      (gr.graph.node n).op.opcode ≠ Opcode.replacementPlaceholder)
    (hq : GraphReducer.QuiesceInv gr) :
    (∀ f rest, gr.stack = f :: rest →
      ∃ evs gr₂,
        GraphReducer.stepLoop P gr = Except.ok (GraphReducer.StepRes.more evs gr₂)
        ∧ gr₂.graph = gr.graph ∧ GraphReducer.QuiesceInv gr₂
        ∧ GraphReducer.dfsMeasure gr₂ < GraphReducer.dfsMeasure gr)
    ∧ (gr.stack = [] →
      ∃ evs gr₂,
        GraphReducer.stepLoop P gr
          = Except.ok (GraphReducer.StepRes.halt evs gr₂)) := by
  constructor
  · intro f rest hst
    obtain ⟨evs, gr₂, hok, hg, hq2, hm⟩ :=
      ReduceTop_quiet P gr hred hfuel hwf hnp hq f rest hst _ rfl
    refine ⟨evs, gr₂, ?_, hg, hq2, hm⟩
    rw [GraphReducer.stepLoop, hst]
    dsimp only
    rw [hok]
    rfl
  · intro hst
    obtain ⟨hrev, huses, hflag, hsb, hinv⟩ := hq
    have hupd : GraphReducer.update_and_get_revisit_all_nodes P gr
        = (false, { gr with revisit_all_nodes := false }) := by
      rw [GraphReducer.update_and_get_revisit_all_nodes]
      try dsimp only
      rw [hflag, huses, hheur gr.nb_visited_nodes]
      rfl
    rw [GraphReducer.stepLoop, hst, hrev, hupd]
    try dsimp only
    have hfr := finalizeRound_of_allEmpty P { gr with revisit_all_nodes := false }
      hfin
    refine ⟨(GraphReducer.finalizeRound P { gr with revisit_all_nodes := false }).1,
      (GraphReducer.finalizeRound P { gr with revisit_all_nodes := false }).2, ?_⟩
    rw [if_pos (show (GraphReducer.finalizeRound P
      { gr with revisit_all_nodes := false }).2.revisit = [] by rw [hfr]; exact hrev)]

/-- A quiescent run halts with enough fuel: the measure bounds the number
of continuing iterations. -/
theorem run_quiet (P : Params)
    (hred : ∀ j g m, (P.reducers.getD j defaultReducer).reduce g m
      = (Reduction.noChange, g))
    (hfin : ∀ j r, (P.reducers.getD j defaultReducer).finalize r = [])
    (hheur : ∀ v, P.heur 0 v = false)
    (hfuel : P.reducers.length < P.dispatchFuel) :
    ∀ (fuel : Nat) (gr : GraphReducer),
      (∀ n, n < gr.graph.nodes.length →
        ∀ i ∈ (gr.graph.node n).inputs, i < gr.graph.nodes.length) →
      (∀ n, n < gr.graph.nodes.length →
        (gr.graph.node n).op.opcode ≠ Opcode.replacementPlaceholder) →
      GraphReducer.QuiesceInv gr →
      GraphReducer.dfsMeasure gr < fuel →
      ∃ evs gr₂, GraphReducer.run P fuel gr = Except.ok (evs, gr₂) := by
  intro fuel
  induction fuel with
  | zero => intro gr _ _ _ hm; omega
  | succ fuel ih =>
    intro gr hwf hnp hq hm
    cases hst : gr.stack with
    | nil =>
      obtain ⟨evs, gr₂, hstep⟩ :=
        (stepLoop_quiet P gr hred hfin hheur hfuel hwf hnp hq).2 hst
      refine ⟨evs, gr₂, ?_⟩
      rw [GraphReducer.run, hstep]
    | cons f rest =>
      obtain ⟨evs, gr₂, hstep, hg, hq2, hm2⟩ :=
        (stepLoop_quiet P gr hred hfin hheur hfuel hwf hnp hq).1 f rest hst
      obtain ⟨evs2, gr₃, hrun⟩ := ih gr₂ (by rw [hg]; exact hwf)
        (by rw [hg]; exact hnp) hq2 (by omega)
      refine ⟨evs ++ evs2, gr₃, ?_⟩
      rw [GraphReducer.run, hstep]
      dsimp only
      rw [hrun]

/-- Phase A of the divergent run: reducing node 0 reports no change, so
the node is popped. -/
theorem stA_step (u v r : Nat) :
    GraphReducer.stepLoop P9 (stA u v r)
      = Except.ok (GraphReducer.StepRes.more [Event.reduceCall 0 0]
          (stB u (v + 1) r)) := rfl

/-- Phase B: the heuristic stays off (traversed uses never exceed visited
nodes), the finalizer enqueues node 0, and the driver loops. -/
theorem stB_step (u v r : Nat) (h : u ≤ v) :
    GraphReducer.stepLoop P9 (stB u v r)
      = Except.ok (GraphReducer.StepRes.more [Event.finalizeCall 0]
          (stC (u + 1) v (r + 1))) := by
  have hs : GraphReducer.specHeur 100 u v = false := by
    rw [GraphReducer.specHeur]
    simp
    omega
  have hb : GraphReducer.update_and_get_revisit_all_nodes P9 (stB u v r)
      = (false, stB u v r) := by
    show ((false || GraphReducer.specHeur 100 u v),
        { stB u v r with
          revisit_all_nodes := (false || GraphReducer.specHeur 100 u v) })
      = (false, stB u v r)
    rw [hs]
    rfl
  rw [GraphReducer.stepLoop, hb]
  rfl

/-- Phase C: node 0 is popped from the revisit queue and pushed again —
the run is back at phase A. -/
theorem stC_step (u v r : Nat) :
    GraphReducer.stepLoop P9 (stC u v r)
      = Except.ok (GraphReducer.StepRes.more [] (stA u v r)) := by
  have hstf : GraphReducer.setVState stCstate 0 GraphReducer.State.kOnStack
      = stAstate := by
    funext n
    by_cases hn : n = 0
    · subst hn; rfl
    · simp [GraphReducer.setVState, stAstate, stBstate, stCstate, hn]
  show Except.ok (GraphReducer.StepRes.more []
      ({ graph := g3, dead := 0, state := (GraphReducer.setVState stCstate 0 GraphReducer.State.kOnStack), revisit := [], stack := [⟨0, 0⟩], nb_traversed_uses := u, nb_visited_nodes := v, revisit_all_nodes := false, finalize_rounds := r } : GraphReducer))
    = Except.ok (GraphReducer.StepRes.more [] (stA u v r))
  rw [hstf]
  rfl

/-- The run over `g3` with the always-enqueueing finalizer exhausts any
amount of fuel: from each phase the driver loops forever. -/
theorem run_P9_diverges : ∀ fuel : Nat,
    (∀ u v r, u ≤ v →
      GraphReducer.run P9 fuel (stA u v r) = Except.error Err.outOfFuel)
    ∧ (∀ u v r, u < v →
      GraphReducer.run P9 fuel (stB u v r) = Except.error Err.outOfFuel)
    ∧ (∀ u v r, u ≤ v →
      GraphReducer.run P9 fuel (stC u v r) = Except.error Err.outOfFuel) := by
  intro fuel
  induction fuel with
  | zero => exact ⟨fun _ _ _ _ => rfl, fun _ _ _ _ => rfl, fun _ _ _ _ => rfl⟩
  | succ fuel ih =>
    refine ⟨?_, ?_, ?_⟩
    · intro u v r h
      rw [GraphReducer.run, stA_step u v r]
      dsimp only
      rw [ih.2.1 u (v + 1) r (by omega)]
    · intro u v r h
      rw [GraphReducer.run, stB_step u v r (Nat.le_of_lt h)]
      dsimp only
      rw [ih.2.2 (u + 1) v (r + 1) (by omega)]
    · intro u v r h
      rw [GraphReducer.run, stC_step u v r]
      dsimp only
      rw [ih.1 u v r h]

/-- C9: a single one-node graph and a single reducer whose rule always
reports Unchanged (hence monotone toward a fixed point in the strongest
sense) make `ReduceGraph` diverge, because its finalizer enqueues node 0
in every round: no amount of fuel yields a terminating run — the
unconditional termination claim fails. -/
theorem claim_C9_counterexample :
    (∀ j g m, (P9.reducers.getD j defaultReducer).reduce g m
      = (Reduction.noChange, g))
    ∧ ∀ fuel, ¬ ∃ evs gr₂,
        GraphReducer.ReduceGraph P9 fuel gr3 = Except.ok (evs, gr₂) := by
  constructor
  · intro j g m
    match j with
    | 0 => rfl
    | j + 1 => rfl
  · intro fuel hex
    obtain ⟨evs, gr₂, h⟩ := hex
    have hd := (run_P9_diverges fuel).1 0 0 0 (Nat.le_refl 0)
    have h2 : GraphReducer.run P9 fuel (stA 0 0 0) = Except.ok (evs, gr₂) := h
    rw [hd] at h2
    exact absurd h2 (by simp)

/-- C9, amended: termination additionally needs the finalizers to stop
enqueueing; at a global fixed point — every reducer's rule reports
Unchanged leaving the graph untouched and no finalizer requests work —
`ReduceGraph` terminates on every placeholder-free, input-closed graph
(with the source ratio heuristic and adequate dispatch fuel). -/
theorem claim_C9_amended (P : Params) (gr : GraphReducer)
    (hred : ∀ j g m, (P.reducers.getD j defaultReducer).reduce g m
      = (Reduction.noChange, g))
    (hfin : ∀ j r, (P.reducers.getD j defaultReducer).finalize r = [])
    (hheur : ∀ v, P.heur 0 v = false)
    (hfuel : P.reducers.length < P.dispatchFuel)
    (hwf : ∀ n, n < gr.graph.nodes.length →
      ∀ i ∈ (gr.graph.node n).inputs, i < gr.graph.nodes.length)
    (hnp : ∀ n, n < gr.graph.nodes.length →
      (gr.graph.node n).op.opcode ≠ Opcode.replacementPlaceholder)
    (hend : gr.graph.endId < gr.graph.nodes.length)
    (hstack : gr.stack = []) (hrev : gr.revisit = [])
    (hinv : GraphReducer.Invariant gr) :
    ∃ fuel evs gr₂,
      GraphReducer.ReduceGraph P fuel gr = Except.ok (evs, gr₂) := by
  have hnotS : ∀ n, gr.state n ≠ GraphReducer.State.kOnStack := by
    intro n hc
    have hn := hinv n
    rw [hstack, if_pos hc] at hn
    have h0 : GraphReducer.stackCount [] n = 0 := rfl
    omega
  have hq0 : GraphReducer.QuiesceInv
      (GraphReducer.Push { gr with revisit_all_nodes := false, nb_traversed_uses := 0, nb_visited_nodes := 0 } gr.graph.endId) := by
    refine ⟨hrev, rfl, rfl, ?_, ?_⟩
    · intro f hf
      have hf2 : f ∈ ({ node := gr.graph.endId, input_index := 0 }
          : GraphReducer.NodeState) :: gr.stack := hf
      rw [hstack] at hf2
      cases List.mem_cons.mp hf2 with
      | inl he => rw [he]; exact hend
      | inr hf3 => cases hf3
    · refine Invariant_Push _ _ ?_ (hnotS gr.graph.endId)
      intro n
      show GraphReducer.stackCount gr.stack n
        = if gr.state n = GraphReducer.State.kOnStack then 1 else 0
      exact hinv n
  obtain ⟨evs, gr₂, hrun⟩ := run_quiet P hred hfin hheur hfuel
    (GraphReducer.dfsMeasure (GraphReducer.Push { gr with revisit_all_nodes := false, nb_traversed_uses := 0, nb_visited_nodes := 0 } gr.graph.endId) + 1)
    (GraphReducer.Push { gr with revisit_all_nodes := false, nb_traversed_uses := 0, nb_visited_nodes := 0 } gr.graph.endId)
    hwf hnp hq0 (Nat.lt_succ_self _)
  exact ⟨GraphReducer.dfsMeasure (GraphReducer.Push { gr with revisit_all_nodes := false, nb_traversed_uses := 0, nb_visited_nodes := 0 } gr.graph.endId) + 1, evs, gr₂, hrun⟩

/-- Witness for the amended C9 on the concrete two-node graph with a
quiescent reducer: a terminating fuel exists. -/
theorem claim_C9_amended_witness :
    ∃ fuel evs gr₂,
      GraphReducer.ReduceGraph P8 fuel gr8 = Except.ok (evs, gr₂) :=
  claim_C9_amended P8 gr8
    (fun j g m => by cases j <;> rfl)
    (fun j r => by cases j <;> rfl)
    (fun v => by rw [show P8.heur = GraphReducer.specHeur 100 from rfl,
      GraphReducer.specHeur]; simp)
    (by decide) (by decide) (by decide) (by decide) rfl rfl
    (fun n => rfl)

/-- Witness for C4 at concrete inputs: on `g4a` the value user 1 ends at
value 5, the effect user 2 at effect 6, and the exception-marker user 3 at
the dead sentinel 8 (not at control 7); on `g4b` the success-marker user 1
is killed wholesale while node 0 stays alive. -/
theorem claim_C4_replaceWithValue_witness :
    (∃ grA, GraphReducer.ReplaceWithValue P10 gr4a 0 (some 5) (some 6) (some 7)
        = Except.ok grA
      ∧ grA.graph.input 1 0 = 5 ∧ grA.graph.input 2 0 = 6
      ∧ grA.graph.input 3 0 = 8)
    ∧ (∃ grB, GraphReducer.ReplaceWithValue P10 gr4b 0 (some 5) (some 6) (some 2)
        = Except.ok grB
      ∧ (grB.graph.node 1).dead = true ∧ (grB.graph.node 0).dead = false) := by
  constructor
  · refine ⟨_, rfl, ?_⟩
    have h := claim_C4_replaceWithValue.1 P10 gr4a 0 5 6 7 _ (by decide)
      (by decide) (by decide) rfl
    refine ⟨?_, ?_, ?_⟩
    · exact ((h.1 1 0 (by decide)).2 (by decide)).2 (by decide)
    · exact ((h.1 2 0 (by decide)).2 (by decide)).1 (by decide)
    · exact ((h.1 3 0 (by decide)).1 (by decide)).1 (by decide)
  · refine ⟨_, rfl, ?_⟩
    have h := claim_C4_replaceWithValue.2 P10 gr4b 0 5 6 2 1 0 _ (by decide)
      (by decide) (by decide) (by decide) (by decide) (by decide) rfl
    exact ⟨h.1, (h.2 0 (by decide)).trans (by decide)⟩

end V8
